import Mathlib

/-!
Verification development for the `luaparser` repository (a diagnostic Lua
front end: lexer, buffered token stream, recursive-descent parser with
error recovery).  The Python sources `luaparser/lexer.py`,
`luaparser/types.py` and `luaparser/parser.py` are shallowly embedded as
executable Lean functions: mutable state is threaded explicitly, Python
exceptions become explicit result variants, machine iteration becomes
fuel-based structural recursion (fuel large enough for each concrete run),
and `difflib.SequenceMatcher.ratio()` floating-point comparisons are
modelled as exact rational comparisons via cross-multiplication (the token
texts involved are short, so the float and rational comparisons agree).
Python `set` literals are modelled as lists in source order; dictionaries
as insertion-ordered association lists.
-/

namespace LuaParser

/-- TokenType from `types.py`: all the possible token types. -/
inductive TokenType where
  | name
  | str
  | num
  | key
  | sym
  | invalid
deriving DecidableEq, Repr

/-- ASCII model of Python `str.isspace` for the characters this course
assignment exercises (space, tab, newline, vertical tab, form feed,
carriage return). -/
def isSpaceCh (c : Char) : Bool :=
  c = ' ' || c = '\t' || c = '\n' || c = '\x0b' || c = '\x0c' || c = '\r'

/-- `re.match('[0-9]', c)`. -/
def isDigitCh (c : Char) : Bool :=
  '0' ≤ c && c ≤ '9'

/-- `re.match('[a-zA-Z_]', c)`: characters that may begin a name. -/
def isNameStart (c : Char) : Bool :=
  ('a' ≤ c && c ≤ 'z') || ('A' ≤ c && c ≤ 'Z') || c = '_'

/-- `re.match('[0-9a-zA-Z_]', c)`: characters inside a name. -/
def isNameCh (c : Char) : Bool :=
  isDigitCh c || isNameStart c

/-- `re.match('[0-9a-fA-F]', c)`: hexadecimal digits. -/
def isHexCh (c : Char) : Bool :=
  isDigitCh c || ('a' ≤ c && c ≤ 'f') || ('A' ≤ c && c ≤ 'F')

/-- The 21 reserved words of `Lexer.name`. -/
def keywords : List String :=
  ["and", "break", "do", "else", "elseif", "end", "false",
   "for", "function", "if", "in", "local", "nil", "not", "or",
   "repeat", "return", "then", "true", "until", "while"]

namespace Lexer

/-- `Lexer.name`: greedily consume a `[0-9a-zA-Z_]` run and classify it as
keyword or name. -/
def name (source : List Char) : List Char × TokenType :=
  let token := source.takeWhile isNameCh
  if String.mk token ∈ keywords then (token, TokenType.key)
  else (token, TokenType.name)

/-- The decimal loop of `Lexer.number`: arguments are the remaining input
and the `decimal` / `exponent` / `after_exponent` flags; the result is the
accumulated token text, the diagnostics raised as `LexEx` and caught in the
loop (in order), and the `self._skip` increments performed. -/
def numberLoop : List Char → Bool → Bool → Bool → List Char × List String × Nat
  | [], _, _, _ => ([], [], 0)
  | c :: cs, decimal, exponent, after_exponent =>
    if !after_exponent && (c = '+' || c = '-') then ([], [], 0)
    else if c = '.' then
      if decimal then
        let (t, es, k) := numberLoop cs decimal exponent false
        (t, "Decimal point occurs multiple times." :: es, k + 1)
      else
        let (t, es, k) := numberLoop cs true exponent false
        (c :: t, es, k)
    else if c = 'e' || c = 'E' then
      if exponent then
        let (t, es, k) := numberLoop cs decimal exponent false
        (t, "Multiple exponents in number." :: es, k + 1)
      else
        let (t, es, k) := numberLoop cs decimal true true
        (c :: t, es, k)
    else if !isDigitCh c && !(c = '+' || c = '-') then ([], [], 0)
    else
      let (t, es, k) := numberLoop cs decimal exponent false
      (c :: t, es, k)

/-- `Lexer.number`: hexadecimal (`0x` prefix) or decimal form.  Returns the
token text, the diagnostics reported, and the `self._skip` adjustment. -/
def number (source : List Char) : List Char × List String × Nat :=
  if ['0', 'x'].isPrefixOf source then
    ('0' :: 'x' :: (source.drop 2).takeWhile isHexCh, [], 0)
  else numberLoop source false false false

/-- The character loop of the quoted branch of `Lexer.string`: arguments
are the closing quote, the remaining input, and the `escaped` flag; the
result is the text appended to the token (after the opening quote), the
illegal-escape diagnostics, the `self._skip` decrements from those
diagnostics (as a count), and whether the closing quote was found. -/
def quotedLoop (q : Char) : List Char → Bool → List Char × List String × Nat × Bool
  | [], _ => ([], [], 0, false)
  | c :: cs, escaped =>
    if escaped then
      if c ∈ ['a', 'b', 'f', 'n', 'r', 't', 'v', '\\', '\"', '\''] || isDigitCh c then
        let (t, es, k, cl) := quotedLoop q cs false
        (c :: t, es, k, cl)
      else
        let (t, es, k, cl) := quotedLoop q cs false
        ('\\' :: c :: t, "Illegal escape in string." :: es, k + 1, cl)
    else if c = '\\' then
      let (t, es, k, cl) := quotedLoop q cs true
      (c :: t, es, k, cl)
    else if c = q then
      ([q], [], 0, true)
    else
      let (t, es, k, cl) := quotedLoop q cs false
      (c :: t, es, k, cl)

/-- Split a list at the first occurrence of a character: models Python
`val.split(ch, 1)` succeeding (`none` when the character is absent, which
in the source raises `ValueError` on unpacking). -/
def splitOnceChar (ch : Char) : List Char → Option (List Char × List Char)
  | [] => none
  | c :: cs =>
    if c = ch then some ([], cs)
    else match splitOnceChar ch cs with
      | some (a, b) => some (c :: a, b)
      | none => none

/-- Split a list at the first occurrence of a (nonempty) pattern: models
Python `val.split(pattern, 1)` finding a separator. -/
def splitOnceList (pat : List Char) : List Char → Option (List Char × List Char)
  | [] => none
  | c :: cs =>
    if pat.isPrefixOf (c :: cs) then some ([], (c :: cs).drop pat.length)
    else match splitOnceList pat cs with
      | some (a, b) => some (c :: a, b)
      | none => none

/-- Count the non-overlapping leftmost occurrences of a nonempty pattern;
`l.split(pat)` in Python has `1 + countOcc pat l` pieces. -/
def countOcc (pat : List Char) (fuel : Nat) (l : List Char) : Nat :=
  match fuel with
  | 0 => 0
  | fuel + 1 =>
    match splitOnceList pat l with
    | some (_, b) => 1 + countOcc pat fuel b
    | none => 0

/-- Python `str.split()` with no arguments keeps only nonempty chunks; the
source only uses the first chunk (or `''` when the text is all
whitespace), which is this function. -/
def firstWsChunk (l : List Char) : List Char :=
  (l.dropWhile isSpaceCh).takeWhile (fun c => !isSpaceCh c)

/-- `Lexer.string`: quoted or long-bracket string scanning.  Returns the
token text, the diagnostics reported (in order), and the `self._skip`
adjustment (an integer: string recovery decrements it). -/
def string (source : List Char) : List Char × List String × Int :=
  match source with
  | [] => ([], [], 0)
  | bracket0 :: val =>
    if bracket0 = '[' then
      -- long string
      let (bracketL, val1, errs1, skip1) :=
        match splitOnceChar '[' val with
        | some (a, b) => (a, b, ([] : List String), (0 : Int))
        | none =>
          let bEq := val.takeWhile (fun c => c = '=')
          (bEq, val.drop bEq.length,
           ["String does not have a second \x27[\x27 symbol."], (-1 : Int))
      let (bracketL, errs2) :=
        if bracketL.any (fun c => c ≠ '=') && bracketL ≠ [] then
          (List.replicate bracketL.length '=',
           ["Symbols other than \x27=\x27 between initial \x27[\x27."])
        else (bracketL, [])
      let tokenOpen := '[' :: bracketL ++ ['[']
      let closing := ']' :: bracketL ++ [']']
      let (body, errs3, skip3) :=
        match splitOnceList closing val1 with
        | some (a, _) => (a, ([] : List String), (0 : Int))
        | none =>
          (firstWsChunk val1, ["String not closed."], -(closing.length : Int))
      let token := tokenOpen ++ body ++ closing
      let errs4 :=
        if 2 ≤ countOcc tokenOpen (token.length + 1) token then
          ["Long brackets are nested."]
        else []
      (token, errs1 ++ errs2 ++ errs3 ++ errs4, skip1 + skip3)
    else
      let (body, errsQ, escSkips, closed) := quotedLoop bracket0 val false
      if closed then
        (bracket0 :: body, errsQ, -(escSkips : Int))
      else
        let token := firstWsChunk (bracket0 :: body)
        (token ++ [bracket0], errsQ ++ ["String not closed."],
         -(escSkips : Int) - 1)

/-- `Lexer.symbols`: single-character symbols, then multi-character
symbols longest-first, else an invalid token with a diagnostic. -/
def symbols (source : List Char) : List Char × TokenType × List String :=
  match source with
  | [] => ([], TokenType.invalid, [])
  | c :: _ =>
    if c ∈ ['+', '-', '*', '/', '%', '^', '#', '(', ')', '\x7b', '\x7d',
            '[', ']', ';', ':', ','] then
      ([c], TokenType.sym, [])
    else
      let longs := ["...", "..", ".", "==", "~=", "<=", "=", ">=", "<", ">"]
      match longs.find? (fun s => s.data.isPrefixOf source) with
      | some s => (s.data, TokenType.sym, [])
      | none =>
        ([c], TokenType.invalid,
         ["\x27" ++ String.mk [c] ++ "\x27 does not start a valid token."])

end Lexer

/-- Output of a lexing run: the yielded tokens `(text, type, line)`
(`invalid` triples suppressed), the concatenable pieces (each skipped
whitespace character and every scanner-returned token text, invalid ones
included, in source order), the diagnostics with their line numbers, and
whether the run aborted (a `self.skip` call that tried to advance the
exhausted character iterator, which in Python raises through the
generator as a `RuntimeError`). -/
structure LexOut where
  toks : List (String × TokenType × Nat)
  pieces : List (List Char)
  errs : List (Nat × String)
  aborted : Bool
deriving DecidableEq, Repr

/-- One character of line accounting: the iterator in `Lexer.iterator`
increments the line number for the character after a newline. -/
def nlCount (l : List Char) : Nat := l.count '\n'

/-- Dispatch of `Lexer.lexer` at a non-whitespace character: returns the
scanned token text, its type, the diagnostics, and the skip adjustment. -/
def Lexer.dispatch (c : Char) (rest : List Char) :
    List Char × TokenType × List String × Int :=
  if isNameStart c then
    let (t, tt) := Lexer.name (c :: rest)
    (t, tt, [], 0)
  else if isDigitCh c then
    let (t, es, k) := Lexer.number (c :: rest)
    (t, TokenType.num, es, (k : Int))
  else if c = '"' || c = '\'' ||
      ['[', '='].isPrefixOf (c :: rest) || ['[', '['].isPrefixOf (c :: rest) then
    let (t, es, k) := Lexer.string (c :: rest)
    (t, TokenType.str, es, k)
  else
    let (t, tt, es) := Lexer.symbols (c :: rest)
    (t, tt, es, 0)

/-- The loop of `Lexer.lexer`, fuel-based (each iteration consumes at
least the character pulled by the `for` loop, so fuel
`source.length + 1` always suffices).  `line` is the line number of the
next unconsumed character. -/
def Lexer.lexer : Nat → List Char → Nat → LexOut
  | 0, _, _ => ⟨[], [], [], true⟩
  | _ + 1, [], _ => ⟨[], [], [], false⟩
  | fuel + 1, c :: rest, line =>
    if isSpaceCh c then
      let o := Lexer.lexer fuel rest (line + nlCount [c])
      { o with pieces := [c] :: o.pieces }
    else
      let (token, ttype, errs, skipAdj) := Lexer.dispatch c rest
      let errsT := errs.map (fun m => (line, m))
      let adv : Int := (token.length : Int) - 1 + skipAdj
      if adv < 0 || (rest.length : Int) < adv then
        ⟨[], [token], errsT, true⟩
      else
        let k := adv.toNat
        let o := Lexer.lexer fuel (rest.drop k) (line + nlCount (c :: rest.take k))
        ⟨(if ttype ≠ TokenType.invalid then
            (String.mk token, ttype, line) :: o.toks else o.toks),
         token :: o.pieces, errsT ++ o.errs, o.aborted⟩

/-- Run the lexer on a whole source string, as `Lexer.__init__` +
`Lexer.lexer` do (line numbering starts at 1). -/
def lexRun (s : String) : LexOut :=
  Lexer.lexer (s.data.length + 1) s.data 1

example : (lexRun "ab 12").pieces = [['a','b'], [' '], ['1','2']] := by decide
example : (lexRun "\"a").pieces = [['"','a','"']] := by decide
example : (lexRun "1.2.3").toks = [("1.23", TokenType.num, 1)] := by decide
example : (lexRun "1.2.3").errs = [(1, "Decimal point occurs multiple times.")] := by
  decide

/-!
`difflib.SequenceMatcher` (no junk predicate; autojunk is irrelevant for
the short token texts compared here).  `ratio()` is `2*M/T` where `M` is
the total size of the matching blocks computed by the recursive
longest-matching-block decomposition and `T` the sum of the lengths.
Ratios are kept as exact pairs `(2*M, T)` and compared by
cross-multiplication; for the short strings compared by the parser the
correctly-rounded float comparisons of the source agree with the exact
rational ones.
-/

/-- Ascending positions of a character in `b` (the `b2j` table). -/
def b2j (b : List Char) (c : Char) : List Nat :=
  (b.enum.filter (fun p => p.2 = c)).map (fun p => p.1)

/-- Lookup in the previous row of the `j2len` dynamic programming table;
Python `j2len.get(j - 1, 0)` (with `j = 0` the key `-1` is absent). -/
def j2lenGet (m : List (Nat × Nat)) (j : Nat) : Nat :=
  if j = 0 then 0
  else match m.find? (fun p => p.1 = j - 1) with
    | some p => p.2
    | none => 0

/-- Inner loop of `find_longest_match` over the positions of `a[i]` in
`b` (ascending): builds the new `j2len` row and updates the best block
`(besti, bestj, bestsize)`. -/
def flmPositions : List Nat → List (Nat × Nat) → Nat → Nat → Nat →
    List (Nat × Nat) → Nat × Nat × Nat → List (Nat × Nat) × (Nat × Nat × Nat)
  | [], _, _, _, _, acc, best => (acc, best)
  | j :: js, old, blo, bhi, i, acc, best =>
    if j < blo then flmPositions js old blo bhi i acc best
    else if bhi ≤ j then (acc, best)
    else
      let k := j2lenGet old j + 1
      let best' := if best.2.2 < k then (i + 1 - k, j + 1 - k, k) else best
      flmPositions js old blo bhi i ((j, k) :: acc) best'

/-- Outer loop of `find_longest_match` over `a[alo:ahi]`. -/
def flmRows (b : List Char) (blo bhi : Nat) :
    List Char → Nat → List (Nat × Nat) → Nat × Nat × Nat → Nat × Nat × Nat
  | [], _, _, best => best
  | c :: cs, i, j2len, best =>
    let (new, best') := flmPositions (b2j b c) j2len blo bhi i [] best
    flmRows b blo bhi cs (i + 1) new best'

/-- `SequenceMatcher.find_longest_match` over the window
`a[alo:ahi] × b[blo:bhi]` (no junk, so the post-DP junk-extension loops
of the source are no-ops). -/
def findLongestMatch (a b : List Char) (alo ahi blo bhi : Nat) :
    Nat × Nat × Nat :=
  flmRows b blo bhi ((a.take ahi).drop alo) alo [] (alo, blo, 0)

/-- Total matched size over `get_matching_blocks` (the recursive
decomposition around each longest block); fuel `|a| + |b| + 1` always
suffices because each recursion level strips a nonempty block. -/
def matchesTotal (a b : List Char) : Nat → Nat → Nat → Nat → Nat → Nat
  | 0, _, _, _, _ => 0
  | fuel + 1, alo, ahi, blo, bhi =>
    let (i, j, k) := findLongestMatch a b alo ahi blo bhi
    if k = 0 then 0
    else matchesTotal a b fuel alo i blo j + k +
      matchesTotal a b fuel (i + k) ahi (j + k) bhi

/-- `ratio()` as the exact pair `(2*M, T)`. -/
def ratioPair (a b : List Char) : Nat × Nat :=
  (2 * matchesTotal a b (a.length + b.length + 1) 0 a.length 0 b.length,
   a.length + b.length)

/-- `ratio() > 0.65`, i.e. `2*M/T > 13/20`, by cross-multiplication. -/
def ratioGtSimilar (a b : List Char) : Bool :=
  13 * (ratioPair a b).2 < 20 * (ratioPair a b).1

/-- `r1 > r2` for two ratio pairs (positive denominators), by
cross-multiplication; the `maximum` accumulator of `Parser.e_set` starts
at the integer `0`, represented as `(0, 1)`. -/
def ratioGt (r1 r2 : Nat × Nat) : Bool :=
  r2.1 * r1.2 < r1.1 * r2.2

/-- `r ≤ 0.65` for a ratio pair. -/
def ratioLeSimilar (r : Nat × Nat) : Bool :=
  20 * r.1 ≤ 13 * r.2

example : ratioPair "whille".data "while".data = (10, 11) := by decide
example : ratioGtSimilar "whille".data "while".data = true := by decide
example : ratioGtSimilar "x".data "end".data = false := by decide

/-!  The token stream (`Tokens` in `types.py`). -/

/-- The buffered token stream: the current token's text, type and line
(all `none` for the end-of-input sentinel) and the unconsumed remainder
of the underlying token sequence. -/
structure Tokens where
  t : Option String
  tt : Option TokenType
  line : Option Nat
  rest : List (String × TokenType × Nat)
deriving DecidableEq, Repr

/-- `Tokens.__init__`: store the iterator and pull the first token (with
the `(None, None, None)` default). -/
def Tokens.init : List (String × TokenType × Nat) → Tokens
  | [] => ⟨none, none, none, []⟩
  | (t, tt, ln) :: rest => ⟨some t, some tt, some ln, rest⟩

/-- `Tokens.next`: advance, substituting the `(None, None, None)`
sentinel when the underlying iterator is exhausted. -/
def Tokens.next (tk : Tokens) : Tokens :=
  match tk.rest with
  | [] => ⟨none, none, none, []⟩
  | (t, tt, ln) :: rest => ⟨some t, some tt, some ln, rest⟩

/-- `Tokens.match`: consume the current token when its text equals `s`. -/
def Tokens.matchT (tk : Tokens) (s : String) : Bool × Tokens :=
  if tk.t = some s then (true, tk.next) else (false, tk)

/-- `Tokens.match_type`: consume when the current type equals `tt0`. -/
def Tokens.matchType (tk : Tokens) (tt0 : TokenType) : Bool × Tokens :=
  if tk.tt = some tt0 then (true, tk.next) else (false, tk)

/-- `Tokens.match_set`: consume when the current text is in the set. -/
def Tokens.matchSet (tk : Tokens) (s : List String) : Bool × Tokens :=
  match tk.t with
  | some t0 => if t0 ∈ s then (true, tk.next) else (false, tk)
  | none => (false, tk)

/-- `Tokens.set_t`: overwrite the current token in place. -/
def Tokens.set_t (tk : Tokens) (t : String) (tt0 : TokenType) : Tokens :=
  { tk with t := some t, tt := some tt0 }

/-- `Tokens.empty`: all tokens processed. -/
def Tokens.empty (tk : Tokens) : Bool :=
  tk.t = none

/-- `Tokens.lookahead_ttt` (and `lookahead`): peek at the next token via
a tee of the remainder; on an exhausted remainder the source calls
`next(tokens)` with no default, raising `StopIteration` — modelled as
`none`. -/
def Tokens.lookahead_ttt (tk : Tokens) : Option (String × TokenType) :=
  match tk.rest with
  | [] => none
  | (t, tt, _) :: _ => some (t, tt)

/-!  The parser (`parser.py`).  Python exceptions become explicit result
variants: `EllipsisException` and `EndOfScopeException` are the two
internal control signals, and `StopIteration` (a lookahead on an
exhausted stream), `TypeError` (string concatenation or
`SequenceMatcher` on the `None` sentinel) and `UnboundLocalError`
(`temp` referenced before assignment in `e_set`) are the uncaught crash
modes the source can reach. -/

/-- Python exceptions that can escape a parser procedure. -/
inductive PExc where
  | ellipsisE (msg : String) (line : Option Nat) (params : List String)
  | endOfScopeE (s : String)
  | stopIteration
  | typeError
  | unboundLocal
deriving DecidableEq, Repr

/-- Result of a parser procedure: a value, an escaping exception, or
fuel exhaustion of the embedding. -/
inductive Res (α : Type) where
  | ok (a : α)
  | exc (e : PExc)
  | fuelOut
deriving DecidableEq, Repr

/-- The parser's mutable state: the token stream, the `ErrorStore`
contents (line may be `None`), the function table as an
insertion-ordered association list, `self._lastfunction` and
`self._unnamed_function`. -/
structure PState where
  toks : Tokens
  errors : List (Option Nat × String)
  functions : List (String × List String)
  lastfunction : String
  unnamed_function : Nat
deriving DecidableEq, Repr

/-- `ErrorStore.report`. -/
def report (line : Option Nat) (msg : String) (s : PState) : PState :=
  { s with errors := s.errors ++ [(line, msg)] }

/-- `str(x)` for the optional token text (`str(None) = "None"`). -/
def tokenTextStr : Option String → String
  | none => "None"
  | some s => s

/-- `str(x)` for the optional line number. -/
def lineStr : Option Nat → String
  | none => "None"
  | some n => toString n

/-- Dictionary lookup in the function table. -/
def funcsLookup : List (String × List String) → String → Option (List String)
  | [], _ => none
  | (k, v) :: rest, k0 => if k = k0 then some v else funcsLookup rest k0

/-- Dictionary assignment: overwrite in place or append. -/
def funcsSet : List (String × List String) → String → List String →
    List (String × List String)
  | [], k, v => [(k, v)]
  | (k0, v0) :: rest, k, v =>
    if k0 = k then (k0, v) :: rest else (k0, v0) :: funcsSet rest k v

/-- In-place `+=` / `.append` on a function-table entry. -/
def funcsAppend (fns : List (String × List String)) (k : String)
    (more : List String) : List (String × List String) :=
  funcsSet fns k ((funcsLookup fns k).getD [] ++ more)

namespace Parser

/-- Sequencing of stateful results. -/
def pbind (x : PState × Res α) (f : α → PState → PState × Res β) :
    PState × Res β :=
  match x with
  | (s, .ok a) => f a s
  | (s, .exc e) => (s, .exc e)
  | (s, .fuelOut) => (s, .fuelOut)

/-- `Parser.e`: store an error at the current location; with a nonempty
`expected`, first consume the current token when its similarity ratio to
`expected` strictly exceeds 0.65.  A `None` current token makes
`SequenceMatcher.ratio()` raise `TypeError`. -/
def e (expected : String) (msg : String) (s : PState) : PState × Res Unit :=
  if expected = "" then
    (report s.toks.line
      ("\x27" ++ tokenTextStr s.toks.t ++ "\x27 not expected. " ++ msg ++ ".")
      s, .ok ())
  else
    match s.toks.t with
    | none => (s, .exc .typeError)
    | some cur =>
      let msg1 := "\x27" ++ expected ++ "\x27 " ++ msg
      let s1 := if ratioGtSimilar cur.data expected.data then
          { s with toks := s.toks.next } else s
      (report s1.toks.line
        ("\x27" ++ tokenTextStr s1.toks.t ++ "\x27 not expected. " ++ msg1 ++ ".")
        s1, .ok ())

/-- The candidate loop of `Parser.e_set`: `temp` is a local that stays
unbound until the first non-`None` candidate (referencing it earlier is
`UnboundLocalError`) and goes stale over `None` candidates;
`best_match` is overwritten with the current candidate whenever
`temp > maximum`, so in the (unreachable) stale case it could become
`None` — hence `Option String`. -/
def eSetLoop (cur : Option String) : List (Option String) →
    Option (Nat × Nat) → Nat × Nat → Option String →
    Res ((Nat × Nat) × Option String)
  | [], _, maximum, best => .ok (maximum, best)
  | e0 :: rest, temp, maximum, best =>
    let temp' : Res (Option (Nat × Nat)) :=
      match e0 with
      | some ex =>
        match cur with
        | none => .exc .typeError
        | some c => .ok (some (ratioPair c.data ex.data))
      | none => .ok temp
    match temp' with
    | .exc ex => .exc ex
    | .fuelOut => .fuelOut
    | .ok none => .exc .unboundLocal
    | .ok (some tp) =>
      if ratioGt tp maximum then eSetLoop cur rest (some tp) tp e0
      else eSetLoop cur rest (some tp) maximum best

/-- The candidate-selection phase of `Parser.e_set`: pick the
best-scoring candidate, keep it only above the 0.65 threshold, and
optionally consume. -/
def e_setCore (expectation : List (Option String)) (increment : Bool)
    (s : PState) : PState × Res (Option String) :=
  if expectation.isEmpty then (s, .ok (some ""))
  else
    match eSetLoop s.toks.t expectation none (0, 1) (some "") with
    | .exc ex => (s, .exc ex)
    | .fuelOut => (s, .fuelOut)
    | .ok (maximum, best) =>
      if ratioLeSimilar maximum then (s, .ok (some ""))
      else if increment then ({ s with toks := s.toks.next }, .ok best)
      else (s, .ok best)

/-- `Parser.e_set`: the selection phase followed by the optional `msg`
report. -/
def e_set (expectation : List (Option String)) (increment : Bool)
    (msg : String) (s : PState) : PState × Res (Option String) :=
  match e_setCore expectation increment s with
  | (s1, .ok best) =>
    if msg ≠ "" then (report s1.toks.line (msg ++ ".") s1, .ok best)
    else (s1, .ok best)
  | other => other

/-- `Parser.name`: return the current token's text; consume it when it
is a `Name`, otherwise report.  (The error message concatenates the
text, so a `None` current token would raise `TypeError`.) -/
def name (s : PState) : PState × Res String :=
  match s.toks.t with
  | some temp =>
    if s.toks.tt = some TokenType.name then
      ({ s with toks := s.toks.next }, .ok temp)
    else
      pbind (e "" ("\x27" ++ temp ++ "\x27 is not a valid name") s)
        (fun _ s1 => (s1, .ok temp))
  | none =>
    if s.toks.tt = some TokenType.name then
      ({ s with toks := s.toks.next }, .ok "")
    else (s, .exc .typeError)

/-- The `while self.t.match(".")` loop of `Parser.funcname`. -/
def funcnameDots : Nat → PState → PState × Res Unit
  | 0, s => (s, .fuelOut)
  | fuel + 1, s =>
    let (m, tk) := s.toks.matchT "."
    if m then
      let s := { s with toks := tk,
                        lastfunction := s.lastfunction ++ "." }
      pbind (name s) (fun n s =>
        funcnameDots fuel { s with lastfunction := s.lastfunction ++ n })
    else (s, .ok ())

/-- `Parser.funcname`: accumulate the dotted/colon-qualified name into
`self._lastfunction`. -/
def funcname (fuel : Nat) (s : PState) : PState × Res Unit :=
  let s := { s with lastfunction := "" }
  pbind (name s) (fun n s =>
  let s := { s with lastfunction := s.lastfunction ++ n }
  pbind (funcnameDots fuel s) (fun _ s =>
  let (m, tk) := s.toks.matchT ":"
  if m then
    let s := { s with toks := tk, lastfunction := s.lastfunction ++ ":" }
    pbind (name s) (fun n s =>
      ({ s with lastfunction := s.lastfunction ++ n }, .ok ()))
  else (s, .ok ())))

mutual

/-- `Parser.var`. -/
def var : Nat → PState → PState × Res Unit
  | 0, s => (s, .fuelOut)
  | fuel + 1, s =>
    match varorfunctioncall fuel false [] s with
    | (s, .ok true) => (s, .ok ())
    | (s, .ok false) => e "" "Variable expected" s
    | (s, .exc ex) => (s, .exc ex)
    | (s, .fuelOut) => (s, .fuelOut)

/-- `Parser.index`. -/
def index : Nat → PState → PState × Res Unit
  | 0, s => (s, .fuelOut)
  | fuel + 1, s =>
    let (m, tk) := s.toks.matchT "."
    if m then pbind (name { s with toks := tk }) (fun _ s => (s, .ok ()))
    else
      let (m2, tk2) := s.toks.matchT "["
      if m2 then
        pbind (exp fuel { s with toks := tk2 }) (fun _ s =>
        let (m3, tk3) := s.toks.matchT "]"
        let s := { s with toks := tk3 }
        if m3 then (s, .ok ()) else e "]" "expected" s)
      else e "" "\x27.\x27 or \x27[\x27 expected" s

/-- `Parser.tableconstructor`. -/
def tableconstructor : Nat → PState → PState × Res Unit
  | 0, s => (s, .fuelOut)
  | fuel + 1, s =>
    let (m, tk) := s.toks.matchT "\x7b"
    let s := { s with toks := tk }
    pbind (if m then (s, .ok ()) else e "\x7b" "expected" s) (fun _ s =>
    let (m2, tk2) := s.toks.matchT "\x7d"
    let s := { s with toks := tk2 }
    if m2 then (s, .ok ())
    else
      pbind (field fuel s) (fun _ s =>
      pbind (tcLoop fuel s) (fun _ s =>
      let (m3, tk3) := s.toks.matchT "\x7d"
      let s := { s with toks := tk3 }
      if m3 then (s, .ok ()) else e "\x7d" "expected" s)))

/-- The `while self.t.match_set({',', ';'})` loop of
`Parser.tableconstructor`. -/
def tcLoop : Nat → PState → PState × Res Unit
  | 0, s => (s, .fuelOut)
  | fuel + 1, s =>
    let (m, tk) := s.toks.matchSet [",", ";"]
    if m then
      let s := { s with toks := tk }
      if s.toks.t = some "\x7d" then (s, .ok ())
      else pbind (field fuel s) (fun _ s => tcLoop fuel s)
    else (s, .ok ())

/-- `Parser.call`. -/
def call : Nat → PState → PState × Res Unit
  | 0, s => (s, .fuelOut)
  | fuel + 1, s =>
    let (m, tk) := s.toks.matchT ":"
    pbind (if m then pbind (name { s with toks := tk })
            (fun _ s => (s, .ok ())) else (s, .ok ())) (fun _ s =>
    let (mstr, tkstr) := s.toks.matchType TokenType.str
    let s := { s with toks := tkstr }
    if mstr then (s, .ok ())
    else
      let (mp, tkp) := s.toks.matchT "("
      if mp then
        let s := { s with toks := tkp }
        let (mrp, tkrp) := s.toks.matchT ")"
        let s := { s with toks := tkrp }
        if mrp then (s, .ok ())
        else
          pbind (explist fuel s) (fun _ s =>
          let (mrp2, tkrp2) := s.toks.matchT ")"
          let s := { s with toks := tkrp2 }
          if mrp2 then (s, .ok ()) else e ")" "expected" s)
      else if s.toks.t = some "\x7b" then tableconstructor fuel s
      else e "" "\x27(\x27, \x27\x7b\x27 or a string expected" s)

/-- `Parser.field`. -/
def field : Nat → PState → PState × Res Unit
  | 0, s => (s, .fuelOut)
  | fuel + 1, s =>
    let (m, tk) := s.toks.matchT "["
    if m then
      pbind (exp fuel { s with toks := tk }) (fun _ s =>
      let (m2, tk2) := s.toks.matchT "]"
      let s := { s with toks := tk2 }
      if m2 then (s, .ok ()) else e "]" "expected" s)
    else if s.toks.tt = some TokenType.name then
      match s.toks.lookahead_ttt with
      | none => (s, .exc .stopIteration)
      | some (la, _) =>
        if la = "=" then exp fuel { s with toks := s.toks.next.next }
        else exp fuel s
    else exp fuel s

/-- `Parser.value`. -/
def value : Nat → PState → PState × Res Unit
  | 0, s => (s, .fuelOut)
  | fuel + 1, s =>
    let (m1, tk1) := s.toks.matchSet ["nil", "false", "true", "..."]
    let s := { s with toks := tk1 }
    if m1 then (s, .ok ())
    else
      let (m2, tk2) := s.toks.matchType TokenType.num
      let s := { s with toks := tk2 }
      if m2 then (s, .ok ())
      else
        let (m3, tk3) := s.toks.matchType TokenType.str
        let s := { s with toks := tk3 }
        if m3 then (s, .ok ())
        else
          let (mf, tkf) := s.toks.matchT "function"
          if mf then funcbody fuel { s with toks := tkf }
          else if s.toks.t = some "\x7b" then tableconstructor fuel s
          else pbind (varorfunctioncall fuel true [] s) (fun _ s => (s, .ok ()))

/-- `Parser.explist`: one expression, then at most one `,` expression. -/
def explist : Nat → PState → PState × Res Unit
  | 0, s => (s, .fuelOut)
  | fuel + 1, s =>
    pbind (exp fuel s) (fun _ s =>
    let (m, tk) := s.toks.matchT ","
    if m then exp fuel { s with toks := tk } else (s, .ok ()))

/-- `Parser.funcbody`: record the function, parse the parameter list,
and (only when the parameter list was nonempty, because the
`nmatch(")")` guard encloses the rest of the body) clear
`self._lastfunction` and parse the body chunk. -/
def funcbody : Nat → PState → PState × Res Unit
  | 0, s => (s, .fuelOut)
  | fuel + 1, s =>
    let s := if s.lastfunction = "" then
        { s with
          lastfunction := "Unnamed function " ++ toString s.unnamed_function ++
            " on line " ++ lineStr s.toks.line,
          unnamed_function := s.unnamed_function + 1 }
      else s
    pbind (if (funcsLookup s.functions s.lastfunction).isSome then
        e "" ("Function \x27" ++ s.lastfunction ++ "\x27 defined multiple times") s
      else (s, .ok ())) (fun _ s =>
    let s := { s with functions := funcsSet s.functions s.lastfunction [] }
    let (mo, tko) := s.toks.matchT "("
    let s := { s with toks := tko }
    pbind (if mo then (s, .ok ())
      else e "(" ("expected in function \x27" ++ s.lastfunction ++ "\x27") s)
      (fun _ s =>
    let (mc, tkc) := s.toks.matchT ")"
    let s := { s with toks := tkc }
    if mc then (s, .ok ())
    else
      let (md, tkd) := s.toks.matchT "..."
      pbind (if md then
          let s := { s with toks := tkd }
          ({ s with functions := funcsAppend s.functions s.lastfunction ["..."] },
           .ok ())
        else
          match namelist fuel s with
          | (s, .ok ps) =>
            ({ s with functions := funcsAppend s.functions s.lastfunction ps },
             .ok ())
          | (s, .exc (.ellipsisE _ _ ps)) =>
            ({ s with functions :=
                funcsAppend s.functions s.lastfunction (ps ++ ["..."]) },
             .ok ())
          | (s, .exc ex) => (s, .exc ex)
          | (s, .fuelOut) => (s, .fuelOut)) (fun _ s =>
      let (mc2, tkc2) := s.toks.matchT ")"
      let s := { s with toks := tkc2 }
      pbind (if mc2 then (s, .ok ())
        else e ")" ("expected in function \x27" ++ s.lastfunction ++ "\x27") s)
        (fun _ s =>
      let s := { s with lastfunction := "" }
      pbind (chunk fuel [some "end"] s) (fun _ s => (s, .ok ()))))))

/-- `Parser.namelist`. -/
def namelist : Nat → PState → PState × Res (List String)
  | 0, s => (s, .fuelOut)
  | fuel + 1, s =>
    pbind (name s) (fun n s => nlLoop fuel [n] s)

/-- The `while self.t.match(",")` loop of `Parser.namelist`; raises
`EllipsisException` (carrying the names so far) on `...`. -/
def nlLoop : Nat → List String → PState → PState × Res (List String)
  | 0, _, s => (s, .fuelOut)
  | fuel + 1, temp, s =>
    let (m, tk) := s.toks.matchT ","
    if m then
      let s := { s with toks := tk }
      let (me, tke) := s.toks.matchT "..."
      if me then
        let s := { s with toks := tke }
        (s, .exc (.ellipsisE "\x27...\x27 encountered in namelist"
          s.toks.line temp))
      else pbind (name s) (fun n s => nlLoop fuel (temp ++ [n]) s)
    else (s, .ok temp)

/-- `Parser.exp`. -/
def exp : Nat → PState → PState × Res Unit
  | 0, s => (s, .fuelOut)
  | fuel + 1, s =>
    let (m, tk) := s.toks.matchSet ["-", "not", "#"]
    if m then exp fuel { s with toks := tk }
    else
      pbind (value fuel s) (fun _ s =>
      let (m2, tk2) := s.toks.matchSet ["+", "-", "*", "/", "^", "%", "..",
        "<", "<=", ">", ">=", "==", "~=", "and", "or"]
      if m2 then exp fuel { s with toks := tk2 } else (s, .ok ()))

/-- `Parser.stat`. -/
def stat : Nat → List (Option String) → PState → PState × Res Unit
  | 0, _, s => (s, .fuelOut)
  | fuel + 1, cond, s =>
    let (mdo, tk) := s.toks.matchT "do"
    if mdo then
      pbind (chunk fuel [some "end"] { s with toks := tk })
        (fun _ s => (s, .ok ()))
    else
    let (mw, tk) := s.toks.matchT "while"
    if mw then
      pbind (exp fuel { s with toks := tk }) (fun _ s =>
      let (md, tkd) := s.toks.matchT "do"
      let s := { s with toks := tkd }
      pbind (if md then (s, .ok ())
        else e "do" "not found after \x27while\x27" s) (fun _ s =>
      pbind (chunk fuel [some "end"] s) (fun _ s => (s, .ok ()))))
    else
    let (mr, tk) := s.toks.matchT "repeat"
    if mr then
      pbind (chunk fuel [some "until"] { s with toks := tk })
        (fun _ s => exp fuel s)
    else
    let (mi, tk) := s.toks.matchT "if"
    if mi then
      pbind (exp fuel { s with toks := tk }) (fun _ s =>
      let (mt, tkt) := s.toks.matchT "then"
      let s := { s with toks := tkt }
      pbind (if mt then (s, .ok ())
        else e "then" "not found after \x27if\x27" s) (fun _ s =>
      pbind (chunk fuel [some "elseif", some "else", some "end"] s)
        (fun temp s => statElseif fuel temp s)))
    else
    let (mf, tk) := s.toks.matchT "function"
    if mf then
      pbind (funcname fuel { s with toks := tk }) (fun _ s => funcbody fuel s)
    else
    let (ml, tk) := s.toks.matchT "local"
    if ml then
      let s := { s with toks := tk }
      let (mlf, tklf) := s.toks.matchT "function"
      if mlf then
        pbind (name { s with toks := tklf }) (fun n s =>
          funcbody fuel { s with lastfunction := n })
      else
        pbind (match namelist fuel s with
          | (s, .ok _) => (s, .ok ())
          | (s, .exc (.ellipsisE msg _ _)) => e "" msg s
          | (s, .exc ex) => (s, .exc ex)
          | (s, .fuelOut) => (s, .fuelOut)) (fun _ s =>
        let (me, tke) := s.toks.matchT "="
        if me then explist fuel { s with toks := tke } else (s, .ok ()))
    else
    let (mfor, tk) := s.toks.matchT "for"
    if mfor then
      pbind (name { s with toks := tk }) (fun _ s =>
      let (meq, tkeq) := s.toks.matchT "="
      pbind (if meq then
          pbind (exp fuel { s with toks := tkeq }) (fun _ s =>
          let (mc, tkc) := s.toks.matchT ","
          let s := { s with toks := tkc }
          pbind (if mc then (s, .ok ())
            else e "," "expected in \x27for\x27 loop" s) (fun _ s =>
          pbind (exp fuel s) (fun _ s =>
          let (mc2, tkc2) := s.toks.matchT ","
          if mc2 then exp fuel { s with toks := tkc2 } else (s, .ok ()))))
        else
          pbind (statForNames fuel s) (fun _ s =>
          let (min, tkin) := s.toks.matchT "in"
          let s := { s with toks := tkin }
          pbind (if min then (s, .ok ())
            else e "in" "expected in \x27for\x27 loop" s) (fun _ s =>
          explist fuel s))) (fun _ s =>
      let (md, tkd) := s.toks.matchT "do"
      let s := { s with toks := tkd }
      pbind (if md then (s, .ok ())
        else e "do" "expected in \x27for\x27 loop" s) (fun _ s =>
      pbind (chunk fuel [some "end"] s) (fun _ s => (s, .ok ())))))
    else
      match varorfunctioncall fuel false cond s with
      | (s, .ok true) =>
        pbind (statVarlist fuel s) (fun _ s =>
        let (me, tke) := s.toks.matchT "="
        if me then explist fuel { s with toks := tke }
        else e "=" "expected" s)
      | (s, .ok false) => (s, .ok ())
      | (s, .exc ex) => (s, .exc ex)
      | (s, .fuelOut) => (s, .fuelOut)

/-- The `while temp == "elseif"` loop (and trailing `else` chunk) of the
`if` branch of `Parser.stat`. -/
def statElseif : Nat → Option String → PState → PState × Res Unit
  | 0, _, s => (s, .fuelOut)
  | fuel + 1, temp, s =>
    if temp = some "elseif" then
      pbind (exp fuel s) (fun _ s =>
      let (mt, tkt) := s.toks.matchT "then"
      let s := { s with toks := tkt }
      pbind (if mt then (s, .ok ())
        else e "then" "not found after \x27else\x27" s) (fun _ s =>
      pbind (chunk fuel [some "elseif", some "else", some "end"] s)
        (fun temp s => statElseif fuel temp s)))
    else if temp = some "else" then
      pbind (chunk fuel [some "end"] s) (fun _ s => (s, .ok ()))
    else (s, .ok ())

/-- The `while self.t.match(",")` name loop of the generic-`for` branch
of `Parser.stat`. -/
def statForNames : Nat → PState → PState × Res Unit
  | 0, s => (s, .fuelOut)
  | fuel + 1, s =>
    let (m, tk) := s.toks.matchT ","
    if m then
      pbind (name { s with toks := tk }) (fun _ s => statForNames fuel s)
    else (s, .ok ())

/-- The `while self.t.match(',')` varlist loop of `Parser.stat`. -/
def statVarlist : Nat → PState → PState × Res Unit
  | 0, s => (s, .fuelOut)
  | fuel + 1, s =>
    let (m, tk) := s.toks.matchT ","
    if m then pbind (var fuel { s with toks := tk }) (fun _ s => statVarlist fuel s)
    else (s, .ok ())

/-- `Parser.varorfunctioncall`: the one-token-lookahead disambiguation of
var / functioncall / parenthesized expression.  The very first statement
evaluates `self.t.lookahead_ttt`, which raises `StopIteration` whenever
the underlying token sequence is already exhausted. -/
def varorfunctioncall : Nat → Bool → List (Option String) → PState →
    PState × Res Bool
  | 0, _, _, s => (s, .fuelOut)
  | fuel + 1, expFlag, cond, s =>
    match s.toks.lookahead_ttt with
    | none => (s, .exc .stopIteration)
    | some (t, tt) =>
      if s.toks.tt = some TokenType.name then
        if t = "," || t = "=" then ({ s with toks := s.toks.next }, .ok true)
        else vofcSuffix fuel expFlag cond t tt true s
      else
        let (mp, tkp) := s.toks.matchT "("
        if mp then
          pbind (exp fuel { s with toks := tkp }) (fun _ s =>
          pbind (if s.toks.t ≠ some ")" then e ")" "expected" s
            else (s, .ok ())) (fun _ s =>
          vofcSuffix fuel expFlag cond t tt false s))
        else
          pbind (e "" "Name or \x27(\x27 expected" s) (fun _ s =>
            ({ s with toks := s.toks.next }, .ok false))

/-- The suffix dispatch of `Parser.varorfunctioncall` after the prefix
(`t`, `tt` are the pre-captured lookahead; `nameFlag` is the `name`
local). -/
def vofcSuffix : Nat → Bool → List (Option String) → String → TokenType →
    Bool → PState → PState × Res Bool
  | 0, _, _, _, _, _, s => (s, .fuelOut)
  | fuel + 1, expFlag, cond, t, tt, nameFlag, s =>
    if t = "[" || t = "." then
      pbind (index fuel { s with toks := s.toks.next })
        (fun _ s => vofcLoop fuel true s)
    else if t = "(" || t = "\x7b" || t = ":" || tt = TokenType.str then
      pbind (call fuel { s with toks := s.toks.next })
        (fun _ s => vofcLoop fuel false s)
    else if expFlag then ({ s with toks := s.toks.next }, .ok false)
    else if nameFlag then
      match e_set cond false "" s with
      | (s, .ok (some "")) => vofcKeyword fuel s
      | (s, .ok (some b)) =>
        let s := report s.toks.line ("Typo in \x27" ++ tokenTextStr s.toks.t ++
          "\x27 - should probably be \x27" ++ b ++ "\x27.") s
        ({ s with toks := s.toks.next }, .exc (.endOfScopeE b))
      | (s, .ok none) => (s, .exc .typeError)
      | (s, .exc ex) => (s, .exc ex)
      | (s, .fuelOut) => (s, .fuelOut)
    else vofcFall fuel s

/-- The statement-keyword recovery attempt of
`Parser.varorfunctioncall` (second `e_set`). -/
def vofcKeyword : Nat → PState → PState × Res Bool
  | 0, s => (s, .fuelOut)
  | fuel + 1, s =>
    match e_set [some "do", some "while", some "repeat", some "if",
        some "for", some "function", some "local"] false "" s with
    | (s, .ok (some "")) => vofcFall fuel s
    | (s, .ok (some b)) =>
      let s := report s.toks.line ("Typo in \x27" ++ tokenTextStr s.toks.t ++
        "\x27 - should probably be \x27" ++ b ++ "\x27.") s
      ({ s with toks := s.toks.set_t b TokenType.key }, .ok false)
    | (s, .ok none) => (s, .exc .typeError)
    | (s, .exc ex) => (s, .exc ex)
    | (s, .fuelOut) => (s, .fuelOut)

/-- The defensive-consume tail of `Parser.varorfunctioncall`
(`self.t.next()` then the generic suffix diagnostic, then the suffix
loop with `isvar = False`). -/
def vofcFall : Nat → PState → PState × Res Bool
  | 0, s => (s, .fuelOut)
  | fuel + 1, s =>
    let s := { s with toks := s.toks.next }
    pbind (e "" "\x27[\x27, \x27.\x27, \x27(\x27, \x27\x7b\x27, \x27:\x27 or a string expected" s)
      (fun _ s => vofcLoop fuel false s)

/-- The `while True` suffix loop of `Parser.varorfunctioncall`. -/
def vofcLoop : Nat → Bool → PState → PState × Res Bool
  | 0, _, s => (s, .fuelOut)
  | fuel + 1, isvar, s =>
    if s.toks.t = some "[" || s.toks.t = some "." then
      pbind (index fuel s) (fun _ s => vofcLoop fuel true s)
    else if s.toks.t = some "(" || s.toks.t = some "\x7b" ||
        s.toks.t = some ":" || s.toks.tt = some TokenType.str then
      pbind (call fuel s) (fun _ s => vofcLoop fuel false s)
    else (s, .ok isvar)

/-- `Parser.chunk`. -/
def chunk : Nat → List (Option String) → PState → PState × Res (Option String)
  | 0, _, s => (s, .fuelOut)
  | fuel + 1, cond, s => chunkGo fuel cond false s

/-- The statement loop of `Parser.chunk` with the `broken` flag. -/
def chunkGo : Nat → List (Option String) → Bool → PState →
    PState × Res (Option String)
  | 0, _, _, s => (s, .fuelOut)
  | fuel + 1, cond, broken, s =>
    if cond.contains s.toks.t then
      let temp := s.toks.t
      ({ s with toks := s.toks.next }, .ok temp)
    else if s.toks.t = none then
      pbind (e "" "Scope not closed" s) (fun _ s => (s, .ok (some "")))
    else if broken then
      e_set cond true "Scope not closed after \x27break\x27 or \x27return\x27" s
    else
      let (mb, tk) := s.toks.matchT "break"
      if mb then
        let s := { s with toks := (Tokens.matchT tk ";").2 }
        chunkGo fuel cond true s
      else
        let (mr, tkr) := s.toks.matchT "return"
        if mr then
          let s := { s with toks := tkr }
          pbind (if ¬cond.contains s.toks.t && !s.toks.empty then
              explist fuel s else (s, .ok ())) (fun _ s =>
          let s := { s with toks := (s.toks.matchT ";").2 }
          chunkGo fuel cond true s)
        else
          match stat fuel cond s with
          | (s, .ok _) =>
            let s := { s with toks := (s.toks.matchT ";").2 }
            chunkGo fuel cond broken s
          | (s, .exc (.endOfScopeE b)) => (s, .ok (some b))
          | (s, .exc ex) => (s, .exc ex)
          | (s, .fuelOut) => (s, .fuelOut)

end

/-- `Parser.parser` up to (but not including) the final printing: parse
the top-level chunk, catching only `EllipsisException`. -/
def parserRun (fuel : Nat) (s : PState) : PState × Res Unit :=
  match chunk fuel [some "end", none] s with
  | (s, .ok _) => (s, .ok ())
  | (s, .exc (.ellipsisE msg _ _)) => e "" msg s
  | (s, .exc ex) => (s, .exc ex)
  | (s, .fuelOut) => (s, .fuelOut)

end Parser

/-- The parser's initial state for a source string: the lexed tokens
wrapped in `Tokens`, the lexer's diagnostics already in the error store,
an empty function table.  (The source drives the lexer lazily; eager
lexing only affects how lexer diagnostics interleave with parser
diagnostics, and the inputs used below produce diagnostics from at most
one of the two phases.) -/
def stateOf (src : String) : PState :=
  let lx := lexRun src
  ⟨Tokens.init lx.toks, lx.errs.map (fun p => (some p.1, p.2)), [], "", 0⟩

/-- The whole pipeline on a source string: lex, then parse. -/
def pipeline (fuel : Nat) (src : String) : PState × Res Unit :=
  Parser.parserRun fuel (stateOf src)

/-- A stream with a real current token is changed by `next`. -/
theorem Tokens.next_ne (tk : Tokens) (h : tk.t.isSome) : tk.next ≠ tk := by
  intro he
  cases hr : tk.rest with
  | nil =>
    have ht : tk.next.t = none := by simp [Tokens.next, hr]
    rw [he] at ht
    simp [ht] at h
  | cons x xs =>
    have ht : tk.next.rest = xs := by
      obtain ⟨a, b, c⟩ := x
      simp [Tokens.next, hr]
    rw [he, hr] at ht
    exact (List.cons_ne_self x xs) ht

/-!  Claim theorems. -/

/-- C1: the claim states that errors never abort the parse run and that
on the input `x y z` at least one "expected" diagnostic is emitted and
the parse terminates without raising an exception.  The code does record
two "expected" diagnostics, but the run then *aborts with an uncaught
`StopIteration`*: `Tokens.lookahead_ttt` calls `next(tokens)` with no
default, so `varorfunctioncall`'s very first lookahead on the third
statement (current token `z`, underlying sequence exhausted) raises
through `parser()` uncaught.  This theorem evaluates the embedded
pipeline at the failing input. -/
theorem C1_x_y_z_aborts_with_stopiteration :
    (pipeline 100 "x y z").2 = Res.exc PExc.stopIteration ∧
    (pipeline 100 "x y z").1.errors =
      [(some 1, "\x27y\x27 not expected. \x27[\x27, \x27.\x27, \x27(\x27, \x27\x7b\x27, \x27:\x27 or a string expected."),
       (some 1, "\x27z\x27 not expected. \x27[\x27, \x27.\x27, \x27(\x27, \x27\x7b\x27, \x27:\x27 or a string expected.")] := by
  decide

/-- C3: the claim states that `function f() end function f() end`
produces exactly one diagnostic "Function 'f' defined multiple times".
In the code, `self._lastfunction = ""` and `self.chunk({"end"})` sit
*inside* the `if self.t.nmatch(")")` block of `funcbody`, so with an
empty parameter list the body chunk is never parsed: the first `end` is
consumed by the *top-level* chunk (whose terminator set contains
`"end"`), the second definition is never reached, and the run reports
*zero* diagnostics while the duplicate is silently accepted. -/
theorem C3_duplicate_definition_not_reported :
    (pipeline 100 "function f() end function f() end").2 = Res.ok () ∧
    (pipeline 100 "function f() end function f() end").1.errors = [] ∧
    (pipeline 100 "function f() end function f() end").1.functions =
      [("f", [])] := by
  decide

/-- C4: the claim states that for every function definition — including
one whose parameter list is empty — `funcbody` clears the
active-function name and parses the body as a nested chunk terminated by
`end`.  Because the name-clearing and the `chunk({"end"})` call are
inside the `if self.t.nmatch(")")` block, an empty parameter list skips
both: on `function f() end x y` the embedded run finishes with no
diagnostics (the garbage `x y` after the first `end` is never parsed,
because that `end` closed the *top-level* chunk) and with
`self._lastfunction` still holding `"f"`. -/
theorem C4_empty_parameter_list_skips_body_chunk :
    (pipeline 100 "function f() end x y").2 = Res.ok () ∧
    (pipeline 100 "function f() end x y").1.errors = [] ∧
    (pipeline 100 "function f() end x y").1.functions = [("f", [])] ∧
    (pipeline 100 "function f() end x y").1.lastfunction = "f" := by
  decide

/-- C9: on an exhausted underlying token sequence, `Tokens.next`
substitutes the `(None, None, None)` sentinel and is repeatable, while
the lookahead raises `StopIteration` (modelled as `none`); peeking
succeeds exactly while at least one unconsumed token remains. -/
theorem C9_next_total_lookahead_raises (tk : Tokens) :
    (tk.rest = [] →
      tk.next = ⟨none, none, none, []⟩ ∧
      tk.next.next = tk.next ∧
      tk.lookahead_ttt = none) ∧
    (tk.rest ≠ [] → ∃ p, tk.lookahead_ttt = some p) := by
  constructor
  · intro h
    refine ⟨?_, ?_, ?_⟩ <;> simp [Tokens.next, Tokens.lookahead_ttt, h]
  · intro h
    match hr : tk.rest with
    | [] => exact absurd hr h
    | (t, tt, ln) :: rest => exact ⟨(t, tt), by simp [Tokens.lookahead_ttt, hr]⟩

/-- C9 witness: the theorem applied to a concrete exhausted stream. -/
theorem C9_next_total_lookahead_raises_witness :
    Tokens.next ⟨some "x", some TokenType.name, some 1, []⟩ =
      ⟨none, none, none, []⟩ ∧
    Tokens.lookahead_ttt ⟨some "x", some TokenType.name, some 1, []⟩ = none ∧
    (∃ p, Tokens.lookahead_ttt
      ⟨some "x", some TokenType.name, some 1, [("y", TokenType.name, 1)]⟩ =
        some p) := by
  refine ⟨?_, ?_, ?_⟩
  · exact ((C9_next_total_lookahead_raises
      ⟨some "x", some TokenType.name, some 1, []⟩).1 rfl).1
  · exact ((C9_next_total_lookahead_raises
      ⟨some "x", some TokenType.name, some 1, []⟩).1 rfl).2.2
  · exact (C9_next_total_lookahead_raises
      ⟨some "x", some TokenType.name, some 1,
        [("y", TokenType.name, 1)]⟩).2 (by simp)

/-- C10: `explist` parses one expression and at most one `,` expression:
on the token stream of `a, b, c` it returns normally with the second
comma as the current token and `c` still unconsumed. -/
theorem C10_explist_consumes_at_most_two_expressions :
    (Parser.explist 50 (stateOf "a, b, c")).2 = Res.ok () ∧
    (Parser.explist 50 (stateOf "a, b, c")).1.toks =
      ⟨some ",", some TokenType.sym, some 1, [("c", TokenType.name, 1)]⟩ := by
  decide

/-- C6: in `Parser.e` with a nonempty expected text, the diagnostic is
emitted in every case, and the current token is consumed exactly when the
`SequenceMatcher` ratio of the current text against the expected text
strictly exceeds 0.65 (`ratioGtSimilar`); in particular a ratio of
exactly 0.65 — witnessed by the pair below with ratio 26/40 — does not
match and leaves the stream unconsumed. -/
theorem C6_typo_threshold_strict (s : PState) (cur expected msg : String)
    (hc : s.toks.t = some cur) (he : expected ≠ "") :
    (Parser.e expected msg s).2 = Res.ok () ∧
    (Parser.e expected msg s).1.errors.length = s.errors.length + 1 ∧
    (Parser.e expected msg s).1.toks =
      (if ratioGtSimilar cur.data expected.data then s.toks.next
       else s.toks) ∧
    s.toks.next ≠ s.toks ∧
    ratioPair "abcdefghijklm0000000".data "abcdefghijklm1111111".data =
      (26, 40) ∧
    ratioGtSimilar "abcdefghijklm0000000".data "abcdefghijklm1111111".data =
      false := by
  have hne : s.toks.next ≠ s.toks := Tokens.next_ne _ (by simp [hc])
  unfold Parser.e
  rw [if_neg he, hc]
  by_cases hr : ratioGtSimilar cur.data expected.data = true <;>
    simp [hr, report, hne] <;> decide

/-- C6 witness: the theorem applied at the concrete state built from the
source `x` with expected token `end`. -/
theorem C6_typo_threshold_strict_witness :
    (Parser.e "end" "expected" (stateOf "x")).2 = Res.ok () ∧
    (Parser.e "end" "expected" (stateOf "x")).1.errors.length =
      (stateOf "x").errors.length + 1 ∧
    (Parser.e "end" "expected" (stateOf "x")).1.toks =
      (if ratioGtSimilar "x".data "end".data then (stateOf "x").toks.next
       else (stateOf "x").toks) ∧
    (stateOf "x").toks.next ≠ (stateOf "x").toks ∧
    ratioPair "abcdefghijklm0000000".data "abcdefghijklm1111111".data =
      (26, 40) ∧
    ratioGtSimilar "abcdefghijklm0000000".data "abcdefghijklm1111111".data =
      false :=
  C6_typo_threshold_strict (stateOf "x") "x" "end" "expected"
    (by decide) (by decide)

/-- Each violation caught in the decimal number loop increments the skip
counter exactly once: the skip count always equals the number of
diagnostics. -/
theorem numberLoop_skip_eq_errs (cs : List Char) : ∀ d ex ae : Bool,
    (Lexer.numberLoop cs d ex ae).2.2 =
      (Lexer.numberLoop cs d ex ae).2.1.length := by
  induction cs with
  | nil => intro d ex ae; simp [Lexer.numberLoop]
  | cons c cs ih =>
    intro d ex ae
    by_cases h1 : (!ae && (c = '+' || c = '-')) = true
    · simp [Lexer.numberLoop, h1]
    · by_cases h2 : c = '.'
      · rcases hx : Lexer.numberLoop cs true ex false with ⟨t, es, k⟩
        have h5 := ih true ex false
        rw [hx] at h5
        simp only at h5
        cases d <;> simp [Lexer.numberLoop, h1, h2, hx, h5]
      · by_cases h3 : (c = 'e' || c = 'E') = true
        · cases ex with
          | true =>
            rcases hx : Lexer.numberLoop cs d true false with ⟨t, es, k⟩
            have h5 := ih d true false
            rw [hx] at h5
            simp only at h5
            simp [Lexer.numberLoop, h1, h2, h3, hx, h5]
          | false =>
            rcases hx : Lexer.numberLoop cs d true true with ⟨t, es, k⟩
            have h5 := ih d true true
            rw [hx] at h5
            simp only at h5
            simp [Lexer.numberLoop, h1, h2, h3, hx, h5]
        · by_cases h4 : (isDigitCh c = false ∧ ¬c = '+' ∧ ¬c = '-')
          · simp [Lexer.numberLoop, h1, h2, h3, h4]
          · rcases hx : Lexer.numberLoop cs d ex false with ⟨t, es, k⟩
            have h5 := ih d ex false
            rw [hx] at h5
            simp only at h5
            simp [Lexer.numberLoop, h1, h2, h3, h4, hx, h5]

/-- C5 counterexample: the claim predicts that on `1.2.3` the number
token contains only the run up to the error point (`1.2`) and that the
offending `.` is reprocessed as a fresh token (so the token stream would
be `1.2`, `.`, `3`).  The code instead emits the single token `1.23`:
the offending character is skipped — not reprocessed — and scanning
continues appending into the same token. -/
theorem C5_offender_not_reprocessed_counterexample :
    (lexRun "1.2.3").toks = [("1.23", TokenType.num, 1)] ∧
    (lexRun "1.2.3").toks ≠
      [("1.2", TokenType.num, 1), (".", TokenType.sym, 1),
       ("3", TokenType.num, 1)] ∧
    (lexRun "1.2.3").errs = [(1, "Decimal point occurs multiple times.")] := by
  decide

/-- C5 amended: on a violation the decimal scanner reports a diagnostic
and continues scanning into the *same* token, excluding the offending
character; the skip counter is incremented once per violation (skip =
number of diagnostics), which makes the lexer's cursor advance past each
offending character so it is consumed, never reprocessed.  Witnessed
concretely by `1.2.3`, lexed as the single token `1.23` covering the
whole five-character input. -/
theorem C5_violation_reports_and_skips_offender :
    (∀ (cs : List Char) (d ex ae : Bool),
      (Lexer.numberLoop cs d ex ae).2.2 =
        (Lexer.numberLoop cs d ex ae).2.1.length) ∧
    (lexRun "1.2.3").toks = [("1.23", TokenType.num, 1)] ∧
    (lexRun "1.2.3").errs = [(1, "Decimal point occurs multiple times.")] ∧
    (lexRun "1.2.3").pieces = [['1', '.', '2', '3']] ∧
    (lexRun "1.2.3").aborted = false :=
  ⟨fun cs d ex ae => numberLoop_skip_eq_errs cs d ex ae,
   by decide, by decide, by decide, by decide⟩

/-- Every token emitted by the lexer loop carries a line number at least
the line of the first unconsumed character. -/
theorem lexer_toks_line_ge (fuel : Nat) : ∀ (rem : List Char) (line : Nat)
    (x : String × TokenType × Nat),
    x ∈ (Lexer.lexer fuel rem line).toks → line ≤ x.2.2 := by
  induction fuel with
  | zero => intro rem line x hx; simp [Lexer.lexer] at hx
  | succ fuel ih =>
    intro rem line x hx
    match rem with
    | [] => simp [Lexer.lexer] at hx
    | c :: rest =>
      by_cases hsp : isSpaceCh c = true
      · simp only [Lexer.lexer, hsp, if_true] at hx
        exact le_trans (Nat.le_add_right _ _) (ih _ _ _ hx)
      · rcases hd : Lexer.dispatch c rest with ⟨token, ttype, errs, skipAdj⟩
        simp only [Lexer.lexer, hsp, Bool.false_eq_true, if_false, hd] at hx
        split at hx
        · simp at hx
        · split at hx
          · rcases List.mem_cons.mp hx with h | h
            · subst h; exact le_refl _
            · exact le_trans (Nat.le_add_right _ _) (ih _ _ _ h)
          · exact le_trans (Nat.le_add_right _ _) (ih _ _ _ hx)

/-- C8: the line numbers attached to the tokens yielded by the lexer are
non-decreasing in emission order, for every input. -/
theorem C8_token_lines_nondecreasing (src : String) :
    List.Chain' (fun a b : String × TokenType × Nat => a.2.2 ≤ b.2.2)
      (lexRun src).toks := by
  suffices h : ∀ (fuel : Nat) (rem : List Char) (line : Nat),
      List.Chain' (fun a b : String × TokenType × Nat => a.2.2 ≤ b.2.2)
        (Lexer.lexer fuel rem line).toks from h _ _ _
  intro fuel
  induction fuel with
  | zero => intro rem line; simp [Lexer.lexer]
  | succ fuel ih =>
    intro rem line
    match rem with
    | [] => simp [Lexer.lexer]
    | c :: rest =>
      by_cases hsp : isSpaceCh c = true
      · simp only [Lexer.lexer, hsp, if_true]
        exact ih _ _
      · rcases hd : Lexer.dispatch c rest with ⟨token, ttype, errs, skipAdj⟩
        simp only [Lexer.lexer, hsp, Bool.false_eq_true, if_false, hd]
        split
        · simp
        · split
          · refine List.chain'_cons'.mpr ⟨?_, ih _ _⟩
            intro y hy
            have hm : y ∈ (Lexer.lexer fuel (rest.drop _) (line + _)).toks :=
              List.mem_of_mem_head? hy
            exact le_trans (Nat.le_add_right _ _) (lexer_toks_line_ge _ _ _ _ hm)
          · exact ih _ _

/-!  Prefix lemmas for the error-free scanner paths (claim C2). -/

theorem splitOnceChar_eq (ch : Char) : ∀ (l a b : List Char),
    Lexer.splitOnceChar ch l = some (a, b) → l = a ++ ch :: b := by
  intro l
  induction l with
  | nil => intro a b h; simp [Lexer.splitOnceChar] at h
  | cons c cs ih =>
    intro a b h
    by_cases hc : c = ch
    · simp [Lexer.splitOnceChar, hc] at h
      rcases h with ⟨rfl, rfl⟩
      simp [hc]
    · rcases hr : Lexer.splitOnceChar ch cs with _ | ⟨a', b'⟩
      · simp [Lexer.splitOnceChar, hc, hr] at h
      · simp [Lexer.splitOnceChar, hc, hr] at h
        rcases h with ⟨rfl, rfl⟩
        simp [ih a' b' hr]

theorem splitOnceList_eq (pat : List Char) : ∀ (l a b : List Char),
    Lexer.splitOnceList pat l = some (a, b) → l = a ++ pat ++ b := by
  intro l
  induction l with
  | nil => intro a b h; simp [Lexer.splitOnceList] at h
  | cons c cs ih =>
    intro a b h
    by_cases hp : pat.isPrefixOf (c :: cs)
    · simp [Lexer.splitOnceList, hp] at h
      rcases h with ⟨rfl, rfl⟩
      obtain ⟨t, ht⟩ := List.isPrefixOf_iff_prefix.mp hp
      rw [← ht]
      simp [List.drop_left]
    · rcases hr : Lexer.splitOnceList pat cs with _ | ⟨a', b'⟩
      · simp [Lexer.splitOnceList, hp, hr] at h
      · simp [Lexer.splitOnceList, hp, hr] at h
        rcases h with ⟨rfl, rfl⟩
        simp [ih a' b' hr]

/-- An error-free quoted-string scan appends exactly a prefix of the
input (and performs no skip adjustment). -/
theorem quotedLoop_prefix (q : Char) : ∀ (cs : List Char) (esc : Bool),
    (Lexer.quotedLoop q cs esc).2.1 = [] →
    (Lexer.quotedLoop q cs esc).1 <+: cs ∧
    (Lexer.quotedLoop q cs esc).2.2.1 = 0 := by
  intro cs
  induction cs with
  | nil => intro esc _; simp [Lexer.quotedLoop]
  | cons c cs ih =>
    intro esc h
    cases esc with
    | true =>
      by_cases hg : ((c = 'a' ∨ c = 'b' ∨ c = 'f' ∨ c = 'n' ∨ c = 'r' ∨
          c = 't' ∨ c = 'v' ∨ c = '\\' ∨ c = '\"' ∨ c = '\'') ∨
          isDigitCh c = true)
      · rcases hr : Lexer.quotedLoop q cs false with ⟨t, es, k, cl⟩
        simp [Lexer.quotedLoop, hg, hr] at h ⊢
        have h6 := ih false
        rw [hr] at h6
        simp only at h6
        obtain ⟨hp, hk⟩ := h6 (by simpa using h)
        exact ⟨hp, hk⟩
      · rcases hr : Lexer.quotedLoop q cs false with ⟨t, es, k, cl⟩
        simp [Lexer.quotedLoop, hg, hr] at h
    | false =>
      by_cases hb : c = '\\'
      · rcases hr : Lexer.quotedLoop q cs true with ⟨t, es, k, cl⟩
        simp [Lexer.quotedLoop, hb, hr] at h ⊢
        have h6 := ih true
        rw [hr] at h6
        simp only at h6
        obtain ⟨hp, hk⟩ := h6 (by simpa using h)
        exact ⟨hp, hk⟩
      · by_cases hq : c = q
        · subst hq
          have hv : Lexer.quotedLoop c (c :: cs) false = ([c], [], 0, true) := by
            simp [Lexer.quotedLoop, hb]
          rw [hv]
          exact ⟨⟨cs, rfl⟩, rfl⟩
        · rcases hr : Lexer.quotedLoop q cs false with ⟨t, es, k, cl⟩
          simp [Lexer.quotedLoop, hb, hq, hr] at h ⊢
          have h6 := ih false
          rw [hr] at h6
          simp only at h6
          obtain ⟨hp, hk⟩ := h6 (by simpa using h)
          exact ⟨hp, hk⟩

/-- An error-free decimal scan returns a prefix of the input. -/
theorem numberLoop_front : ∀ (cs : List Char) (d ex ae : Bool),
    (Lexer.numberLoop cs d ex ae).2.1 = [] →
    (Lexer.numberLoop cs d ex ae).1 <+: cs := by
  intro cs
  induction cs with
  | nil => intro d ex ae _; simp [Lexer.numberLoop]
  | cons c cs ih =>
    intro d ex ae h
    by_cases h1 : (!ae && (c = '+' || c = '-')) = true
    · simp [Lexer.numberLoop, h1]
    · by_cases h2 : c = '.'
      · rcases hx : Lexer.numberLoop cs true ex false with ⟨t, es, k⟩
        have h5 := ih true ex false
        rw [hx] at h5
        cases d with
        | true => simp [Lexer.numberLoop, h1, h2, hx] at h
        | false =>
          simp [Lexer.numberLoop, h1, h2, hx] at h ⊢
          exact h5 (by simp [h])
      · by_cases h3 : (c = 'e' || c = 'E') = true
        · cases ex with
          | true =>
            rcases hx : Lexer.numberLoop cs d true false with ⟨t, es, k⟩
            simp [Lexer.numberLoop, h1, h2, h3, hx] at h
          | false =>
            rcases hx : Lexer.numberLoop cs d true true with ⟨t, es, k⟩
            have h5 := ih d true true
            rw [hx] at h5
            simp [Lexer.numberLoop, h1, h2, h3, hx] at h ⊢
            exact h5 (by simp [h])
        · by_cases h4 : (isDigitCh c = false ∧ ¬c = '+' ∧ ¬c = '-')
          · simp [Lexer.numberLoop, h1, h2, h3, h4]
          · rcases hx : Lexer.numberLoop cs d ex false with ⟨t, es, k⟩
            have h5 := ih d ex false
            rw [hx] at h5
            simp [Lexer.numberLoop, h1, h2, h3, h4, hx] at h ⊢
            exact h5 (by simp [h])

/-- An error-free number scan returns a prefix of the input with no skip
adjustment. -/
theorem number_no_errs (src : List Char) (h : (Lexer.number src).2.1 = []) :
    (Lexer.number src).1 <+: src ∧ (Lexer.number src).2.2 = 0 := by
  by_cases hp : ['0', 'x'].isPrefixOf src = true
  · obtain ⟨t, ht⟩ := List.isPrefixOf_iff_prefix.mp hp
    subst ht
    constructor
    · obtain ⟨u, hu⟩ := List.takeWhile_prefix (l := t) (p := isHexCh)
      refine ⟨u, ?_⟩
      show (Lexer.number (['0', 'x'] ++ t)).1 ++ u = ['0', 'x'] ++ t
      simp [Lexer.number, hp, hu]
    · simp [Lexer.number, hp]
  · simp only [Lexer.number, hp, Bool.false_eq_true, if_false] at h ⊢
    refine ⟨numberLoop_front src false false false h, ?_⟩
    have := numberLoop_skip_eq_errs src false false false
    rw [h] at this
    simpa using this

/-- The decimal scanner starting at a digit consumes that digit. -/
theorem numberLoop_cons_digit (c : Char) (cs : List Char)
    (hc : isDigitCh c = true) :
    (Lexer.numberLoop (c :: cs) false false false).1 =
      c :: (Lexer.numberLoop cs false false false).1 := by
  have h1 : ¬c = '+' := fun he => by subst he; simp [isDigitCh] at hc
  have h2 : ¬c = '-' := fun he => by subst he; simp [isDigitCh] at hc
  have h3 : ¬c = '.' := fun he => by subst he; simp [isDigitCh] at hc
  have h4 : ¬c = 'e' := fun he => by subst he; simp [isDigitCh] at hc
  have h5 : ¬c = 'E' := fun he => by subst he; simp [isDigitCh] at hc
  simp [Lexer.numberLoop, h1, h2, h3, h4, h5, hc]

/-- An error-free symbol scan returns a nonempty prefix of the input. -/
theorem symbols_no_errs (c : Char) (rest : List Char)
    (h : (Lexer.symbols (c :: rest)).2.2 = []) :
    (Lexer.symbols (c :: rest)).1 <+: (c :: rest) ∧
    (Lexer.symbols (c :: rest)).1 ≠ [] := by
  by_cases hs : c ∈ ['+', '-', '*', '/', '%', '^', '#', '(', ')', '\x7b',
      '\x7d', '[', ']', ';', ':', ',']
  · have hv : (Lexer.symbols (c :: rest)).1 = [c] := by simp [Lexer.symbols, hs]
    rw [hv]
    exact ⟨⟨rest, rfl⟩, by simp⟩
  · rcases hf : (["...", "..", ".", "==", "~=", "<=", "=", ">=", "<",
        ">"]).find? (fun s => s.data.isPrefixOf (c :: rest)) with _ | s
    · simp [Lexer.symbols, hs, hf] at h
    · have hpre := List.find?_some hf
      have hm := List.mem_of_find?_eq_some hf
      simp [Lexer.symbols, hs, hf]
      constructor
      · exact List.isPrefixOf_iff_prefix.mp hpre
      · fin_cases hm <;> simp

/-- An error-free string scan returns a nonempty prefix of the input
with no skip adjustment. -/
theorem string_no_errs (c0 : Char) (val : List Char)
    (h : (Lexer.string (c0 :: val)).2.1 = []) :
    (Lexer.string (c0 :: val)).1 <+: (c0 :: val) ∧
    (Lexer.string (c0 :: val)).2.2 = 0 ∧
    (Lexer.string (c0 :: val)).1 ≠ [] := by
  by_cases hb : c0 = '['
  · subst hb
    rcases hs1 : Lexer.splitOnceChar '[' val with _ | ⟨bl, v1⟩
    · simp [Lexer.string, hs1] at h
    · by_cases ha : ((∃ x ∈ bl, ¬x = '=') ∧ ¬bl = [])
      · simp [Lexer.string, hs1, ha] at h
      · rcases hs2 : Lexer.splitOnceList (']' :: (bl ++ [']'])) v1 with _ | ⟨body, r2⟩
        · exfalso
          have hm : "String not closed." ∈ (Lexer.string ('[' :: val)).2.1 := by
            simp [Lexer.string, hs1, ha, hs2]
          rw [h] at hm
          simp at hm
        · have htok : (Lexer.string ('[' :: val)).1 =
              ('[' :: (bl ++ ['['])) ++ body ++ (']' :: (bl ++ [']'])) := by
            simp [Lexer.string, hs1, ha, hs2]
          have hskip : (Lexer.string ('[' :: val)).2.2 = 0 := by
            simp [Lexer.string, hs1, ha, hs2]
          have hv := splitOnceChar_eq '[' val bl v1 hs1
          have hv2 := splitOnceList_eq (']' :: (bl ++ [']'])) v1 body r2 hs2
          refine ⟨⟨r2, ?_⟩, hskip, by rw [htok]; simp⟩
          rw [htok, hv, hv2]
          simp
  · rcases hq : Lexer.quotedLoop c0 val false with ⟨body, errsQ, k, closed⟩
    cases closed with
    | false => simp [Lexer.string, hb, hq] at h
    | true =>
      have hres : Lexer.string (c0 :: val) = (c0 :: body, errsQ, -(k : Int)) := by
        simp [Lexer.string, hb, hq]
      rw [hres] at h ⊢
      simp only at h
      have hp := quotedLoop_prefix c0 val false
      rw [hq] at hp
      simp only at hp
      obtain ⟨hpre, hk⟩ := hp h
      subst h
      refine ⟨?_, by simp [hk], by simp⟩
      obtain ⟨u, hu⟩ := hpre
      exact ⟨u, by simp [hu]⟩

/-- An error-free dispatch at a non-whitespace character returns a
nonempty prefix of the remaining input with no skip adjustment. -/
theorem dispatch_no_errs (c : Char) (rest : List Char)
    (h : (Lexer.dispatch c rest).2.2.1 = []) :
    (Lexer.dispatch c rest).1 <+: (c :: rest) ∧
    (Lexer.dispatch c rest).2.2.2 = 0 ∧
    (Lexer.dispatch c rest).1 ≠ [] := by
  by_cases hn : isNameStart c = true
  · have htok : (Lexer.dispatch c rest).1 =
        (c :: rest).takeWhile isNameCh := by
      simp only [Lexer.dispatch, hn, if_true, Lexer.name]
      split <;> rfl
    have hskip : (Lexer.dispatch c rest).2.2.2 = 0 := by
      simp only [Lexer.dispatch, hn, if_true, Lexer.name]
    have hne : (c :: rest).takeWhile isNameCh ≠ [] := by
      simp [List.takeWhile_cons, isNameCh, hn]
    exact ⟨htok ▸ List.takeWhile_prefix _, hskip, htok ▸ hne⟩
  · by_cases hd : isDigitCh c = true
    · have hre : Lexer.dispatch c rest =
          ((Lexer.number (c :: rest)).1, TokenType.num,
           (Lexer.number (c :: rest)).2.1,
           ((Lexer.number (c :: rest)).2.2 : Int)) := by
        simp [Lexer.dispatch, hn, hd]
      rw [hre] at h ⊢
      simp only at h ⊢
      obtain ⟨hp, hk⟩ := number_no_errs (c :: rest) h
      refine ⟨hp, by simp [hk], ?_⟩
      by_cases hx : ['0', 'x'].isPrefixOf (c :: rest) = true
      · simp [Lexer.number, hx]
      · simp only [Lexer.number, hx, Bool.false_eq_true, if_false]
        rw [numberLoop_cons_digit c rest hd]
        simp
    · by_cases hs : (c = '"' || c = '\'' ||
          ['[', '='].isPrefixOf (c :: rest) ||
          ['[', '['].isPrefixOf (c :: rest)) = true
      · have hre : Lexer.dispatch c rest =
            ((Lexer.string (c :: rest)).1, TokenType.str,
             (Lexer.string (c :: rest)).2.1,
             (Lexer.string (c :: rest)).2.2) := by
          simp only [Lexer.dispatch, hn, hd, Bool.false_eq_true, if_false]
          rw [if_pos hs]
        rw [hre] at h ⊢
        simp only at h ⊢
        exact string_no_errs c rest h
      · have hre : Lexer.dispatch c rest =
            ((Lexer.symbols (c :: rest)).1, (Lexer.symbols (c :: rest)).2.1,
             (Lexer.symbols (c :: rest)).2.2, 0) := by
          simp only [Lexer.dispatch, hn, hd, Bool.false_eq_true, if_false]
          rw [if_neg (by simp [hs])]
        rw [hre] at h ⊢
        simp only at h ⊢
        obtain ⟨hp, hne⟩ := symbols_no_errs c rest h
        exact ⟨hp, by simp, hne⟩

/-- Error-free lexing reconstructs the source: the concatenation of the
pieces (token texts and skipped whitespace) is exactly the remaining
input, and the run does not abort. -/
theorem lexer_roundtrip : ∀ (fuel : Nat) (rem : List Char) (line : Nat),
    rem.length < fuel →
    (Lexer.lexer fuel rem line).errs = [] →
    (Lexer.lexer fuel rem line).pieces.flatten = rem ∧
    (Lexer.lexer fuel rem line).aborted = false := by
  intro fuel
  induction fuel with
  | zero => intro rem line hl; omega
  | succ fuel ih =>
    intro rem line hl he
    match rem with
    | [] => simp [Lexer.lexer]
    | c :: rest =>
      by_cases hsp : isSpaceCh c = true
      · simp only [Lexer.lexer, hsp, if_true] at he ⊢
        have hlen : rest.length < fuel := by
          simp at hl; omega
        obtain ⟨hj, ha⟩ := ih rest (line + nlCount [c]) hlen he
        simp [hj, ha]
      · rcases hd : Lexer.dispatch c rest with ⟨token, ttype, errs, skipAdj⟩
        simp only [Lexer.lexer, hsp, Bool.false_eq_true, if_false, hd] at he ⊢
        have herrs : errs = [] := by
          by_cases hab : ((token.length : Int) - 1 + skipAdj < 0 ||
              (rest.length : Int) < (token.length : Int) - 1 + skipAdj) = true
          · rw [if_pos hab] at he
            simpa using he
          · rw [if_neg (by simpa using hab)] at he
            simp at he
            exact he.1
        have hdis := dispatch_no_errs c rest (by rw [hd]; exact herrs)
        rw [hd] at hdis
        obtain ⟨hpre, hskip, hne⟩ := hdis
        simp only at hpre hskip hne
        subst hskip
        obtain ⟨u, hu⟩ := hpre
        have hlen : token.length ≤ rest.length + 1 := by
          have hc := congrArg List.length hu
          simp at hc
          omega
        have hpos : 1 ≤ token.length := by
          cases token with
          | nil => exact absurd rfl hne
          | cons a b => simp
        have hab : ((token.length : Int) - 1 + 0 < 0 ||
            (rest.length : Int) < (token.length : Int) - 1 + 0) = false := by
          simp only [Bool.or_eq_false_iff, decide_eq_false_iff_not]
          omega
        rw [hab] at he ⊢
        simp only [Bool.false_eq_true, if_false] at he ⊢
        have hadv : ((token.length : Int) - 1 + 0).toNat = token.length - 1 := by
          omega
        rw [hadv] at he ⊢
        have hdlen : (rest.drop (token.length - 1)).length < fuel := by
          simp at hl ⊢; omega
        have he2 : (Lexer.lexer fuel (rest.drop (token.length - 1))
            (line + nlCount (c :: rest.take (token.length - 1)))).errs = [] := by
          simp at he
          exact he.2
        obtain ⟨hj, ha⟩ := ih _ _ hdlen he2
        constructor
        · simp only [List.flatten_cons, hj]
          have : token ++ rest.drop (token.length - 1) = c :: rest := by
            have hu2 : token ++ u = c :: rest := hu
            have : rest.drop (token.length - 1) = (c :: rest).drop token.length := by
              cases token with
              | nil => exact absurd rfl hne
              | cons a b => simp
            rw [this, ← hu2]
            simp [List.drop_left]
          simpa using this
        · simpa using ha

/-- C2 counterexample: the claim states that for *every* input string
the concatenation of token texts, skipped whitespace and suppressed
invalid-token texts reconstructs the source exactly.  On the
unterminated string `"a` the recovery of `Lexer.string` appends a
closing quote that is not in the source: the concatenation is `"a"`,
three characters for a two-character input. -/
theorem C2_roundtrip_counterexample :
    (lexRun "\"a").pieces.flatten = ['"', 'a', '"'] ∧
    (lexRun "\"a").pieces.flatten ≠ "\"a".data := by
  decide

/-- C2 amended: for every input string on which the lexer reports no
diagnostic, the concatenation in source order of all the pieces — token
texts (suppressed invalid ones included) and skipped whitespace
characters — reconstructs the original source exactly, and the run does
not abort.  (On inputs with lexical errors the recovery paths may
synthesize characters — e.g. a closing quote — or drop offending
characters, so exact reconstruction holds only for error-free runs.) -/
theorem C2_roundtrip_when_error_free (src : String)
    (h : (lexRun src).errs = []) :
    (lexRun src).pieces.flatten = src.data ∧
    (lexRun src).aborted = false :=
  lexer_roundtrip (src.data.length + 1) src.data 1 (Nat.lt_succ_self _) h

/-- C2 witness: the amended theorem applied to the error-free source of
spec scenario 1. -/
theorem C2_roundtrip_when_error_free_witness :
    (lexRun "function f(a,b) return a+b end").pieces.flatten =
      "function f(a,b) return a+b end".data ∧
    (lexRun "function f(a,b) return a+b end").aborted = false :=
  C2_roundtrip_when_error_free "function f(a,b) return a+b end" (by decide)

/-!  Termination of the parser (claim C7).  Every parser procedure is
shown to complete (never exhaust its fuel) once the fuel exceeds a bound
linear in the measure `MT` of the token stream: twice the number of
unconsumed tokens plus one "keyword bit" that pays for the single
non-consuming `set_t` recovery step of `varorfunctioncall`. -/

/-- Number of tokens not yet consumed (current token included). -/
def muT (tk : Tokens) : Nat :=
  tk.rest.length + (if tk.t.isSome then 1 else 0)

/-- 0 when the current token text is one of the seven statement-starting
keywords that the `set_t` typo recovery can substitute, else 1. -/
def kwBit (tk : Tokens) : Nat :=
  if tk.t ∈ [some "do", some "while", some "repeat", some "if",
      some "for", some "function", some "local"] then 0 else 1

/-- The termination measure of a token stream. -/
def MT (tk : Tokens) : Nat := 2 * muT tk + kwBit tk

/-- Well-formedness of a stream state: the sentinel fields agree, and a
`None` current token means the underlying sequence is exhausted.  Every
stream reachable from `Tokens.init` satisfies this. -/
def wfT (tk : Tokens) : Prop :=
  (tk.t = none ↔ tk.tt = none) ∧ (tk.t = none → tk.rest = [])

def MS (s : PState) : Nat := MT s.toks

def wfS (s : PState) : Prop := wfT s.toks

theorem wfT_init (l : List (String × TokenType × Nat)) : wfT (Tokens.init l) := by
  cases l with
  | nil => exact ⟨by simp [Tokens.init], by simp [Tokens.init]⟩
  | cons x xs =>
    obtain ⟨a, b, c⟩ := x
    exact ⟨by simp [Tokens.init], by simp [Tokens.init]⟩

theorem wfT_next (tk : Tokens) : wfT tk.next := by
  cases hr : tk.rest with
  | nil => exact ⟨by simp [Tokens.next, hr], by simp [Tokens.next, hr]⟩
  | cons x xs =>
    obtain ⟨a, b, c⟩ := x
    exact ⟨by simp [Tokens.next, hr], by simp [Tokens.next, hr]⟩

theorem wfT_set_t (tk : Tokens) (t : String) (tt0 : TokenType) :
    wfT (tk.set_t t tt0) := by
  exact ⟨by simp [Tokens.set_t], by simp [Tokens.set_t]⟩

theorem muT_next_lt (tk : Tokens) (h : tk.t.isSome) : muT tk.next < muT tk := by
  cases hr : tk.rest with
  | nil =>
    have h1 : muT tk.next = 0 := by simp [muT, Tokens.next, hr]
    have h2 : muT tk = 1 := by
      rcases ht : tk.t with _ | v
      · rw [ht] at h; simp at h
      · simp [muT, hr, ht]
    omega
  | cons x xs =>
    obtain ⟨a, b, c⟩ := x
    have h1 : muT tk.next = xs.length + 1 := by simp [muT, Tokens.next, hr]
    have h2 : muT tk = xs.length + 1 + 1 := by
      rcases ht : tk.t with _ | v
      · rw [ht] at h; simp at h
      · simp [muT, hr, ht]
    omega

theorem muT_next_le (tk : Tokens) (h : wfT tk) : muT tk.next ≤ muT tk := by
  rcases ht : tk.t with _ | v
  · have hr := h.2 ht
    have : tk.next = ⟨none, none, none, []⟩ := by simp [Tokens.next, hr]
    simp [this, muT, hr, ht]
  · exact le_of_lt (muT_next_lt tk (by simp [ht]))

theorem MT_next_lt (tk : Tokens) (h : tk.t.isSome) : MT tk.next < MT tk := by
  have h1 := muT_next_lt tk h
  have h2 : muT tk ≥ 1 := by
    rcases ht : tk.t with _ | v
    · rw [ht] at h; simp at h
    · simp [muT, ht]
  simp only [MT, kwBit]
  split <;> split <;> omega

theorem MT_next_le (tk : Tokens) (h : wfT tk) : MT tk.next ≤ MT tk := by
  rcases ht : tk.t with _ | v
  · have hr := h.2 ht
    have he : tk.next = ⟨none, none, none, []⟩ := by simp [Tokens.next, hr]
    simp [MT, muT, kwBit, he, hr, ht]
  · exact le_of_lt (MT_next_lt tk (by simp [ht]))

theorem muT_set_t (tk : Tokens) (h : tk.t.isSome) (t : String) (tt0 : TokenType) :
    muT (tk.set_t t tt0) = muT tk := by
  rcases ht : tk.t with _ | v
  · rw [ht] at h; simp at h
  · simp [muT, Tokens.set_t, ht]

/-- Shape of `Tokens.match`. -/
theorem matchT_cases (tk : Tokens) (s : String) :
    (tk.matchT s = (true, tk.next) ∧ tk.t = some s) ∨
    (tk.matchT s = (false, tk) ∧ ¬tk.t = some s) := by
  by_cases h : tk.t = some s
  · exact Or.inl ⟨by simp [Tokens.matchT, h], h⟩
  · exact Or.inr ⟨by simp [Tokens.matchT, h], h⟩

/-- Shape of `Tokens.match_set`. -/
theorem matchSet_cases (tk : Tokens) (l : List String) :
    (tk.matchSet l = (true, tk.next) ∧ tk.t.isSome) ∨
    tk.matchSet l = (false, tk) := by
  rcases ht : tk.t with _ | v
  · exact Or.inr (by simp [Tokens.matchSet, ht])
  · by_cases hm : v ∈ l
    · exact Or.inl ⟨by simp [Tokens.matchSet, ht, hm], by simp [ht]⟩
    · exact Or.inr (by simp [Tokens.matchSet, ht, hm])

/-- Shape of `Tokens.match_type`. -/
theorem matchType_cases (tk : Tokens) (tt0 : TokenType) :
    (tk.matchType tt0 = (true, tk.next) ∧ tk.tt = some tt0) ∨
    tk.matchType tt0 = (false, tk) := by
  by_cases h : tk.tt = some tt0
  · exact Or.inl ⟨by simp [Tokens.matchType, h], h⟩
  · exact Or.inr (by simp [Tokens.matchType, h])

/-- `Parser.e` never exhausts fuel and consumes at most one token. -/
theorem e_spec (expected msg : String) (s : PState) :
    (Parser.e expected msg s).2 ≠ Res.fuelOut ∧
    ((Parser.e expected msg s).1.toks = s.toks ∨
     ((Parser.e expected msg s).1.toks = s.toks.next ∧ s.toks.t.isSome)) := by
  by_cases he : expected = ""
  · exact ⟨by simp [Parser.e, he, report], Or.inl (by simp [Parser.e, he, report])⟩
  · rcases ht : s.toks.t with _ | cur
    · exact ⟨by simp [Parser.e, he, ht], Or.inl (by simp [Parser.e, he, ht])⟩
    · by_cases hr : ratioGtSimilar cur.data expected.data = true
      · refine ⟨by simp [Parser.e, he, ht, hr, report],
          Or.inr ⟨by simp [Parser.e, he, ht, hr, report], by simp [ht]⟩⟩
      · exact ⟨by simp [Parser.e, he, ht, hr, report],
          Or.inl (by simp [Parser.e, he, ht, hr, report])⟩

/-- The candidate loop of `e_set` never exhausts fuel. -/
theorem eSetLoop_ne_fuelOut (cur : Option String) :
    ∀ (l : List (Option String)) temp maxi best,
    Parser.eSetLoop cur l temp maxi best ≠ Res.fuelOut := by
  intro l
  induction l with
  | nil => intro temp maxi best; simp [Parser.eSetLoop]
  | cons e0 rest ih =>
    intro temp maxi best
    rcases e0 with _ | ex
    · rcases temp with _ | tp
      · simp [Parser.eSetLoop]
      · simp only [Parser.eSetLoop]
        split <;> apply ih
    · rcases cur with _ | c
      · simp [Parser.eSetLoop]
      · simp only [Parser.eSetLoop]
        split <;> apply ih

/-- A successful candidate loop keeps the initial best match or returns
a member of the candidate list (in which case the current token is a
real token: the ratio against it was computed). -/
theorem eSetLoop_best_cases (cur : Option String) :
    ∀ (l : List (Option String)) temp maxi best m' b',
    Parser.eSetLoop cur l temp maxi best = Res.ok (m', b') →
    (temp.isSome → cur.isSome) →
    b' = best ∨ (cur.isSome ∧ b' ∈ l) := by
  intro l
  induction l with
  | nil =>
    intro temp maxi best m' b' h _
    simp [Parser.eSetLoop] at h
    exact Or.inl h.2.symm
  | cons e0 rest ih =>
    intro temp maxi best m' b' h htemp
    rcases e0 with _ | ex
    · rcases temp with _ | tp
      · simp [Parser.eSetLoop] at h
      · have hcur : cur.isSome := htemp (by simp)
        simp only [Parser.eSetLoop] at h
        split at h
        · rcases ih _ _ _ _ _ h (fun _ => hcur) with h1 | h1
          · exact Or.inr ⟨hcur, by simp [h1]⟩
          · exact Or.inr ⟨hcur, by simp [h1.2]⟩
        · rcases ih _ _ _ _ _ h (fun _ => hcur) with h1 | h1
          · exact Or.inl h1
          · exact Or.inr ⟨hcur, by simp [h1.2]⟩
    · rcases cur with _ | c
      · simp [Parser.eSetLoop] at h
      · simp only [Parser.eSetLoop] at h
        split at h
        · rcases ih _ _ _ _ _ h (fun _ => by simp) with h1 | h1
          · exact Or.inr ⟨by simp, by simp [h1]⟩
          · exact Or.inr ⟨by simp, by simp [h1.2]⟩
        · rcases ih _ _ _ _ _ h (fun _ => by simp) with h1 | h1
          · exact Or.inl h1
          · exact Or.inr ⟨by simp, by simp [h1.2]⟩

/-- A successful candidate loop keeps the initial maximum or computed a
ratio against a real current token. -/
theorem eSetLoop_max_cases (cur : Option String) :
    ∀ (l : List (Option String)) temp maxi best m' b',
    Parser.eSetLoop cur l temp maxi best = Res.ok (m', b') →
    (temp.isSome → cur.isSome) →
    m' = maxi ∨ cur.isSome := by
  intro l
  induction l with
  | nil =>
    intro temp maxi best m' b' h _
    simp [Parser.eSetLoop] at h
    exact Or.inl h.1.symm
  | cons e0 rest ih =>
    intro temp maxi best m' b' h htemp
    rcases e0 with _ | ex
    · rcases temp with _ | tp
      · simp [Parser.eSetLoop] at h
      · have hcur : cur.isSome := htemp (by simp)
        exact Or.inr hcur
    · rcases cur with _ | c
      · simp [Parser.eSetLoop] at h
      · exact Or.inr (by simp)

/-- Behaviour of the selection phase of `e_set`: it never exhausts
fuel, consumes at most one token, a successful best match is `""` or a
candidate (matched against a real token), with `increment = false` the
state is untouched, and with `increment = true` either nothing happened
(best `""`) or exactly one token was consumed. -/
theorem e_setCore_spec (expectation : List (Option String)) (incr : Bool)
    (s : PState) :
    (Parser.e_setCore expectation incr s).2 ≠ Res.fuelOut ∧
    ((Parser.e_setCore expectation incr s).1.toks = s.toks ∨
     ((Parser.e_setCore expectation incr s).1.toks = s.toks.next ∧
      s.toks.t.isSome)) ∧
    (∀ best, (Parser.e_setCore expectation incr s).2 = Res.ok best →
      best = some "" ∨ (best ∈ expectation ∧ s.toks.t.isSome)) ∧
    (incr = true → ∀ best,
      (Parser.e_setCore expectation incr s).2 = Res.ok best →
      ((Parser.e_setCore expectation incr s).1.toks = s.toks ∧ best = some "") ∨
      ((Parser.e_setCore expectation incr s).1.toks = s.toks.next ∧
       s.toks.t.isSome)) := by
  by_cases hemp : expectation.isEmpty
  · refine ⟨by simp [Parser.e_setCore, hemp], Or.inl (by simp [Parser.e_setCore, hemp]), ?_, ?_⟩
    · intro best h
      simp [Parser.e_setCore, hemp] at h
      exact Or.inl h.symm
    · intro _ best h
      simp [Parser.e_setCore, hemp] at h
      exact Or.inl ⟨by simp [Parser.e_setCore, hemp], h.symm⟩
  · rcases hl : Parser.eSetLoop s.toks.t expectation none (0, 1) (some "")
      with ⟨maxi, best0⟩ | ex | -
    case _ =>
      by_cases hle : ratioLeSimilar maxi = true
      · refine ⟨by simp [Parser.e_setCore, hemp, hl, hle],
          Or.inl (by simp [Parser.e_setCore, hemp, hl, hle]), ?_, ?_⟩
        · intro best h
          simp [Parser.e_setCore, hemp, hl, hle] at h
          exact Or.inl h.symm
        · intro _ best h
          simp [Parser.e_setCore, hemp, hl, hle] at h
          exact Or.inl ⟨by simp [Parser.e_setCore, hemp, hl, hle], h.symm⟩
      · have hsome : s.toks.t.isSome := by
          rcases eSetLoop_max_cases s.toks.t expectation none (0, 1) (some "")
            maxi best0 hl (by simp) with h1 | h1
          · subst h1
            exact absurd (by decide : ratioLeSimilar (0, 1) = true) hle
          · exact h1
        have hbest := eSetLoop_best_cases s.toks.t expectation none (0, 1)
          (some "") maxi best0 hl (by simp)
        cases incr with
        | true =>
          refine ⟨by simp [Parser.e_setCore, hemp, hl, hle],
            Or.inr ⟨by simp [Parser.e_setCore, hemp, hl, hle], hsome⟩, ?_, ?_⟩
          · intro best h
            simp [Parser.e_setCore, hemp, hl, hle] at h
            subst h
            rcases hbest with h1 | h1
            · exact Or.inl h1
            · exact Or.inr ⟨h1.2, hsome⟩
          · intro _ best h
            exact Or.inr ⟨by simp [Parser.e_setCore, hemp, hl, hle], hsome⟩
        | false =>
          refine ⟨by simp [Parser.e_setCore, hemp, hl, hle],
            Or.inl (by simp [Parser.e_setCore, hemp, hl, hle]), ?_, ?_⟩
          · intro best h
            simp [Parser.e_setCore, hemp, hl, hle] at h
            subst h
            rcases hbest with h1 | h1
            · exact Or.inl h1
            · exact Or.inr ⟨h1.2, hsome⟩
          · intro hinc
            simp at hinc
    case _ =>
      refine ⟨by simp [Parser.e_setCore, hemp, hl],
        Or.inl (by simp [Parser.e_setCore, hemp, hl]), ?_, ?_⟩
      · intro best h
        simp [Parser.e_setCore, hemp, hl] at h
      · intro _ best h
        simp [Parser.e_setCore, hemp, hl] at h
    case _ => exact absurd hl (eSetLoop_ne_fuelOut _ _ _ _ _)

/-- `Parser.e_set` inherits the behaviour of its selection phase (the
`msg` report leaves the token stream untouched). -/
theorem e_set_spec (expectation : List (Option String)) (incr : Bool)
    (msg : String) (s : PState) :
    (Parser.e_set expectation incr msg s).2 ≠ Res.fuelOut ∧
    ((Parser.e_set expectation incr msg s).1.toks = s.toks ∨
     ((Parser.e_set expectation incr msg s).1.toks = s.toks.next ∧
      s.toks.t.isSome)) ∧
    (∀ best, (Parser.e_set expectation incr msg s).2 = Res.ok best →
      best = some "" ∨ (best ∈ expectation ∧ s.toks.t.isSome)) ∧
    (incr = true → ∀ best,
      (Parser.e_set expectation incr msg s).2 = Res.ok best →
      ((Parser.e_set expectation incr msg s).1.toks = s.toks ∧
        best = some "") ∨
      ((Parser.e_set expectation incr msg s).1.toks = s.toks.next ∧
       s.toks.t.isSome)) := by
  obtain ⟨h1, h2, h3, h4⟩ := e_setCore_spec expectation incr s
  rcases hc : Parser.e_setCore expectation incr s with ⟨s1, r1⟩
  rw [hc] at h1 h2 h3 h4
  simp only at h1 h2 h3 h4
  rcases r1 with best | ex | -
  case _ =>
    by_cases hmsg : msg ≠ ""
    · refine ⟨by simp [Parser.e_set, hc, hmsg, report],
        by simpa [Parser.e_set, hc, hmsg, report] using h2, ?_, ?_⟩
      · intro b h
        simp [Parser.e_set, hc, hmsg, report] at h
        subst h
        exact h3 best rfl
      · intro hinc b h
        simp [Parser.e_set, hc, hmsg, report] at h
        subst h
        simpa [Parser.e_set, hc, hmsg, report] using h4 hinc best rfl
    · refine ⟨by simp [Parser.e_set, hc, hmsg],
        by simpa [Parser.e_set, hc, hmsg] using h2, ?_, ?_⟩
      · intro b h
        simp [Parser.e_set, hc, hmsg] at h
        subst h
        exact h3 best rfl
      · intro hinc b h
        simp [Parser.e_set, hc, hmsg] at h
        subst h
        simpa [Parser.e_set, hc, hmsg] using h4 hinc best rfl
  case _ =>
    refine ⟨by simp [Parser.e_set, hc], by simpa [Parser.e_set, hc] using h2, ?_, ?_⟩
    · intro best h
      simp [Parser.e_set, hc] at h
    · intro _ best h
      simp [Parser.e_set, hc] at h
  case _ => exact absurd rfl h1

/-- `Parser.name` never exhausts fuel and consumes at most one token. -/
theorem name_spec (s : PState) (h : wfS s) :
    (Parser.name s).2 ≠ Res.fuelOut ∧
    ((Parser.name s).1.toks = s.toks ∨
     ((Parser.name s).1.toks = s.toks.next ∧ s.toks.t.isSome)) := by
  rcases ht : s.toks.t with _ | temp
  · have htt : s.toks.tt = none := h.1.mp ht
    have hnn : ¬s.toks.tt = some TokenType.name := by simp [htt]
    exact ⟨by simp [Parser.name, ht, hnn], Or.inl (by simp [Parser.name, ht, hnn])⟩
  · by_cases htt : s.toks.tt = some TokenType.name
    · refine ⟨by simp [Parser.name, ht, htt], Or.inr ⟨by simp [Parser.name, ht, htt], by simp [ht]⟩⟩
    · obtain ⟨h1, h2⟩ := e_spec "" ("\x27" ++ temp ++ "\x27 is not a valid name") s
      rcases he : Parser.e "" ("\x27" ++ temp ++ "\x27 is not a valid name") s
        with ⟨s1, r1⟩
      rw [he] at h1 h2
      simp only at h1 h2
      rcases r1 with u | ex | -
      case _ =>
        exact ⟨by simp [Parser.name, ht, htt, Parser.pbind, he],
          by simpa [Parser.name, ht, htt, Parser.pbind, he] using h2⟩
      case _ =>
        exact ⟨by simp [Parser.name, ht, htt, Parser.pbind, he],
          by simpa [Parser.name, ht, htt, Parser.pbind, he] using h2⟩
      case _ => exact absurd rfl h1

/-- Transfer of the measure and invariant along a one-step token
change. -/
theorem toksStep_MS {s s' : PState} (h : wfS s)
    (hc : s'.toks = s.toks ∨ (s'.toks = s.toks.next ∧ s.toks.t.isSome)) :
    MS s' ≤ MS s ∧ wfS s' := by
  rcases hc with hc | ⟨hc, hs⟩
  · exact ⟨by simp [MS, hc], by rw [wfS, hc]; exact h⟩
  · exact ⟨by rw [MS, hc]; exact le_of_lt (MT_next_lt _ hs),
      by rw [wfS, hc]; exact wfT_next _⟩

/-- Transfer of measures and invariant along a one-step token change. -/
theorem toksStep_all {s s' : PState} (h : wfS s)
    (hc : s'.toks = s.toks ∨ (s'.toks = s.toks.next ∧ s.toks.t.isSome)) :
    MS s' ≤ MS s ∧ muT s'.toks ≤ muT s.toks ∧ wfS s' := by
  rcases hc with hc | ⟨hc, hs⟩
  · exact ⟨by simp [MS, hc], by simp [hc], by rw [wfS, hc]; exact h⟩
  · exact ⟨by rw [MS, hc]; exact le_of_lt (MT_next_lt _ hs),
      by rw [hc]; exact muT_next_le _ h,
      by rw [wfS, hc]; exact wfT_next _⟩

/-- Aggregate postcondition of a parser step relative to a start state:
no fuel exhaustion, measure non-increasing, invariant preserved. -/
def okD (s0 : PState) (x : PState × Res α) : Prop :=
  x.2 ≠ Res.fuelOut ∧ MS x.1 ≤ MS s0 ∧ wfS x.1

theorem okD_pure {s : PState} (h : wfS s) (a : α) : okD s (s, Res.ok a) :=
  ⟨by simp, le_refl _, h⟩

theorem okD_exc {s : PState} (h : wfS s) (e : PExc) :
    okD s ((s, Res.exc e) : PState × Res α) :=
  ⟨by simp, le_refl _, h⟩

theorem okD_mono {s0 s1 : PState} {x : PState × Res α}
    (h : okD s1 x) (hle : MS s1 ≤ MS s0) : okD s0 x :=
  ⟨h.1, le_trans h.2.1 hle, h.2.2⟩

theorem okD_pbind {s0 : PState} {x : PState × Res α}
    {f : α → PState → PState × Res β}
    (hx : okD s0 x)
    (hf : ∀ a s2, x = (s2, Res.ok a) → okD s2 (f a s2)) :
    okD s0 (Parser.pbind x f) := by
  rcases x with ⟨s1, r⟩
  rcases r with a | e | -
  · have h2 := hf a s1 rfl
    exact ⟨by simpa [Parser.pbind] using h2.1,
      by simpa [Parser.pbind] using le_trans h2.2.1 hx.2.1,
      by simpa [Parser.pbind] using h2.2.2⟩
  · exact ⟨by simpa [Parser.pbind] using hx.1,
      by simpa [Parser.pbind] using hx.2.1,
      by simpa [Parser.pbind] using hx.2.2⟩
  · exact absurd rfl hx.1

/-- Strict variant: the step consumed at least one token on success. -/
def okDlt (s0 : PState) (x : PState × Res α) : Prop :=
  okD s0 x ∧ ∀ a, x.2 = Res.ok a → MS x.1 < MS s0

theorem okD_of_okDlt {s0 : PState} {x : PState × Res α} (h : okDlt s0 x) :
    okD s0 x := h.1

theorem okD_e {s : PState} (h : wfS s) (expected msg : String) :
    okD s (Parser.e expected msg s) := by
  obtain ⟨h1, h2⟩ := e_spec expected msg s
  obtain ⟨h3, h4⟩ := toksStep_MS h h2
  exact ⟨h1, h3, h4⟩

theorem okD_e_set {s : PState} (h : wfS s) (expectation : List (Option String))
    (incr : Bool) (msg : String) :
    okD s (Parser.e_set expectation incr msg s) := by
  obtain ⟨h1, h2, _, _⟩ := e_set_spec expectation incr msg s
  obtain ⟨h3, h4⟩ := toksStep_MS h h2
  exact ⟨h1, h3, h4⟩

theorem okD_name {s : PState} (h : wfS s) : okD s (Parser.name s) := by
  obtain ⟨h1, h2⟩ := name_spec s h
  obtain ⟨h3, h4⟩ := toksStep_MS h h2
  exact ⟨h1, h3, h4⟩

theorem okD_toks_next {s : PState} (s' : PState) (h : wfS s)
    (hs : s'.toks = s.toks.next) (hcur : s.toks.t.isSome) (a : α) :
    okD s (s', Res.ok a) := by
  refine ⟨by simp, ?_, ?_⟩
  · simp only [MS, hs]
    exact le_of_lt (MT_next_lt _ hcur)
  · rw [wfS, hs]
    exact wfT_next _

theorem okDlt_toks_next {s : PState} (s' : PState)
    (hs : s'.toks = s.toks.next) (hcur : s.toks.t.isSome) (a : α) :
    okDlt s (s', Res.ok a) := by
  refine ⟨⟨by simp, ?_, ?_⟩, ?_⟩
  · simp only [MS, hs]
    exact le_of_lt (MT_next_lt _ hcur)
  · rw [wfS, hs]
    exact wfT_next _
  · intro a' _
    simp only [MS, hs]
    exact MT_next_lt _ hcur

theorem kwBit_le_one (tk : Tokens) : kwBit tk ≤ 1 := by
  unfold kwBit
  split <;> omega

/-- The token count is monotone under the measure (parity argument). -/
theorem muT_le_of_MT_le {a b : Tokens} (h : MT a ≤ MT b) : muT a ≤ muT b := by
  have h1 := kwBit_le_one a
  have h2 := kwBit_le_one b
  simp only [MT] at h
  omega

/-!  `EndOfScopeException` discipline: the only raise site consumes a
token first and carries a nonempty replacement keyword, so the exception
always escapes at a strictly smaller measure.  `okE` packages this with
`okD`; `okElt` adds strict decrease on ordinary success. -/

/-- `Parser.e` returns `ok` or raises `TypeError`. -/
theorem e_res_cases (expected msg : String) (s : PState) :
    (Parser.e expected msg s).2 = Res.ok () ∨
    (Parser.e expected msg s).2 = Res.exc PExc.typeError := by
  by_cases he : expected = ""
  · exact Or.inl (by simp [Parser.e, he])
  · rcases ht : s.toks.t with _ | cur
    · exact Or.inr (by simp [Parser.e, he, ht])
    · exact Or.inl (by simp [Parser.e, he, ht])

/-- The candidate loop of `e_set` raises only `TypeError` or
`UnboundLocalError`. -/
theorem eSetLoop_exc_cases (cur : Option String) :
    ∀ (l : List (Option String)) temp maxi best ex,
    Parser.eSetLoop cur l temp maxi best = Res.exc ex →
    ex = PExc.typeError ∨ ex = PExc.unboundLocal := by
  intro l
  induction l with
  | nil => intro temp maxi best ex h; simp [Parser.eSetLoop] at h
  | cons e0 rest ih =>
    intro temp maxi best ex h
    rcases e0 with _ | e1
    · rcases temp with _ | tp
      · simp [Parser.eSetLoop] at h
        exact Or.inr h.symm
      · simp only [Parser.eSetLoop] at h
        split at h
        · exact ih _ _ _ _ h
        · exact ih _ _ _ _ h
    · rcases cur with _ | c
      · simp [Parser.eSetLoop] at h
        exact Or.inl h.symm
      · simp only [Parser.eSetLoop] at h
        split at h
        · exact ih _ _ _ _ h
        · exact ih _ _ _ _ h

/-- The selection phase of `e_set` raises only `TypeError` or
`UnboundLocalError`. -/
theorem e_setCore_exc_cases (expectation : List (Option String))
    (incr : Bool) (s : PState) (ex : PExc)
    (h : (Parser.e_setCore expectation incr s).2 = Res.exc ex) :
    ex = PExc.typeError ∨ ex = PExc.unboundLocal := by
  by_cases hemp : expectation.isEmpty
  · simp [Parser.e_setCore, hemp] at h
  · rcases hl : Parser.eSetLoop s.toks.t expectation none (0, 1) (some "")
      with ⟨maxi, best⟩ | ex2 | -
    case _ =>
      by_cases hle : ratioLeSimilar maxi = true
      · simp [Parser.e_setCore, hemp, hl, hle] at h
      · cases incr <;> simp [Parser.e_setCore, hemp, hl, hle] at h
    case _ =>
      have h2 : ex2 = ex := by
        simp [Parser.e_setCore, hemp, hl] at h
        exact h
      subst h2
      exact eSetLoop_exc_cases _ _ _ _ _ _ hl
    case _ => exact absurd hl (eSetLoop_ne_fuelOut _ _ _ _ _)

/-- `Parser.e_set` raises only `TypeError` or `UnboundLocalError`. -/
theorem e_set_exc_cases (expectation : List (Option String)) (incr : Bool)
    (msg : String) (s : PState) (ex : PExc)
    (h : (Parser.e_set expectation incr msg s).2 = Res.exc ex) :
    ex = PExc.typeError ∨ ex = PExc.unboundLocal := by
  rcases hc : Parser.e_setCore expectation incr s with ⟨s1, r1⟩
  rcases r1 with best | ex2 | -
  · by_cases hmsg : msg ≠ "" <;> simp [Parser.e_set, hc, hmsg] at h
  · have h2 : ex2 = ex := by
      simp [Parser.e_set, hc] at h
      exact h
    subst h2
    exact e_setCore_exc_cases expectation incr s ex2 (by rw [hc])
  · have hs := e_setCore_spec expectation incr s
    rw [hc] at hs
    exact absurd rfl hs.1

/-- `Parser.name` raises only `TypeError`. -/
theorem name_exc_cases (s : PState) (ex : PExc)
    (h : (Parser.name s).2 = Res.exc ex) : ex = PExc.typeError := by
  rcases ht : s.toks.t with _ | temp
  · by_cases htt : s.toks.tt = some TokenType.name
    · simp [Parser.name, ht, htt] at h
    · simp [Parser.name, ht, htt] at h
      exact h.symm
  · by_cases htt : s.toks.tt = some TokenType.name
    · simp [Parser.name, ht, htt] at h
    · rcases he : Parser.e "" ("\x27" ++ temp ++ "\x27 is not a valid name") s
        with ⟨s1, r1⟩
      have hr := e_res_cases "" ("\x27" ++ temp ++ "\x27 is not a valid name") s
      rw [he] at hr
      simp only at hr
      rcases hr with hr | hr <;> subst hr <;>
        simp [Parser.name, ht, htt, Parser.pbind, he] at h
      exact h.symm

/-- `okD` strengthened with the `EndOfScopeException` discipline. -/
def okE (s0 : PState) (x : PState × Res α) : Prop :=
  okD s0 x ∧
  ∀ b, x.2 = Res.exc (PExc.endOfScopeE b) → MS x.1 < MS s0 ∧ b ≠ ""

/-- `okE` plus strict decrease on ordinary success. -/
def okElt (s0 : PState) (x : PState × Res α) : Prop :=
  okE s0 x ∧ ∀ a, x.2 = Res.ok a → MS x.1 < MS s0

theorem okE_pure {s : PState} (h : wfS s) (a : α) : okE s (s, Res.ok a) :=
  ⟨okD_pure h a, fun _ hb => nomatch hb⟩

theorem okE_exc_ne {s : PState} (h : wfS s) (ex : PExc)
    (hne : ∀ b, ex ≠ PExc.endOfScopeE b) :
    okE s ((s, Res.exc ex) : PState × Res α) := by
  refine ⟨okD_exc h ex, ?_⟩
  intro b hb
  have hb2 : Res.exc (α := α) ex = Res.exc (PExc.endOfScopeE b) := hb
  injection hb2 with h2
  exact absurd h2 (hne b)

theorem okE_mono {s0 s1 : PState} {x : PState × Res α}
    (h : okE s1 x) (hle : MS s1 ≤ MS s0) : okE s0 x :=
  ⟨okD_mono h.1 hle,
   fun b hb => ⟨lt_of_lt_of_le (h.2 b hb).1 hle, (h.2 b hb).2⟩⟩

theorem okE_mono_lt {s0 s1 : PState} {x : PState × Res α}
    (h : okE s1 x) (hlt : MS s1 < MS s0) : okElt s0 x :=
  ⟨okE_mono h (le_of_lt hlt), fun _ _ => lt_of_le_of_lt h.1.2.1 hlt⟩

theorem okE_of_okElt {s0 : PState} {x : PState × Res α} (h : okElt s0 x) :
    okE s0 x := h.1

theorem okE_pbind {s0 : PState} {x : PState × Res α}
    {f : α → PState → PState × Res β}
    (hx : okE s0 x)
    (hf : ∀ a s2, x = (s2, Res.ok a) → okE s2 (f a s2)) :
    okE s0 (Parser.pbind x f) := by
  rcases x with ⟨s1, r⟩
  rcases r with a | ex | -
  · have heq : Parser.pbind (s1, Res.ok a) f = f a s1 := by
      simp [Parser.pbind]
    rw [heq]
    exact okE_mono (hf a s1 rfl) hx.1.2.1
  · have heq : Parser.pbind (s1, Res.exc ex) f =
        ((s1, Res.exc ex) : PState × Res β) := by
      simp [Parser.pbind]
    rw [heq]
    refine ⟨⟨by simp, hx.1.2.1, hx.1.2.2⟩, ?_⟩
    intro b2 hb2
    have hb3 : Res.exc (α := β) ex = Res.exc (PExc.endOfScopeE b2) := hb2
    injection hb3 with h2
    subst h2
    exact hx.2 b2 rfl
  · exact absurd rfl hx.1.1

theorem okElt_pbind {s0 : PState} {x : PState × Res α}
    {f : α → PState → PState × Res β}
    (hx : okElt s0 x)
    (hf : ∀ a s2, x = (s2, Res.ok a) → okE s2 (f a s2)) :
    okElt s0 (Parser.pbind x f) := by
  rcases x with ⟨s1, r⟩
  rcases r with a | ex | -
  · have heq : Parser.pbind (s1, Res.ok a) f = f a s1 := by
      simp [Parser.pbind]
    rw [heq]
    exact okE_mono_lt (hf a s1 rfl) (hx.2 a rfl)
  · have heq : Parser.pbind (s1, Res.exc ex) f =
        ((s1, Res.exc ex) : PState × Res β) := by
      simp [Parser.pbind]
    rw [heq]
    refine ⟨⟨⟨by simp, hx.1.1.2.1, hx.1.1.2.2⟩, ?_⟩, fun a h => nomatch h⟩
    intro b2 hb2
    have hb3 : Res.exc (α := β) ex = Res.exc (PExc.endOfScopeE b2) := hb2
    injection hb3 with h2
    subst h2
    exact hx.1.2 b2 rfl
  · exact absurd rfl hx.1.1.1

theorem okE_e {s : PState} (h : wfS s) (expected msg : String) :
    okE s (Parser.e expected msg s) := by
  refine ⟨okD_e h expected msg, ?_⟩
  intro b hb
  rcases e_res_cases expected msg s with hr | hr <;> rw [hr] at hb <;>
    simp at hb

theorem okE_e_set {s : PState} (h : wfS s)
    (expectation : List (Option String)) (incr : Bool) (msg : String) :
    okE s (Parser.e_set expectation incr msg s) := by
  refine ⟨okD_e_set h expectation incr msg, ?_⟩
  intro b hb
  rcases e_set_exc_cases expectation incr msg s _ hb with hr | hr <;>
    simp at hr

theorem okE_name {s : PState} (h : wfS s) : okE s (Parser.name s) := by
  refine ⟨okD_name h, ?_⟩
  intro b hb
  have h2 := name_exc_cases s _ hb
  simp at h2

theorem okE_toks_next {s : PState} (s' : PState) (h : wfS s)
    (hs : s'.toks = s.toks.next) (hcur : s.toks.t.isSome) (a : α) :
    okE s (s', Res.ok a) :=
  ⟨okD_toks_next s' h hs hcur a, fun _ hb => nomatch hb⟩

theorem okElt_toks_next {s : PState} (s' : PState)
    (hs : s'.toks = s.toks.next) (hcur : s.toks.t.isSome) (a : α) :
    okElt s (s', Res.ok a) :=
  ⟨⟨(okDlt_toks_next s' hs hcur a).1, fun _ hb => nomatch hb⟩,
   fun _ _ => by simp only [MS, hs]; exact MT_next_lt _ hcur⟩

theorem okE_eos {s : PState} (s' : PState) (hs : s'.toks = s.toks.next)
    (hcur : s.toks.t.isSome) (b : String) (hbne : b ≠ "") :
    okE s ((s', Res.exc (PExc.endOfScopeE b)) : PState × Res α) := by
  have hok : okD s ((s', Res.exc (PExc.endOfScopeE b)) : PState × Res α) := by
    refine ⟨?_, ?_, ?_⟩
    · simp
    · simp only [MS, hs]
      exact le_of_lt (MT_next_lt _ hcur)
    · rw [wfS, hs]
      exact wfT_next _
  refine ⟨hok, ?_⟩
  intro b2 hb2
  have hb3 : Res.exc (α := α) (PExc.endOfScopeE b) =
      Res.exc (PExc.endOfScopeE b2) := hb2
  injection hb3 with h2
  injection h2 with h3
  subst h3
  exact ⟨by simp only [MS, hs]; exact MT_next_lt _ hcur, hbne⟩

/-- A failed `match_type` means the current type differs. -/
theorem matchType_false {tk : Tokens} {tt0 : TokenType}
    (h : tk.matchType tt0 = (false, tk)) : ¬tk.tt = some tt0 := by
  intro hc
  rw [Tokens.matchType, if_pos hc] at h
  injection h with h1 h2
  exact nomatch h1

/-- A well-formed stream with a typed current token has a real current
token. -/
theorem isSome_of_tt {tk : Tokens} (hwf : wfT tk) {tt0 : TokenType}
    (htt : tk.tt = some tt0) : tk.t.isSome := by
  rcases ht : tk.t with _ | v
  · exact absurd htt (by simp [hwf.1.mp ht])
  · simp

/-- `Parser.e` with an empty `expected` only reports. -/
theorem e_empty_eq (msg : String) (s : PState) :
    Parser.e "" msg s =
    (report s.toks.line
      ("\x27" ++ tokenTextStr s.toks.t ++ "\x27 not expected. " ++ msg ++ ".")
      s, Res.ok ()) := by
  simp [Parser.e]

/-- With `increment = False` the selection phase never moves the
stream. -/
theorem e_setCore_noinc (expectation : List (Option String)) (s : PState) :
    (Parser.e_setCore expectation false s).1.toks = s.toks := by
  by_cases hemp : expectation.isEmpty
  · simp [Parser.e_setCore, hemp]
  · rcases hl : Parser.eSetLoop s.toks.t expectation none (0, 1) (some "")
      with ⟨maxi, best⟩ | ex | -
    case _ =>
      by_cases hle : ratioLeSimilar maxi = true <;>
        simp [Parser.e_setCore, hemp, hl, hle]
    case _ => simp [Parser.e_setCore, hemp, hl]
    case _ => exact absurd hl (eSetLoop_ne_fuelOut _ _ _ _ _)

/-- With `increment = False`, `Parser.e_set` never moves the stream. -/
theorem e_set_noinc (expectation : List (Option String)) (msg : String)
    (s : PState) :
    (Parser.e_set expectation false msg s).1.toks = s.toks := by
  have hc0 := e_setCore_noinc expectation s
  rcases hc : Parser.e_setCore expectation false s with ⟨s1, r1⟩
  rw [hc] at hc0
  simp only at hc0
  rcases r1 with best | ex | -
  · by_cases hmsg : msg ≠ "" <;> simp [Parser.e_set, hc, hmsg, report, hc0]
  · simp [Parser.e_set, hc, hc0]
  · simp [Parser.e_set, hc, hc0]


/-- Associativity of `pbind`. -/
theorem pbind_assoc (x : PState × Res α) (g : α → PState → PState × Res β)
    (h : β → PState → PState × Res γ) :
    Parser.pbind (Parser.pbind x g) h =
    Parser.pbind x (fun a s => Parser.pbind (g a s) h) := by
  rcases x with ⟨s1, r⟩
  rcases r with a | e | - <;> simp [Parser.pbind]

/-- Termination of the `.`-loop of `funcname`: fuel above the number of
unconsumed tokens suffices. -/
theorem funcnameDots_term : ∀ (fuel : Nat) (s : PState), wfS s →
    muT s.toks < fuel → okE s (Parser.funcnameDots fuel s) := by
  intro fuel
  induction fuel with
  | zero => intro s hw hm; omega
  | succ fuel ih =>
    intro s hw hm
    rcases matchT_cases s.toks "." with ⟨hm1, ht1⟩ | ⟨hm1, ht1⟩
    · have hsome : s.toks.t.isSome := by simp [ht1]
      rw [show Parser.funcnameDots (fuel + 1) s =
          Parser.pbind (Parser.name { s with toks := s.toks.next,
                                              lastfunction := s.lastfunction ++ "." })
            (fun n s => Parser.funcnameDots fuel
              { s with lastfunction := s.lastfunction ++ n }) from by
        simp [Parser.funcnameDots, hm1]]
      have hw1 : wfS { s with toks := s.toks.next,
                               lastfunction := s.lastfunction ++ "." } :=
        wfT_next s.toks
      refine okE_mono (okE_pbind (okE_name hw1) ?_)
        (le_of_lt (MT_next_lt s.toks hsome))
      intro n s2 he2
      have hok := okD_name hw1
      rw [he2] at hok
      obtain ⟨_, hMS2, hw2⟩ := hok
      have hmu2 : muT s2.toks ≤ muT s.toks.next := muT_le_of_MT_le hMS2
      have hmu1 : muT s.toks.next < muT s.toks := muT_next_lt s.toks hsome
      have hr := ih { s2 with lastfunction := s2.lastfunction ++ n } hw2
        (by
          have he : muT ({ s2 with
              lastfunction := s2.lastfunction ++ n } : PState).toks =
              muT s2.toks := rfl
          omega)
      exact ⟨⟨hr.1.1, hr.1.2.1, hr.1.2.2⟩, hr.2⟩
    · rw [show Parser.funcnameDots (fuel + 1) s = (s, Res.ok ()) from by
        simp [Parser.funcnameDots, hm1]]
      exact okE_pure hw ()

/-- Termination of `Parser.funcname`. -/
theorem funcname_term (fuel : Nat) (s : PState) (hw : wfS s)
    (hm : muT s.toks < fuel) : okE s (Parser.funcname fuel s) := by
  have hw0 : wfS { s with lastfunction := "" } := hw
  rw [show Parser.funcname fuel s =
      Parser.pbind (Parser.name { s with lastfunction := "" })
        (fun n s =>
          Parser.pbind (Parser.funcnameDots fuel
            { s with lastfunction := s.lastfunction ++ n })
            (fun _ s =>
              let (m, tk) := s.toks.matchT ":"
              if m then
                Parser.pbind (Parser.name { s with toks := tk,
                                                    lastfunction := s.lastfunction ++ ":" })
                  (fun n s =>
                    ({ s with lastfunction := s.lastfunction ++ n },
                     Res.ok ()))
              else (s, Res.ok ()))) from by
    simp [Parser.funcname]]
  refine okE_pbind (okE_name hw0) ?_
  intro n s2 he2
  have hok := okD_name hw0
  rw [he2] at hok
  obtain ⟨_, hMS2, hw2⟩ := hok
  have hmu2 : muT s2.toks ≤ muT s.toks := muT_le_of_MT_le hMS2
  have hd := funcnameDots_term fuel
    { s2 with lastfunction := s2.lastfunction ++ n } hw2
    (by
      have he : muT ({ s2 with
          lastfunction := s2.lastfunction ++ n } : PState).toks =
          muT s2.toks := rfl
      omega)
  refine okE_pbind ⟨⟨hd.1.1, hd.1.2.1, hd.1.2.2⟩, hd.2⟩ ?_
  intro u s3 he3
  have hok3 := hd.1
  rw [he3] at hok3
  obtain ⟨_, hMS3, hw3⟩ := hok3
  rcases matchT_cases s3.toks ":" with ⟨hm3, ht3⟩ | ⟨hm3, ht3⟩
  · have hsome3 : s3.toks.t.isSome := by simp [ht3]
    rw [show (let (m, tk) := s3.toks.matchT ":"
        if m then
          Parser.pbind (Parser.name { s3 with toks := tk,
                                               lastfunction := s3.lastfunction ++ ":" })
            (fun n s =>
              ({ s with lastfunction := s.lastfunction ++ n }, Res.ok ()))
        else (s3, Res.ok ())) =
        Parser.pbind (Parser.name { s3 with toks := s3.toks.next,
                                             lastfunction := s3.lastfunction ++ ":" })
          (fun n s =>
            ({ s with lastfunction := s.lastfunction ++ n }, Res.ok ())) from by
      simp [hm3]]
    have hw4 : wfS { s3 with toks := s3.toks.next,
                              lastfunction := s3.lastfunction ++ ":" } :=
      wfT_next s3.toks
    refine okE_mono (okE_pbind (okE_name hw4) ?_)
      (le_of_lt (MT_next_lt s3.toks hsome3))
    intro n4 s4 he4
    have hok4 := okD_name hw4
    rw [he4] at hok4
    exact ⟨⟨by simp, le_refl _, hok4.2.2⟩, fun b hb => nomatch hb⟩
  · rw [show (let (m, tk) := s3.toks.matchT ":"
        if m then
          Parser.pbind (Parser.name { s3 with toks := tk,
                                               lastfunction := s3.lastfunction ++ ":" })
            (fun n s =>
              ({ s with lastfunction := s.lastfunction ++ n }, Res.ok ()))
        else (s3, Res.ok ())) = (s3, Res.ok ()) from by
      simp [hm3]]
    exact okE_pure hw3 ()

/-- Termination of the `namelist` loop. -/
theorem nlLoop_term : ∀ (fuel : Nat) (temp : List String) (s : PState),
    wfS s → muT s.toks < fuel → okE s (Parser.nlLoop fuel temp s) := by
  intro fuel
  induction fuel with
  | zero => intro temp s hw hm; omega
  | succ fuel ih =>
    intro temp s hw hm
    rcases matchT_cases s.toks "," with ⟨hm1, ht1⟩ | ⟨hm1, ht1⟩
    · have hsome : s.toks.t.isSome := by simp [ht1]
      rcases matchT_cases s.toks.next "..." with ⟨hm2, ht2⟩ | ⟨hm2, ht2⟩
      · rw [show Parser.nlLoop (fuel + 1) temp s =
            ({ s with toks := s.toks.next.next },
             Res.exc (PExc.ellipsisE "\x27...\x27 encountered in namelist"
               s.toks.next.next.line temp)) from by
          simp [Parser.nlLoop, hm1, hm2]]
        refine ⟨⟨by simp, ?_, ?_⟩, ?_⟩
        · simp only [MS]
          calc MT s.toks.next.next ≤ MT s.toks.next :=
                MT_next_le _ (wfT_next _)
            _ ≤ MT s.toks := le_of_lt (MT_next_lt _ hsome)
        · exact wfT_next _
        · intro b hb
          injection hb with h2
          exact nomatch h2
      · rw [show Parser.nlLoop (fuel + 1) temp s =
            Parser.pbind (Parser.name { s with toks := s.toks.next })
              (fun n s => Parser.nlLoop fuel (temp ++ [n]) s) from by
          simp [Parser.nlLoop, hm1, hm2]]
        have hw1 : wfS { s with toks := s.toks.next } := wfT_next s.toks
        refine okE_mono (okE_pbind (okE_name hw1) ?_)
          (le_of_lt (MT_next_lt s.toks hsome))
        intro n s2 he2
        have hok := okD_name hw1
        rw [he2] at hok
        obtain ⟨_, hMS2, hw2⟩ := hok
        have hmu2 : muT s2.toks ≤ muT s.toks.next := muT_le_of_MT_le hMS2
        have hmu1 : muT s.toks.next < muT s.toks := muT_next_lt s.toks hsome
        exact ih (temp ++ [n]) s2 hw2 (by omega)
    · rw [show Parser.nlLoop (fuel + 1) temp s = (s, Res.ok temp) from by
        simp [Parser.nlLoop, hm1]]
      exact okE_pure hw temp

/-- Termination of `Parser.namelist`. -/
theorem namelist_term : ∀ (fuel : Nat) (s : PState), wfS s →
    muT s.toks + 1 < fuel → okE s (Parser.namelist fuel s) := by
  intro fuel
  cases fuel with
  | zero => intro s hw hm; omega
  | succ fuel =>
    intro s hw hm
    rw [show Parser.namelist (fuel + 1) s =
        Parser.pbind (Parser.name s)
          (fun n s => Parser.nlLoop fuel [n] s) from by
      simp [Parser.namelist]]
    refine okE_pbind (okE_name hw) ?_
    intro n s2 he2
    have hok := okD_name hw
    rw [he2] at hok
    obtain ⟨_, hMS2, hw2⟩ := hok
    have hmu2 : muT s2.toks ≤ muT s.toks := muT_le_of_MT_le hMS2
    exact nlLoop_term fuel [n] s2 hw2 (by omega)

/-- Termination of the generic-`for` name loop of `Parser.stat`. -/
theorem statForNames_term : ∀ (fuel : Nat) (s : PState), wfS s →
    muT s.toks < fuel → okE s (Parser.statForNames fuel s) := by
  intro fuel
  induction fuel with
  | zero => intro s hw hm; omega
  | succ fuel ih =>
    intro s hw hm
    rcases matchT_cases s.toks "," with ⟨hm1, ht1⟩ | ⟨hm1, ht1⟩
    · have hsome : s.toks.t.isSome := by simp [ht1]
      rw [show Parser.statForNames (fuel + 1) s =
          Parser.pbind (Parser.name { s with toks := s.toks.next })
            (fun _ s => Parser.statForNames fuel s) from by
        simp [Parser.statForNames, hm1]]
      have hw1 : wfS { s with toks := s.toks.next } := wfT_next s.toks
      refine okE_mono (okE_pbind (okE_name hw1) ?_)
        (le_of_lt (MT_next_lt s.toks hsome))
      intro n s2 he2
      have hok := okD_name hw1
      rw [he2] at hok
      obtain ⟨_, hMS2, hw2⟩ := hok
      have hmu2 : muT s2.toks ≤ muT s.toks.next := muT_le_of_MT_le hMS2
      have hmu1 : muT s.toks.next < muT s.toks := muT_next_lt s.toks hsome
      exact ih s2 hw2 (by omega)
    · rw [show Parser.statForNames (fuel + 1) s = (s, Res.ok ()) from by
        simp [Parser.statForNames, hm1]]
      exact okE_pure hw ()

set_option maxHeartbeats 1600000

/-!  The master termination induction: each parser procedure satisfies
`okE` (with the extras recorded below) once its fuel exceeds
`32 * m + rank`, where `m` bounds the measure `MS` of the state and the
rank orders the procedures that can call one another without consuming a
token. -/

mutual

/-- Termination of `Parser.tableconstructor` at a `\x7b` token. -/
theorem tableconstructor_term (m : Nat) (s : PState) (fuel : Nat)
    (hw : wfS s) (hM : MS s ≤ m) (hf : 32 * m + 2 ≤ fuel)
    (hcur : s.toks.t = some "\x7b") :
    okElt s (Parser.tableconstructor fuel s) := by
  cases fuel with
  | zero => exact absurd hf (by omega)
  | succ f =>
  have hsome : s.toks.t.isSome := by simp [hcur]
  have hm1 : s.toks.matchT "\x7b" = (true, s.toks.next) := by
    simp [Tokens.matchT, hcur]
  have hw1 : wfS ({ s with toks := s.toks.next } : PState) := wfT_next s.toks
  have hMs : MT s.toks ≤ m := hM
  have hlt1 : MT s.toks.next < MT s.toks := MT_next_lt s.toks hsome
  have hm' : 1 ≤ m := by omega
  have hM1 : MS ({ s with toks := s.toks.next } : PState) ≤ m - 1 := by
    show MT s.toks.next ≤ m - 1
    omega
  simp [Parser.tableconstructor, hm1]
  refine okElt_pbind (okElt_toks_next _ rfl hsome ()) ?_
  intro a s2 he2
  injection he2 with h1 h2
  subst h1
  rcases matchT_cases s.toks.next "\x7d" with ⟨hm2, ht2⟩ | ⟨hm2, ht2⟩
  · simp [hm2]
    exact okE_toks_next _ hw1 rfl (by simp [ht2]) ()
  · simp [hm2]
    have hfld := field_term (m - 1) ({ s with toks := s.toks.next }) f hw1 hM1
      (by omega)
    refine okE_pbind hfld ?_
    intro a3 s3 he3
    rw [he3] at hfld
    have htc := tcLoop_term (m - 1) s3 f hfld.1.2.2
      (le_trans hfld.1.2.1 hM1) (by omega)
    refine okE_pbind htc ?_
    intro a4 s4 he4
    rw [he4] at htc
    rcases matchT_cases s4.toks "\x7d" with ⟨hm3, ht3⟩ | ⟨hm3, ht3⟩
    · simp [hm3]
      exact okE_toks_next _ htc.1.2.2 rfl (by simp [ht3]) ()
    · simp [hm3]
      exact okE_e htc.1.2.2 "\x7d" "expected"
termination_by 32 * m + 2

/-- Termination of `Parser.index`; on `.` or `[` it consumes. -/
theorem index_term (m : Nat) (s : PState) (fuel : Nat)
    (hw : wfS s) (hM : MS s ≤ m) (hf : 32 * m + 3 ≤ fuel) :
    okE s (Parser.index fuel s) ∧
    ((s.toks.t = some "." ∨ s.toks.t = some "[") →
      okElt s (Parser.index fuel s)) := by
  cases fuel with
  | zero => exact absurd hf (by omega)
  | succ f =>
  rcases matchT_cases s.toks "." with ⟨hm1, ht1⟩ | ⟨hm1, ht1⟩
  · have hsome : s.toks.t.isSome := by simp [ht1]
    have hw1 : wfS ({ s with toks := s.toks.next } : PState) := wfT_next s.toks
    suffices h : okElt s (Parser.index (f + 1) s) from ⟨h.1, fun _ => h⟩
    simp [Parser.index, hm1]
    refine okE_mono_lt (okE_pbind (okE_name hw1) ?_) (MT_next_lt s.toks hsome)
    intro a s2 he2
    have hok := okD_name hw1
    rw [he2] at hok
    exact okE_pure hok.2.2 ()
  · rcases matchT_cases s.toks "[" with ⟨hm2, ht2⟩ | ⟨hm2, ht2⟩
    · have hsome : s.toks.t.isSome := by simp [ht2]
      have hw1 : wfS ({ s with toks := s.toks.next } : PState) :=
        wfT_next s.toks
      have hMs : MT s.toks ≤ m := hM
      have hlt1 : MT s.toks.next < MT s.toks := MT_next_lt s.toks hsome
      have hm' : 1 ≤ m := by omega
      have hM1 : MS ({ s with toks := s.toks.next } : PState) ≤ m - 1 := by
        show MT s.toks.next ≤ m - 1
        omega
      suffices h : okElt s (Parser.index (f + 1) s) from ⟨h.1, fun _ => h⟩
      simp [Parser.index, hm1, hm2]
      have hexp0 := exp_term (m - 1) ({ s with toks := s.toks.next }) f hw1 hM1
        (by omega)
      refine okE_mono_lt (okE_pbind hexp0 ?_) hlt1
      intro a s2 he2
      have hexp := hexp0
      rw [he2] at hexp
      rcases matchT_cases s2.toks "]" with ⟨hm3, ht3⟩ | ⟨hm3, ht3⟩
      · simp [hm3]
        exact okE_toks_next _ hexp.1.2.2 rfl (by simp [ht3]) ()
      · simp [hm3]
        exact okE_e hexp.1.2.2 "]" "expected"
    · refine ⟨?_, ?_⟩
      · simp [Parser.index, hm1, hm2]
        exact okE_e hw "" "\x27.\x27 or \x27[\x27 expected"
      · intro hcnd
        rcases hcnd with h | h
        · exact absurd h ht1
        · exact absurd h ht2
termination_by 32 * m + 3

/-- Termination of `Parser.call`; on `:`, `(`, `\x7b` or a string
token it consumes. -/
theorem call_term (m : Nat) (s : PState) (fuel : Nat)
    (hw : wfS s) (hM : MS s ≤ m) (hf : 32 * m + 4 ≤ fuel) :
    okE s (Parser.call fuel s) ∧
    ((s.toks.t = some ":" ∨ s.toks.t = some "(" ∨
      s.toks.t = some "\x7b" ∨ s.toks.tt = some TokenType.str) →
      okElt s (Parser.call fuel s)) := by
  cases fuel with
  | zero => exact absurd hf (by omega)
  | succ f =>
  have hMs : MT s.toks ≤ m := hM
  have hrest : ∀ s2 : PState, wfS s2 → MS s2 ≤ m →
      okE s2
        (let (mstr, tkstr) := s2.toks.matchType TokenType.str
         let s2b := { s2 with toks := tkstr }
         if mstr then (s2b, Res.ok ())
         else
           let (mp, tkp) := s2b.toks.matchT "("
           if mp then
             let s2c := { s2b with toks := tkp }
             let (mrp, tkrp) := s2c.toks.matchT ")"
             let s2d := { s2c with toks := tkrp }
             if mrp then (s2d, Res.ok ())
             else
               Parser.pbind (Parser.explist f s2d) (fun _ s =>
               let (mrp2, tkrp2) := s.toks.matchT ")"
               let s4 := { s with toks := tkrp2 }
               if mrp2 then (s4, Res.ok ()) else Parser.e ")" "expected" s4)
           else if s2b.toks.t = some "\x7b" then Parser.tableconstructor f s2b
           else Parser.e "" "\x27(\x27, \x27\x7b\x27 or a string expected" s2b) ∧
      ((s2.toks.t = some "(" ∨ s2.toks.t = some "\x7b" ∨
        s2.toks.tt = some TokenType.str) →
        okElt s2
          (let (mstr, tkstr) := s2.toks.matchType TokenType.str
           let s2b := { s2 with toks := tkstr }
           if mstr then (s2b, Res.ok ())
           else
             let (mp, tkp) := s2b.toks.matchT "("
             if mp then
               let s2c := { s2b with toks := tkp }
               let (mrp, tkrp) := s2c.toks.matchT ")"
               let s2d := { s2c with toks := tkrp }
               if mrp then (s2d, Res.ok ())
               else
                 Parser.pbind (Parser.explist f s2d) (fun _ s =>
                 let (mrp2, tkrp2) := s.toks.matchT ")"
                 let s4 := { s with toks := tkrp2 }
                 if mrp2 then (s4, Res.ok ())
                 else Parser.e ")" "expected" s4)
             else if s2b.toks.t = some "\x7b" then
               Parser.tableconstructor f s2b
             else Parser.e "" "\x27(\x27, \x27\x7b\x27 or a string expected"
               s2b)) := by
    intro s2 hw2 hM2
    have hMs2 : MT s2.toks ≤ m := hM2
    rcases matchType_cases s2.toks TokenType.str with ⟨hmt, htt⟩ | hmt
    · have hsome2 := isSome_of_tt hw2 htt
      constructor
      · simp only [hmt]
        exact okE_toks_next _ hw2 rfl hsome2 ()
      · intro hcnd
        simp only [hmt]
        exact okElt_toks_next _ rfl hsome2 ()
    · have hnstr : ¬s2.toks.tt = some TokenType.str := matchType_false hmt
      rcases matchT_cases s2.toks "(" with ⟨hmp, htp⟩ | ⟨hmp, htp⟩
      · have hsomeP : s2.toks.t.isSome := by simp [htp]
        have hlt1 : MT s2.toks.next < MT s2.toks := MT_next_lt s2.toks hsomeP
        have hm' : 1 ≤ m := by omega
        rcases matchT_cases s2.toks.next ")" with ⟨hmr, htr⟩ | ⟨hmr, htr⟩
        · constructor
          · simp [hmt, hmp, hmr]
            refine ⟨⟨by simp, ?_, ?_⟩, fun b hb => nomatch hb⟩
            · show MT s2.toks.next.next ≤ MT s2.toks
              have hA := MT_next_le s2.toks.next (wfT_next _)
              omega
            · show wfT s2.toks.next.next
              exact wfT_next _
          · intro hcnd
            simp [hmt, hmp, hmr]
            refine ⟨⟨⟨by simp, ?_, ?_⟩, fun b hb => nomatch hb⟩, ?_⟩
            · show MT s2.toks.next.next ≤ MT s2.toks
              have hA := MT_next_le s2.toks.next (wfT_next _)
              omega
            · show wfT s2.toks.next.next
              exact wfT_next _
            · intro a ha
              show MT s2.toks.next.next < MT s2.toks
              have hA := MT_next_le s2.toks.next (wfT_next _)
              omega
        · have hw2c : wfS ({ s2 with toks := s2.toks.next } : PState) :=
            wfT_next s2.toks
          have hM2c : MS ({ s2 with toks := s2.toks.next } : PState) ≤
              m - 1 := by
            show MT s2.toks.next ≤ m - 1
            omega
          have hcore : okE ({ s2 with toks := s2.toks.next } : PState)
              (Parser.pbind
                (Parser.explist f { s2 with toks := s2.toks.next })
                (fun _ s =>
                 let (mrp2, tkrp2) := s.toks.matchT ")"
                 let s4 := { s with toks := tkrp2 }
                 if mrp2 then (s4, Res.ok ())
                 else Parser.e ")" "expected" s4)) := by
            have hexl0 := explist_term (m - 1)
              ({ s2 with toks := s2.toks.next }) f hw2c hM2c (by omega)
            refine okE_pbind hexl0 ?_
            intro a s3 he3
            have hexl := hexl0
            rw [he3] at hexl
            rcases matchT_cases s3.toks ")" with ⟨hmr2, htr2⟩ | ⟨hmr2, htr2⟩
            · simp [hmr2]
              exact okE_toks_next _ hexl.1.2.2 rfl (by simp [htr2]) ()
            · simp [hmr2]
              exact okE_e hexl.1.2.2 ")" "expected"
          constructor
          · simp [hmt, hmp, hmr]
            exact okE_mono hcore (le_of_lt hlt1)
          · intro hcnd
            simp [hmt, hmp, hmr]
            exact okE_mono_lt hcore hlt1
      · by_cases hbr : s2.toks.t = some "\x7b"
        · have htc := tableconstructor_term m s2 f hw2 hM2 (by omega) hbr
          constructor
          · simp [hmt, hmp, hbr]
            exact htc.1
          · intro hcnd
            simp [hmt, hmp, hbr]
            exact htc
        · constructor
          · simp [hmt, hmp, hbr]
            exact okE_e hw2 "" "\x27(\x27, \x27\x7b\x27 or a string expected"
          · intro hcnd
            rcases hcnd with h | h | h
            · exact absurd h htp
            · exact absurd h hbr
            · exact absurd h hnstr
  rcases matchT_cases s.toks ":" with ⟨hm1, ht1⟩ | ⟨hm1, ht1⟩
  · have hsome : s.toks.t.isSome := by simp [ht1]
    have hw1 : wfS ({ s with toks := s.toks.next } : PState) := wfT_next s.toks
    suffices h : okElt s (Parser.call (f + 1) s) from ⟨h.1, fun _ => h⟩
    rw [show Parser.call (f + 1) s =
        Parser.pbind
          (Parser.pbind (Parser.name { s with toks := s.toks.next })
            (fun _ s => (s, Res.ok ())))
          (fun _ s2 =>
            let (mstr, tkstr) := s2.toks.matchType TokenType.str
            let s2b := { s2 with toks := tkstr }
            if mstr then (s2b, Res.ok ())
            else
              let (mp, tkp) := s2b.toks.matchT "("
              if mp then
                let s2c := { s2b with toks := tkp }
                let (mrp, tkrp) := s2c.toks.matchT ")"
                let s2d := { s2c with toks := tkrp }
                if mrp then (s2d, Res.ok ())
                else
                  Parser.pbind (Parser.explist f s2d) (fun _ s =>
                  let (mrp2, tkrp2) := s.toks.matchT ")"
                  let s4 := { s with toks := tkrp2 }
                  if mrp2 then (s4, Res.ok ())
                  else Parser.e ")" "expected" s4)
              else if s2b.toks.t = some "\x7b" then
                Parser.tableconstructor f s2b
              else Parser.e "" "\x27(\x27, \x27\x7b\x27 or a string expected"
                s2b) from by
      simp [Parser.call, hm1]]
    have hpre : okElt s
        (Parser.pbind (Parser.name { s with toks := s.toks.next })
          (fun _ s => (s, Res.ok ()))) := by
      refine okE_mono_lt (okE_pbind (okE_name hw1) ?_)
        (MT_next_lt s.toks hsome)
      intro a s2 he2
      have hok := okD_name hw1
      rw [he2] at hok
      exact okE_pure hok.2.2 ()
    refine okElt_pbind hpre ?_
    intro a s2 he2
    have hp2 := hpre.1
    rw [he2] at hp2
    exact (hrest s2 hp2.1.2.2 (le_trans hp2.1.2.1 hM)).1
  · rw [show Parser.call (f + 1) s =
        Parser.pbind ((s : PState), Res.ok ())
          (fun _ s2 =>
            let (mstr, tkstr) := s2.toks.matchType TokenType.str
            let s2b := { s2 with toks := tkstr }
            if mstr then (s2b, Res.ok ())
            else
              let (mp, tkp) := s2b.toks.matchT "("
              if mp then
                let s2c := { s2b with toks := tkp }
                let (mrp, tkrp) := s2c.toks.matchT ")"
                let s2d := { s2c with toks := tkrp }
                if mrp then (s2d, Res.ok ())
                else
                  Parser.pbind (Parser.explist f s2d) (fun _ s =>
                  let (mrp2, tkrp2) := s.toks.matchT ")"
                  let s4 := { s with toks := tkrp2 }
                  if mrp2 then (s4, Res.ok ())
                  else Parser.e ")" "expected" s4)
              else if s2b.toks.t = some "\x7b" then
                Parser.tableconstructor f s2b
              else Parser.e "" "\x27(\x27, \x27\x7b\x27 or a string expected"
                s2b) from by
      simp [Parser.call, hm1]]
    have h2 := hrest s hw hM
    constructor
    · exact h2.1
    · intro hcnd
      have hcnd2 : (s.toks.t = some "(" ∨ s.toks.t = some "\x7b" ∨
          s.toks.tt = some TokenType.str) := by
        rcases hcnd with h | h | h | h
        · exact absurd h ht1
        · exact Or.inl h
        · exact Or.inr (Or.inl h)
        · exact Or.inr (Or.inr h)
      exact h2.2 hcnd2
termination_by 32 * m + 4

/-- Termination of the suffix loop of `Parser.varorfunctioncall`. -/
theorem vofcLoop_term (m : Nat) (isvar : Bool) (s : PState) (fuel : Nat)
    (hw : wfS s) (hM : MS s ≤ m) (hf : 32 * m + 5 ≤ fuel) :
    okE s (Parser.vofcLoop fuel isvar s) := by
  cases fuel with
  | zero => exact absurd hf (by omega)
  | succ f =>
  have hMs : MT s.toks ≤ m := hM
  by_cases hc1 : (s.toks.t = some "[" ∨ s.toks.t = some ".")
  · have hb1 : (s.toks.t = some "[" || s.toks.t = some ".") = true := by
      rcases hc1 with h | h <;> simp [h]
    simp [Parser.vofcLoop, hb1]
    have hidx0 := index_term m s f hw hM (by omega)
    have hidx := hidx0.2 (Or.symm hc1)
    refine okE_pbind hidx.1 ?_
    intro a s2 he2
    rw [he2] at hidx
    have hlt2 : MT s2.toks < MT s.toks := hidx.2 a rfl
    have hm' : 1 ≤ m := by omega
    exact vofcLoop_term (m - 1) true s2 f hidx.1.1.2.2
      (by show MT s2.toks ≤ m - 1; omega) (by omega)
  · simp only [not_or] at hc1
    obtain ⟨hn1, hn2⟩ := hc1
    have hb1 : (s.toks.t = some "[" || s.toks.t = some ".") = false := by
      simp [hn1, hn2]
    by_cases hc2 : (s.toks.t = some "(" ∨ s.toks.t = some "\x7b" ∨
        s.toks.t = some ":" ∨ s.toks.tt = some TokenType.str)
    · have hb2 : (s.toks.t = some "(" || s.toks.t = some "\x7b" ||
          s.toks.t = some ":" || s.toks.tt = some TokenType.str) = true := by
        rcases hc2 with h | h | h | h <;> simp [h]
      simp [Parser.vofcLoop, hb1, hb2]
      have hcnd : (s.toks.t = some ":" ∨ s.toks.t = some "(" ∨
          s.toks.t = some "\x7b" ∨ s.toks.tt = some TokenType.str) := by
        rcases hc2 with h | h | h | h
        · exact Or.inr (Or.inl h)
        · exact Or.inr (Or.inr (Or.inl h))
        · exact Or.inl h
        · exact Or.inr (Or.inr (Or.inr h))
      have hcall0 := call_term m s f hw hM (by omega)
      have hcall := hcall0.2 hcnd
      refine okE_pbind hcall.1 ?_
      intro a s2 he2
      rw [he2] at hcall
      have hlt2 : MT s2.toks < MT s.toks := hcall.2 a rfl
      have hm' : 1 ≤ m := by omega
      exact vofcLoop_term (m - 1) false s2 f hcall.1.1.2.2
        (by show MT s2.toks ≤ m - 1; omega) (by omega)
    · simp only [not_or] at hc2
      obtain ⟨hn3, hn4, hn5, hn6⟩ := hc2
      have hb2 : (s.toks.t = some "(" || s.toks.t = some "\x7b" ||
          s.toks.t = some ":" || s.toks.tt = some TokenType.str) = false := by
        simp [hn3, hn4, hn5, hn6]
      simp [Parser.vofcLoop, hb1, hb2]
      exact okE_pure hw isvar
termination_by 32 * m + 5

/-- Termination of the defensive-consume tail of
`Parser.varorfunctioncall`. -/
theorem vofcFall_term (m : Nat) (s : PState) (fuel : Nat)
    (hw : wfS s) (hM : MS s ≤ m) (hf : 32 * m + 6 ≤ fuel) :
    okE s (Parser.vofcFall fuel s) ∧
    (s.toks.t.isSome → okElt s (Parser.vofcFall fuel s)) := by
  cases fuel with
  | zero => exact absurd hf (by omega)
  | succ f =>
  have hMs : MT s.toks ≤ m := hM
  have hw1 : wfS ({ s with toks := s.toks.next } : PState) := wfT_next s.toks
  have hM1 : MS ({ s with toks := s.toks.next } : PState) ≤ m := by
    show MT s.toks.next ≤ m
    have h2 := MT_next_le s.toks hw
    omega
  have hcore : okE ({ s with toks := s.toks.next } : PState)
      (Parser.pbind (Parser.e ""
          "\x27[\x27, \x27.\x27, \x27(\x27, \x27\x7b\x27, \x27:\x27 or a string expected"
          { s with toks := s.toks.next })
        (fun _ s => Parser.vofcLoop f false s)) := by
    refine okE_pbind (okE_e hw1 "" _) ?_
    intro a s2 he2
    have hok := okD_e hw1 ""
      "\x27[\x27, \x27.\x27, \x27(\x27, \x27\x7b\x27, \x27:\x27 or a string expected"
    rw [he2] at hok
    exact vofcLoop_term m false s2 f hok.2.2 (le_trans hok.2.1 hM1) (by omega)
  constructor
  · simp only [Parser.vofcFall]
    exact okE_mono hcore (MT_next_le s.toks hw)
  · intro hsome
    simp only [Parser.vofcFall]
    exact okE_mono_lt hcore (MT_next_lt s.toks hsome)
termination_by 32 * m + 6

/-- Termination of the keyword-recovery attempt of
`Parser.varorfunctioncall`: on success it either consumed or rewrote
the current token into a statement keyword (`kwBit` 0) returning
`False`. -/
theorem vofcKeyword_term (m : Nat) (s : PState) (fuel : Nat)
    (hw : wfS s) (hM : MS s ≤ m) (hf : 32 * m + 7 ≤ fuel)
    (hcur : s.toks.t.isSome) :
    okE s (Parser.vofcKeyword fuel s) ∧
    (∀ b, (Parser.vofcKeyword fuel s).2 = Res.ok b →
      (MS (Parser.vofcKeyword fuel s).1 < MS s ∨
       (b = false ∧ kwBit (Parser.vofcKeyword fuel s).1.toks = 0))) := by
  cases fuel with
  | zero => exact absurd hf (by omega)
  | succ f =>
  have hMs : MT s.toks ≤ m := hM
  have hes := e_set_spec [some "do", some "while", some "repeat", some "if",
    some "for", some "function", some "local"] false "" s
  have hnoinc := e_set_noinc [some "do", some "while", some "repeat",
    some "if", some "for", some "function", some "local"] "" s
  have hokE := okE_e_set hw [some "do", some "while", some "repeat",
    some "if", some "for", some "function", some "local"] false ""
  rcases hc : Parser.e_set [some "do", some "while", some "repeat",
      some "if", some "for", some "function", some "local"] false "" s
    with ⟨s1, r1⟩
  rw [hc] at hes hnoinc hokE
  rcases r1 with best | ex | -
  · rcases best with _ | bs
    · rw [show Parser.vofcKeyword (f + 1) s = (s1, Res.exc PExc.typeError)
          from by simp [Parser.vofcKeyword, hc]]
      refine ⟨⟨⟨by simp, hokE.1.2.1, hokE.1.2.2⟩, ?_⟩, ?_⟩
      · intro b hb
        have hb2 : Res.exc (α := Bool) PExc.typeError =
            Res.exc (PExc.endOfScopeE b) := hb
        injection hb2 with h2
        exact nomatch h2
      · intro b hb
        exact nomatch hb
    · by_cases hbs : bs = ""
      · subst hbs
        rw [show Parser.vofcKeyword (f + 1) s = Parser.vofcFall f s1
            from by simp [Parser.vofcKeyword, hc]]
        have hcur1 : s1.toks.t.isSome := by rw [hnoinc]; exact hcur
        have hw1 : wfS s1 := hokE.1.2.2
        have hM1 : MS s1 ≤ m := le_trans hokE.1.2.1 hM
        have hvf := vofcFall_term m s1 f hw1 hM1 (by omega)
        have hvfe := (hvf.2 hcur1)
        refine ⟨okE_mono hvfe.1 hokE.1.2.1, ?_⟩
        intro b hb
        refine Or.inl ?_
        exact lt_of_lt_of_le (hvfe.2 b hb) hokE.1.2.1
      · have hb2 := hes.2.2.1 (some bs) rfl
        have hmem : some bs ∈ [some "do", some "while", some "repeat",
            some "if", some "for", some "function", some "local"] ∧
            s.toks.t.isSome := by
          rcases hb2 with h | h
          · exact absurd h (by simp [hbs])
          · exact h
        have hsome1 : s1.toks.t.isSome := by rw [hnoinc]; exact hcur
        have hkw0 : kwBit (s1.toks.set_t bs TokenType.key) = 0 := by
          simp only [kwBit, Tokens.set_t]
          rw [if_pos]
          simpa using hmem.1
        have hmu1 : muT (s1.toks.set_t bs TokenType.key) = muT s1.toks :=
          muT_set_t s1.toks hsome1 bs TokenType.key
        rw [show Parser.vofcKeyword (f + 1) s =
            ({ report s1.toks.line ("Typo in \x27" ++
                tokenTextStr s1.toks.t ++
                "\x27 - should probably be \x27" ++ bs ++ "\x27.") s1 with
                toks := s1.toks.set_t bs TokenType.key }, Res.ok false)
            from by simp [Parser.vofcKeyword, hc, hbs, report]]
        constructor
        · refine ⟨⟨by simp, ?_, ?_⟩, fun b hb => nomatch hb⟩
          · show MT (s1.toks.set_t bs TokenType.key) ≤ MT s.toks
            have hb1 : kwBit s.toks ≤ 1 := kwBit_le_one s.toks
            have hmuE : muT s1.toks = muT s.toks := by rw [hnoinc]
            simp only [MT]
            omega
          · show wfT (s1.toks.set_t bs TokenType.key)
            exact wfT_set_t s1.toks bs TokenType.key
        · intro b hb
          have hb3 : Res.ok (α := Bool) false = Res.ok b := hb
          injection hb3 with h3
          subst h3
          exact Or.inr ⟨rfl, hkw0⟩
  · rw [show Parser.vofcKeyword (f + 1) s = (s1, Res.exc ex)
        from by simp [Parser.vofcKeyword, hc]]
    refine ⟨⟨⟨by simp, hokE.1.2.1, hokE.1.2.2⟩, ?_⟩, fun b hb => nomatch hb⟩
    intro b hb
    have hb2 : Res.exc (α := Bool) ex = Res.exc (PExc.endOfScopeE b) := hb
    injection hb2 with h2
    subst h2
    exact hokE.2 b rfl
  · exact absurd rfl hes.1
termination_by 32 * m + 7

/-- Termination of the suffix dispatch of
`Parser.varorfunctioncall`. -/
theorem vofcSuffix_term (m : Nat) (expFlag : Bool)
    (cond : List (Option String)) (t : String) (tt : TokenType)
    (nameFlag : Bool) (s : PState) (fuel : Nat)
    (hw : wfS s) (hM : MS s ≤ m) (hf : 32 * m + 8 ≤ fuel)
    (hn : nameFlag = true → s.toks.tt = some TokenType.name) :
    okE s (Parser.vofcSuffix fuel expFlag cond t tt nameFlag s) ∧
    (nameFlag = true →
      ∀ b, (Parser.vofcSuffix fuel expFlag cond t tt nameFlag s).2 =
        Res.ok b →
      (MS (Parser.vofcSuffix fuel expFlag cond t tt nameFlag s).1 < MS s ∨
       (b = false ∧
        kwBit (Parser.vofcSuffix fuel expFlag cond t tt nameFlag s).1.toks =
          0))) := by
  cases fuel with
  | zero => exact absurd hf (by omega)
  | succ f =>
  have hMs : MT s.toks ≤ m := hM
  have hw1 : wfS ({ s with toks := s.toks.next } : PState) := wfT_next s.toks
  have hM1 : MS ({ s with toks := s.toks.next } : PState) ≤ m := by
    show MT s.toks.next ≤ m
    have h2 := MT_next_le s.toks hw
    omega
  by_cases hc1 : (t = "[" ∨ t = ".")
  · have hb1 : (t = "[" || t = ".") = true := by
      rcases hc1 with h | h <;> simp [h]
    have hcore : okE ({ s with toks := s.toks.next } : PState)
        (Parser.pbind (Parser.index f { s with toks := s.toks.next })
          (fun _ s => Parser.vofcLoop f true s)) := by
      have hidx0 := index_term m ({ s with toks := s.toks.next }) f hw1 hM1
        (by omega)
      refine okE_pbind hidx0.1 ?_
      intro a s2 he2
      have hidx := hidx0.1
      rw [he2] at hidx
      exact vofcLoop_term m true s2 f hidx.1.2.2 (le_trans hidx.1.2.1 hM1)
        (by omega)
    rw [show Parser.vofcSuffix (f + 1) expFlag cond t tt nameFlag s =
        Parser.pbind (Parser.index f { s with toks := s.toks.next })
          (fun _ s => Parser.vofcLoop f true s) from by
      simp [Parser.vofcSuffix, hb1]]
    constructor
    · exact okE_mono hcore (MT_next_le s.toks hw)
    · intro hnf b hb
      have hsome : s.toks.t.isSome := isSome_of_tt hw (hn hnf)
      exact Or.inl ((okE_mono_lt hcore (MT_next_lt s.toks hsome)).2 b hb)
  · have hb1 : (t = "[" || t = ".") = false := by
      simp only [not_or] at hc1
      simp [hc1.1, hc1.2]
    by_cases hc2 : (t = "(" ∨ t = "\x7b" ∨ t = ":" ∨ tt = TokenType.str)
    · have hb2 : (t = "(" || t = "\x7b" || t = ":" ||
          tt = TokenType.str) = true := by
        rcases hc2 with h | h | h | h <;> simp [h]
      have hcore : okE ({ s with toks := s.toks.next } : PState)
          (Parser.pbind (Parser.call f { s with toks := s.toks.next })
            (fun _ s => Parser.vofcLoop f false s)) := by
        have hcl0 := call_term m ({ s with toks := s.toks.next }) f hw1 hM1
          (by omega)
        refine okE_pbind hcl0.1 ?_
        intro a s2 he2
        have hcl := hcl0.1
        rw [he2] at hcl
        exact vofcLoop_term m false s2 f hcl.1.2.2 (le_trans hcl.1.2.1 hM1)
          (by omega)
      rw [show Parser.vofcSuffix (f + 1) expFlag cond t tt nameFlag s =
          Parser.pbind (Parser.call f { s with toks := s.toks.next })
            (fun _ s => Parser.vofcLoop f false s) from by
        simp [Parser.vofcSuffix, hb1, hb2]]
      constructor
      · exact okE_mono hcore (MT_next_le s.toks hw)
      · intro hnf b hb
        have hsome : s.toks.t.isSome := isSome_of_tt hw (hn hnf)
        exact Or.inl ((okE_mono_lt hcore (MT_next_lt s.toks hsome)).2 b hb)
    · have hb2 : (t = "(" || t = "\x7b" || t = ":" ||
          tt = TokenType.str) = false := by
        simp only [not_or] at hc2
        simp [hc2.1, hc2.2.1, hc2.2.2.1, hc2.2.2.2]
      by_cases hefT : expFlag = true
      · rw [show Parser.vofcSuffix (f + 1) expFlag cond t tt nameFlag s =
            ({ s with toks := s.toks.next }, Res.ok false) from by
          simp [Parser.vofcSuffix, hb1, hb2, hefT]]
        constructor
        · exact ⟨⟨by simp, MT_next_le s.toks hw, wfT_next s.toks⟩,
            fun b hb => nomatch hb⟩
        · intro hnf b hb
          have hsome : s.toks.t.isSome := isSome_of_tt hw (hn hnf)
          exact Or.inl (MT_next_lt s.toks hsome)
      · have hef : expFlag = false := by simpa using hefT
        by_cases hnf0 : nameFlag = true
        · have hsome : s.toks.t.isSome := isSome_of_tt hw (hn hnf0)
          have hes := e_set_spec cond false "" s
          have hnoinc := e_set_noinc cond "" s
          have hokE := okE_e_set hw cond false ""
          rcases hc : Parser.e_set cond false "" s with ⟨s1, r1⟩
          rw [hc] at hes hnoinc hokE
          rcases r1 with best | ex | -
          · rcases best with _ | bs
            · rw [show Parser.vofcSuffix (f + 1) expFlag cond t tt nameFlag s =
                  (s1, Res.exc PExc.typeError) from by
                simp [Parser.vofcSuffix, hb1, hb2, hef, hnf0, hc]]
              refine ⟨⟨⟨by simp, hokE.1.2.1, hokE.1.2.2⟩, ?_⟩, ?_⟩
              · intro b hb
                have hb2 : Res.exc (α := Bool) PExc.typeError =
                    Res.exc (PExc.endOfScopeE b) := hb
                injection hb2 with h2
                exact nomatch h2
              · intro hnf b hb
                exact nomatch hb
            · by_cases hbs : bs = ""
              · subst hbs
                rw [show Parser.vofcSuffix (f + 1) expFlag cond t tt nameFlag
                      s = Parser.vofcKeyword f s1 from by
                  simp [Parser.vofcSuffix, hb1, hb2, hef, hnf0, hc]]
                have hcur1 : s1.toks.t.isSome := by rw [hnoinc]; exact hsome
                have hw1s : wfS s1 := hokE.1.2.2
                have hM1s : MS s1 ≤ m := le_trans hokE.1.2.1 hM
                have hkwT := vofcKeyword_term m s1 f hw1s hM1s (by omega) hcur1
                refine ⟨okE_mono hkwT.1 hokE.1.2.1, ?_⟩
                intro hnf b hb
                rcases hkwT.2 b hb with hlt | hpair
                · exact Or.inl (lt_of_lt_of_le hlt hokE.1.2.1)
                · exact Or.inr hpair
              · rw [show Parser.vofcSuffix (f + 1) expFlag cond t tt nameFlag
                      s =
                    ({ s1 with
                        errors := s1.errors ++ [(s1.toks.line,
                          "Typo in \x27" ++ tokenTextStr s1.toks.t ++
                          "\x27 - should probably be \x27" ++ bs ++
                          "\x27.")],
                        toks := s1.toks.next },
                     Res.exc (PExc.endOfScopeE bs)) from by
                  simp [Parser.vofcSuffix, hb1, hb2, hef, hnf0, hc, hbs,
                    report]]
                refine ⟨?_, ?_⟩
                · refine okE_mono (okE_eos _ rfl ?_ bs hbs) hokE.1.2.1
                  rw [hnoinc]
                  exact hsome
                · intro hnf b hb
                  exact nomatch hb
          · rw [show Parser.vofcSuffix (f + 1) expFlag cond t tt nameFlag s =
                (s1, Res.exc ex) from by
              simp [Parser.vofcSuffix, hb1, hb2, hef, hnf0, hc]]
            refine ⟨⟨⟨by simp, hokE.1.2.1, hokE.1.2.2⟩, ?_⟩, ?_⟩
            · intro b hb
              have hb3 : Res.exc (α := Bool) ex =
                  Res.exc (PExc.endOfScopeE b) := hb
              injection hb3 with h2
              subst h2
              exact hokE.2 b rfl
            · intro hnf b hb
              exact nomatch hb
          · exact absurd rfl hes.1
        · have hnf1 : nameFlag = false := by simpa using hnf0
          rw [show Parser.vofcSuffix (f + 1) expFlag cond t tt nameFlag s =
              Parser.vofcFall f s from by
            simp [Parser.vofcSuffix, hb1, hb2, hef, hnf1]]
          refine ⟨(vofcFall_term m s f hw hM (by omega)).1, ?_⟩
          intro hnf
          exact absurd hnf hnf0
termination_by 32 * m + 8

/-- Termination of `Parser.varorfunctioncall`: on success it either
consumed or rewrote the current token into a statement keyword
(`kwBit` 0) returning `False`. -/
theorem varorfunctioncall_term (m : Nat) (expFlag : Bool)
    (cond : List (Option String)) (s : PState) (fuel : Nat)
    (hw : wfS s) (hM : MS s ≤ m) (hf : 32 * m + 9 ≤ fuel) :
    okE s (Parser.varorfunctioncall fuel expFlag cond s) ∧
    (∀ b, (Parser.varorfunctioncall fuel expFlag cond s).2 = Res.ok b →
      (MS (Parser.varorfunctioncall fuel expFlag cond s).1 < MS s ∨
       (b = false ∧
        kwBit (Parser.varorfunctioncall fuel expFlag cond s).1.toks =
          0))) := by
  cases fuel with
  | zero => exact absurd hf (by omega)
  | succ f =>
  have hMs : MT s.toks ≤ m := hM
  rcases hla : s.toks.lookahead_ttt with - | ⟨t0, tt0⟩
  · rw [show Parser.varorfunctioncall (f + 1) expFlag cond s =
        (s, Res.exc PExc.stopIteration) from by
      simp [Parser.varorfunctioncall, hla]]
    exact ⟨okE_exc_ne hw _ (by simp), fun b hb => nomatch hb⟩
  · have hsome : s.toks.t.isSome := by
      rcases hr : s.toks.rest with - | ⟨x, xs⟩
      · simp [Tokens.lookahead_ttt, hr] at hla
      · rcases ht : s.toks.t with - | v
        · have h2 := hw.2 ht
          rw [hr] at h2
          exact nomatch h2
        · simp
    by_cases hname : s.toks.tt = some TokenType.name
    · by_cases hte : (t0 = "," ∨ t0 = "=")
      · have hb1 : (t0 = "," || t0 = "=") = true := by
          rcases hte with h | h <;> simp [h]
        rw [show Parser.varorfunctioncall (f + 1) expFlag cond s =
            ({ s with toks := s.toks.next }, Res.ok true) from by
          simp [Parser.varorfunctioncall, hla, hname, hb1]]
        refine ⟨⟨⟨by simp, MT_next_le s.toks hw, wfT_next s.toks⟩,
          fun b hb => nomatch hb⟩, ?_⟩
        intro b hb
        exact Or.inl (MT_next_lt s.toks hsome)
      · have hb1 : (t0 = "," || t0 = "=") = false := by
          simp only [not_or] at hte
          simp [hte.1, hte.2]
        rw [show Parser.varorfunctioncall (f + 1) expFlag cond s =
            Parser.vofcSuffix f expFlag cond t0 tt0 true s from by
          simp [Parser.varorfunctioncall, hla, hname, hb1]]
        have hsf := vofcSuffix_term m expFlag cond t0 tt0 true s f hw hM
          (by omega) (fun _ => hname)
        exact ⟨hsf.1, hsf.2 rfl⟩
    · rcases matchT_cases s.toks "(" with ⟨hmp, htp⟩ | ⟨hmp, htp⟩
      · have hlt1 : MT s.toks.next < MT s.toks := MT_next_lt s.toks hsome
        have hm' : 1 ≤ m := by omega
        have hw1 : wfS ({ s with toks := s.toks.next } : PState) :=
          wfT_next s.toks
        have hM1 : MS ({ s with toks := s.toks.next } : PState) ≤ m - 1 := by
          show MT s.toks.next ≤ m - 1
          omega
        have hcore : okE ({ s with toks := s.toks.next } : PState)
            (Parser.pbind (Parser.exp f { s with toks := s.toks.next })
              (fun _ s =>
               Parser.pbind (if s.toks.t ≠ some ")" then
                   Parser.e ")" "expected" s
                 else (s, Res.ok ()))
                 (fun _ s =>
                   Parser.vofcSuffix f expFlag cond t0 tt0 false s))) := by
          have hexp0 := exp_term (m - 1) ({ s with toks := s.toks.next }) f
            hw1 hM1 (by omega)
          refine okE_pbind hexp0 ?_
          intro a s2 he2
          have hexp := hexp0
          rw [he2] at hexp
          by_cases hrp : s2.toks.t ≠ some ")"
          · rw [if_pos hrp]
            refine okE_pbind (okE_e hexp.1.2.2 ")" "expected") ?_
            intro a3 s3 he3
            have hok3 := okD_e hexp.1.2.2 ")" "expected"
            rw [he3] at hok3
            exact (vofcSuffix_term (m - 1) expFlag cond t0 tt0 false s3 f
              hok3.2.2 (le_trans hok3.2.1 (le_trans hexp.1.2.1 hM1))
              (by omega) (fun h => nomatch h)).1
          · rw [if_neg hrp]
            refine okE_pbind (okE_pure hexp.1.2.2 ()) ?_
            intro a3 s3 he3
            injection he3 with h1 h2
            subst h1
            exact (vofcSuffix_term (m - 1) expFlag cond t0 tt0 false s2 f
              hexp.1.2.2 (le_trans hexp.1.2.1 hM1) (by omega)
              (fun h => nomatch h)).1
        rw [show Parser.varorfunctioncall (f + 1) expFlag cond s =
            Parser.pbind (Parser.exp f { s with toks := s.toks.next })
              (fun _ s =>
               Parser.pbind (if s.toks.t ≠ some ")" then
                   Parser.e ")" "expected" s
                 else (s, Res.ok ()))
                 (fun _ s =>
                   Parser.vofcSuffix f expFlag cond t0 tt0 false s)) from by
          simp [Parser.varorfunctioncall, hla, hname, hmp]]
        refine ⟨okE_mono hcore (le_of_lt hlt1), ?_⟩
        intro b hb
        exact Or.inl ((okE_mono_lt hcore hlt1).2 b hb)
      · rw [show Parser.varorfunctioncall (f + 1) expFlag cond s =
            Parser.pbind (Parser.e "" "Name or \x27(\x27 expected" s)
              (fun _ s => ({ s with toks := s.toks.next }, Res.ok false))
            from by
          simp [Parser.varorfunctioncall, hla, hname, hmp]]
        have hto : (Parser.pbind (Parser.e "" "Name or \x27(\x27 expected" s)
            (fun _ s =>
              ({ s with toks := s.toks.next }, Res.ok false))).1.toks =
            s.toks.next := by
          rw [e_empty_eq]
          simp [Parser.pbind, report]
        constructor
        · refine okE_pbind (okE_e hw "" _) ?_
          intro a s2 he2
          have hok2 := okD_e hw "" "Name or \x27(\x27 expected"
          rw [he2] at hok2
          exact ⟨⟨by simp, MT_next_le s2.toks hok2.2.2, wfT_next _⟩,
            fun b hb => nomatch hb⟩
        · intro b hb
          refine Or.inl ?_
          simp only [MS]
          rw [hto]
          exact MT_next_lt s.toks hsome
termination_by 32 * m + 9

/-- Termination of `Parser.value`. -/
theorem value_term (m : Nat) (s : PState) (fuel : Nat)
    (hw : wfS s) (hM : MS s ≤ m) (hf : 32 * m + 10 ≤ fuel) :
    okE s (Parser.value fuel s) := by
  cases fuel with
  | zero => exact absurd hf (by omega)
  | succ f =>
  have hMs : MT s.toks ≤ m := hM
  rcases matchSet_cases s.toks ["nil", "false", "true", "..."]
    with ⟨hm1, hsome1⟩ | hm1
  · simp [Parser.value, hm1]
    exact okE_toks_next _ hw rfl hsome1 ()
  · rcases matchType_cases s.toks TokenType.num with ⟨hm2, htt2⟩ | hm2
    · have hsome2 := isSome_of_tt hw htt2
      simp [Parser.value, hm1, hm2]
      exact okE_toks_next _ hw rfl hsome2 ()
    · rcases matchType_cases s.toks TokenType.str with ⟨hm3, htt3⟩ | hm3
      · have hsome3 := isSome_of_tt hw htt3
        simp [Parser.value, hm1, hm2, hm3]
        exact okE_toks_next _ hw rfl hsome3 ()
      · rcases matchT_cases s.toks "function" with ⟨hm4, ht4⟩ | ⟨hm4, ht4⟩
        · have hsome4 : s.toks.t.isSome := by simp [ht4]
          have hlt : MT s.toks.next < MT s.toks := MT_next_lt s.toks hsome4
          have hm' : 1 ≤ m := by omega
          simp [Parser.value, hm1, hm2, hm3, hm4]
          exact okE_mono (funcbody_term (m - 1)
            ({ s with toks := s.toks.next }) f (wfT_next s.toks)
            (by show MT s.toks.next ≤ m - 1; omega) (by omega))
            (le_of_lt hlt)
        · by_cases hbr : s.toks.t = some "\x7b"
          · simp [Parser.value, hm1, hm2, hm3, hm4, hbr]
            exact (tableconstructor_term m s f hw hM (by omega) hbr).1
          · simp [Parser.value, hm1, hm2, hm3, hm4, hbr]
            have hv0 := varorfunctioncall_term m true [] s f hw hM (by omega)
            refine okE_pbind hv0.1 ?_
            intro b s2 he2
            have hv := hv0.1
            rw [he2] at hv
            exact okE_pure hv.1.2.2 ()
termination_by 32 * m + 10

/-- Termination of `Parser.var`. -/
theorem var_term (m : Nat) (s : PState) (fuel : Nat)
    (hw : wfS s) (hM : MS s ≤ m) (hf : 32 * m + 11 ≤ fuel) :
    okE s (Parser.var fuel s) := by
  cases fuel with
  | zero => exact absurd hf (by omega)
  | succ f =>
  have hv0 := varorfunctioncall_term m false [] s f hw hM (by omega)
  rcases hvv : Parser.varorfunctioncall f false [] s with ⟨s1, r1⟩
  rw [hvv] at hv0
  rcases r1 with b | ex | -
  · cases b
    · simp [Parser.var, hvv]
      exact okE_mono (okE_e hv0.1.1.2.2 "" "Variable expected") hv0.1.1.2.1
    · simp [Parser.var, hvv]
      exact ⟨⟨by simp, hv0.1.1.2.1, hv0.1.1.2.2⟩, fun b hb => nomatch hb⟩
  · simp [Parser.var, hvv]
    refine ⟨⟨by simp, hv0.1.1.2.1, hv0.1.1.2.2⟩, ?_⟩
    intro b hb
    have hb2 : Res.exc (α := Unit) ex = Res.exc (PExc.endOfScopeE b) := hb
    injection hb2 with h2
    subst h2
    exact hv0.1.2 b rfl
  · exact absurd rfl hv0.1.1.1
termination_by 32 * m + 11

/-- Termination of `Parser.exp`. -/
theorem exp_term (m : Nat) (s : PState) (fuel : Nat)
    (hw : wfS s) (hM : MS s ≤ m) (hf : 32 * m + 12 ≤ fuel) :
    okE s (Parser.exp fuel s) := by
  cases fuel with
  | zero => exact absurd hf (by omega)
  | succ f =>
  have hMs : MT s.toks ≤ m := hM
  rcases matchSet_cases s.toks ["-", "not", "#"] with ⟨hm1, hsome⟩ | hm1
  · have hlt1 : MT s.toks.next < MT s.toks := MT_next_lt s.toks hsome
    have hm' : 1 ≤ m := by omega
    simp [Parser.exp, hm1]
    exact okE_mono (exp_term (m - 1) ({ s with toks := s.toks.next }) f
      (wfT_next s.toks) (by show MT s.toks.next ≤ m - 1; omega) (by omega))
      (le_of_lt hlt1)
  · simp [Parser.exp, hm1]
    have hval0 := value_term m s f hw hM (by omega)
    refine okE_pbind hval0 ?_
    intro a s2 he2
    have hval := hval0
    rw [he2] at hval
    rcases matchSet_cases s2.toks ["+", "-", "*", "/", "^", "%", "..",
        "<", "<=", ">", ">=", "==", "~=", "and", "or"]
      with ⟨hm2, hsome2⟩ | hm2
    · have hMs2 : MT s2.toks ≤ m := le_trans hval.1.2.1 hM
      have hlt2 : MT s2.toks.next < MT s2.toks := MT_next_lt s2.toks hsome2
      have hm' : 1 ≤ m := by omega
      simp [hm2]
      exact okE_mono (exp_term (m - 1) ({ s2 with toks := s2.toks.next }) f
        (wfT_next s2.toks) (by show MT s2.toks.next ≤ m - 1; omega)
        (by omega)) (le_of_lt hlt2)
    · simp [hm2]
      exact okE_pure hval.1.2.2 ()
termination_by 32 * m + 12

/-- Termination of `Parser.field`. -/
theorem field_term (m : Nat) (s : PState) (fuel : Nat)
    (hw : wfS s) (hM : MS s ≤ m) (hf : 32 * m + 13 ≤ fuel) :
    okE s (Parser.field fuel s) := by
  cases fuel with
  | zero => exact absurd hf (by omega)
  | succ f =>
  have hMs : MT s.toks ≤ m := hM
  rcases matchT_cases s.toks "[" with ⟨hm1, ht1⟩ | ⟨hm1, ht1⟩
  · have hsome : s.toks.t.isSome := by simp [ht1]
    have hlt : MT s.toks.next < MT s.toks := MT_next_lt s.toks hsome
    have hm' : 1 ≤ m := by omega
    simp [Parser.field, hm1]
    have hexp0 := exp_term (m - 1) ({ s with toks := s.toks.next }) f
      (wfT_next s.toks) (by show MT s.toks.next ≤ m - 1; omega) (by omega)
    refine okE_mono (okE_pbind hexp0 ?_) (le_of_lt hlt)
    intro a s2 he2
    have hexp := hexp0
    rw [he2] at hexp
    rcases matchT_cases s2.toks "]" with ⟨hm3, ht3⟩ | ⟨hm3, ht3⟩
    · simp [hm3]
      exact okE_toks_next _ hexp.1.2.2 rfl (by simp [ht3]) ()
    · simp [hm3]
      exact okE_e hexp.1.2.2 "]" "expected"
  · by_cases hname : s.toks.tt = some TokenType.name
    · rcases hla : s.toks.lookahead_ttt with _ | ⟨la, latt⟩
      · simp [Parser.field, hm1, hname, hla]
        exact okE_exc_ne hw PExc.stopIteration (by simp)
      · by_cases heq : la = "="
        · have hsome : s.toks.t.isSome := isSome_of_tt hw hname
          have hle2 : MT s.toks.next.next ≤ MT s.toks.next :=
            MT_next_le _ (wfT_next _)
          have hlt1 : MT s.toks.next < MT s.toks := MT_next_lt s.toks hsome
          have hm' : 1 ≤ m := by omega
          simp [Parser.field, hm1, hname, hla, heq]
          exact okE_mono (exp_term (m - 1)
            ({ s with toks := s.toks.next.next }) f (wfT_next _)
            (by show MT s.toks.next.next ≤ m - 1; omega) (by omega))
            (by show MT s.toks.next.next ≤ MT s.toks; omega)
        · simp [Parser.field, hm1, hname, hla, heq]
          exact exp_term m s f hw hM (by omega)
    · simp [Parser.field, hm1, hname]
      exact exp_term m s f hw hM (by omega)
termination_by 32 * m + 13

/-- Termination of `Parser.explist`. -/
theorem explist_term (m : Nat) (s : PState) (fuel : Nat)
    (hw : wfS s) (hM : MS s ≤ m) (hf : 32 * m + 14 ≤ fuel) :
    okE s (Parser.explist fuel s) := by
  cases fuel with
  | zero => exact absurd hf (by omega)
  | succ f =>
  have hMs : MT s.toks ≤ m := hM
  simp only [Parser.explist]
  have hexp0 := exp_term m s f hw hM (by omega)
  refine okE_pbind hexp0 ?_
  intro a s2 he2
  have hexp := hexp0
  rw [he2] at hexp
  rcases matchT_cases s2.toks "," with ⟨hm1, ht1⟩ | ⟨hm1, ht1⟩
  · have hsome2 : s2.toks.t.isSome := by simp [ht1]
    have hMs2 : MT s2.toks ≤ m := le_trans hexp.1.2.1 hM
    have hlt2 : MT s2.toks.next < MT s2.toks := MT_next_lt s2.toks hsome2
    have hm' : 1 ≤ m := by omega
    simp [hm1]
    exact okE_mono (exp_term (m - 1) ({ s2 with toks := s2.toks.next }) f
      (wfT_next s2.toks) (by show MT s2.toks.next ≤ m - 1; omega) (by omega))
      (le_of_lt hlt2)
  · simp [hm1]
    exact okE_pure hexp.1.2.2 ()
termination_by 32 * m + 14

/-- Termination of the separator loop of `Parser.tableconstructor`. -/
theorem tcLoop_term (m : Nat) (s : PState) (fuel : Nat)
    (hw : wfS s) (hM : MS s ≤ m) (hf : 32 * m + 15 ≤ fuel) :
    okE s (Parser.tcLoop fuel s) := by
  cases fuel with
  | zero => exact absurd hf (by omega)
  | succ f =>
  rcases matchSet_cases s.toks [",", ";"] with ⟨hm1, hsome⟩ | hm1
  · have hw1 : wfS ({ s with toks := s.toks.next } : PState) := wfT_next s.toks
    have hMs : MT s.toks ≤ m := hM
    have hlt1 : MT s.toks.next < MT s.toks := MT_next_lt s.toks hsome
    have hm' : 1 ≤ m := by omega
    have hM1 : MS ({ s with toks := s.toks.next } : PState) ≤ m - 1 := by
      show MT s.toks.next ≤ m - 1
      omega
    by_cases ht2 : s.toks.next.t = some "\x7d"
    · simp [Parser.tcLoop, hm1, ht2]
      exact okE_toks_next _ hw rfl hsome ()
    · simp [Parser.tcLoop, hm1, ht2]
      have hfld := field_term (m - 1) ({ s with toks := s.toks.next }) f hw1
        hM1 (by omega)
      refine okE_mono (okE_pbind hfld ?_) (le_of_lt hlt1)
      intro a s2 he2
      rw [he2] at hfld
      exact tcLoop_term (m - 1) s2 f hfld.1.2.2 (le_trans hfld.1.2.1 hM1)
        (by omega)
  · simp [Parser.tcLoop, hm1]
    exact okE_pure hw ()
termination_by 32 * m + 15

/-- Termination of the varlist loop of `Parser.stat`. -/
theorem statVarlist_term (m : Nat) (s : PState) (fuel : Nat)
    (hw : wfS s) (hM : MS s ≤ m) (hf : 32 * m + 16 ≤ fuel) :
    okE s (Parser.statVarlist fuel s) := by
  cases fuel with
  | zero => exact absurd hf (by omega)
  | succ f =>
  rcases matchT_cases s.toks "," with ⟨hm1, ht1⟩ | ⟨hm1, ht1⟩
  · have hsome : s.toks.t.isSome := by simp [ht1]
    have hMs : MT s.toks ≤ m := hM
    have hlt : MT s.toks.next < MT s.toks := MT_next_lt s.toks hsome
    have hm' : 1 ≤ m := by omega
    simp [Parser.statVarlist, hm1]
    have hvar0 := var_term (m - 1) ({ s with toks := s.toks.next }) f
      (wfT_next s.toks) (by show MT s.toks.next ≤ m - 1; omega) (by omega)
    refine okE_mono (okE_pbind hvar0 ?_) (le_of_lt hlt)
    intro a s2 he2
    have hvar := hvar0
    rw [he2] at hvar
    exact statVarlist_term (m - 1) s2 f hvar.1.2.2
      (le_trans hvar.1.2.1 (by show MT s.toks.next ≤ m - 1; omega)) (by omega)
  · simp [Parser.statVarlist, hm1]
    exact okE_pure hw ()
termination_by 32 * m + 16

/-- Termination of `Parser.stat`: a completed statement always
consumes. -/
theorem stat_term (m : Nat) (cond : List (Option String)) (s : PState)
    (fuel : Nat) (hw : wfS s) (hM : MS s ≤ m) (hf : 32 * m + 20 ≤ fuel) :
    okElt s (Parser.stat fuel cond s) := by
  cases fuel with
  | zero => exact absurd hf (by omega)
  | succ f =>
  have hMs : MT s.toks ≤ m := hM
  rcases matchT_cases s.toks "do" with ⟨hm1, ht1⟩ | ⟨hm1, ht1⟩
  · have hsome : s.toks.t.isSome := by simp [ht1]
    have hlt1 : MT s.toks.next < MT s.toks := MT_next_lt s.toks hsome
    have hlt1s : MS ({ s with toks := s.toks.next } : PState) < MS s := hlt1
    have hm' : 1 ≤ m := by omega
    have hM1 : MS ({ s with toks := s.toks.next } : PState) ≤ m - 1 := by
      show MT s.toks.next ≤ m - 1
      omega
    simp [Parser.stat, hm1]
    have hch := chunk_term (m - 1) [some "end"]
      ({ s with toks := s.toks.next }) f (wfT_next s.toks) hM1 (by omega)
    refine okE_mono_lt (okE_pbind hch.1 ?_) hlt1s
    intro a s2 he2
    have hch2 := hch.1
    rw [he2] at hch2
    exact okE_pure hch2.1.2.2 ()
  rcases matchT_cases s.toks "while" with ⟨hm2, ht2⟩ | ⟨hm2, ht2⟩
  · have hsome : s.toks.t.isSome := by simp [ht2]
    have hlt1 : MT s.toks.next < MT s.toks := MT_next_lt s.toks hsome
    have hlt1s : MS ({ s with toks := s.toks.next } : PState) < MS s := hlt1
    have hm' : 1 ≤ m := by omega
    have hM1 : MS ({ s with toks := s.toks.next } : PState) ≤ m - 1 := by
      show MT s.toks.next ≤ m - 1
      omega
    simp [Parser.stat, hm1, hm2]
    have hexp := exp_term (m - 1) ({ s with toks := s.toks.next }) f
      (wfT_next s.toks) hM1 (by omega)
    refine okE_mono_lt (okE_pbind hexp ?_) hlt1s
    intro a s2 he2
    have hexp2 := hexp
    rw [he2] at hexp2
    have hM2 : MT s2.toks ≤ m - 1 := le_trans hexp2.1.2.1 hM1
    rcases matchT_cases s2.toks "do" with ⟨hmd, htd⟩ | ⟨hmd, htd⟩
    · simp [hmd]
      refine okE_pbind (okE_toks_next _ hexp2.1.2.2 rfl (by simp [htd]) ()) ?_
      intro a3 s3 he3
      injection he3 with h1 h2
      have hw3 : wfS s3 := by
        rw [← h1]
        exact wfT_next _
      have hM3 : MS s3 ≤ m - 1 := by
        rw [← h1]
        show MT s2.toks.next ≤ m - 1
        have h6 := MT_next_le s2.toks hexp2.1.2.2
        omega
      have hch := chunk_term (m - 1) [some "end"] s3 f hw3 hM3 (by omega)
      refine okE_pbind hch.1 ?_
      intro a4 s4 he4
      have hch2 := hch.1
      rw [he4] at hch2
      exact okE_pure hch2.1.2.2 ()
    · simp [hmd]
      refine okE_pbind (okE_e hexp2.1.2.2 "do"
        "not found after \x27while\x27") ?_
      intro a3 s3 he3
      have hok3 := okD_e hexp2.1.2.2 "do" "not found after \x27while\x27"
      rw [he3] at hok3
      have hch := chunk_term (m - 1) [some "end"] s3 f hok3.2.2
        (le_trans hok3.2.1 hM2) (by omega)
      refine okE_pbind hch.1 ?_
      intro a4 s4 he4
      have hch2 := hch.1
      rw [he4] at hch2
      exact okE_pure hch2.1.2.2 ()
  rcases matchT_cases s.toks "repeat" with ⟨hm3, ht3⟩ | ⟨hm3, ht3⟩
  · have hsome : s.toks.t.isSome := by simp [ht3]
    have hlt1 : MT s.toks.next < MT s.toks := MT_next_lt s.toks hsome
    have hlt1s : MS ({ s with toks := s.toks.next } : PState) < MS s := hlt1
    have hm' : 1 ≤ m := by omega
    have hM1 : MS ({ s with toks := s.toks.next } : PState) ≤ m - 1 := by
      show MT s.toks.next ≤ m - 1
      omega
    simp [Parser.stat, hm1, hm2, hm3]
    have hch := chunk_term (m - 1) [some "until"]
      ({ s with toks := s.toks.next }) f (wfT_next s.toks) hM1 (by omega)
    refine okE_mono_lt (okE_pbind hch.1 ?_) hlt1s
    intro a s2 he2
    have hch2 := hch.1
    rw [he2] at hch2
    exact exp_term (m - 1) s2 f hch2.1.2.2 (le_trans hch2.1.2.1 hM1)
      (by omega)
  rcases matchT_cases s.toks "if" with ⟨hm4, ht4⟩ | ⟨hm4, ht4⟩
  · have hsome : s.toks.t.isSome := by simp [ht4]
    have hlt1 : MT s.toks.next < MT s.toks := MT_next_lt s.toks hsome
    have hlt1s : MS ({ s with toks := s.toks.next } : PState) < MS s := hlt1
    have hm' : 1 ≤ m := by omega
    have hM1 : MS ({ s with toks := s.toks.next } : PState) ≤ m - 1 := by
      show MT s.toks.next ≤ m - 1
      omega
    simp [Parser.stat, hm1, hm2, hm3, hm4]
    have hthen : ∀ s3 : PState, wfS s3 → MS s3 ≤ m - 1 →
        okE s3 (Parser.pbind
          (Parser.chunk f [some "elseif", some "else", some "end"] s3)
          (fun temp s => Parser.statElseif f temp s)) := by
      intro s3 hw3 hM3
      have hch := chunk_term (m - 1) [some "elseif", some "else", some "end"]
        s3 f hw3 hM3 (by omega)
      refine okE_pbind hch.1 ?_
      intro temp2 s4 he4
      have hch2 := hch.1
      rw [he4] at hch2
      exact statElseif_term (m - 1) temp2 s4 f hch2.1.2.2
        (le_trans hch2.1.2.1 hM3) (by omega)
    have hexp := exp_term (m - 1) ({ s with toks := s.toks.next }) f
      (wfT_next s.toks) hM1 (by omega)
    refine okE_mono_lt (okE_pbind hexp ?_) hlt1s
    intro a s2 he2
    have hexp2 := hexp
    rw [he2] at hexp2
    have hM2 : MT s2.toks ≤ m - 1 := le_trans hexp2.1.2.1 hM1
    rcases matchT_cases s2.toks "then" with ⟨hmt, htt⟩ | ⟨hmt, htt⟩
    · simp [hmt]
      refine okE_pbind (okE_toks_next _ hexp2.1.2.2 rfl (by simp [htt]) ()) ?_
      intro a3 s3 he3
      injection he3 with h1 h2
      have hw3 : wfS s3 := by
        rw [← h1]
        exact wfT_next _
      have hM3 : MS s3 ≤ m - 1 := by
        rw [← h1]
        show MT s2.toks.next ≤ m - 1
        have h6 := MT_next_le s2.toks hexp2.1.2.2
        omega
      exact hthen s3 hw3 hM3
    · simp [hmt]
      refine okE_pbind (okE_e hexp2.1.2.2 "then"
        "not found after \x27if\x27") ?_
      intro a3 s3 he3
      have hok3 := okD_e hexp2.1.2.2 "then" "not found after \x27if\x27"
      rw [he3] at hok3
      exact hthen s3 hok3.2.2 (le_trans hok3.2.1 hM2)
  rcases matchT_cases s.toks "function" with ⟨hm5, ht5⟩ | ⟨hm5, ht5⟩
  · have hsome : s.toks.t.isSome := by simp [ht5]
    have hlt1 : MT s.toks.next < MT s.toks := MT_next_lt s.toks hsome
    have hlt1s : MS ({ s with toks := s.toks.next } : PState) < MS s := hlt1
    have hm' : 1 ≤ m := by omega
    have hM1 : MS ({ s with toks := s.toks.next } : PState) ≤ m - 1 := by
      show MT s.toks.next ≤ m - 1
      omega
    simp [Parser.stat, hm1, hm2, hm3, hm4, hm5]
    have hfn := funcname_term f ({ s with toks := s.toks.next })
      (wfT_next s.toks) (by
        show muT s.toks.next < f
        have h8 : muT s.toks.next < muT s.toks := muT_next_lt s.toks hsome
        have h9 : 2 * muT s.toks + kwBit s.toks ≤ m := hM
        omega)
    refine okE_mono_lt (okE_pbind hfn ?_) hlt1s
    intro a s2 he2
    have hfn2 := hfn
    rw [he2] at hfn2
    exact funcbody_term (m - 1) s2 f hfn2.1.2.2 (le_trans hfn2.1.2.1 hM1)
      (by omega)
  rcases matchT_cases s.toks "local" with ⟨hm6, ht6⟩ | ⟨hm6, ht6⟩
  · have hsome : s.toks.t.isSome := by simp [ht6]
    have hlt1 : MT s.toks.next < MT s.toks := MT_next_lt s.toks hsome
    have hlt1s : MS ({ s with toks := s.toks.next } : PState) < MS s := hlt1
    have hm' : 1 ≤ m := by omega
    have hM1 : MS ({ s with toks := s.toks.next } : PState) ≤ m - 1 := by
      show MT s.toks.next ≤ m - 1
      omega
    rcases matchT_cases s.toks.next "function" with ⟨hmlf, htlf⟩ |
      ⟨hmlf, htlf⟩
    · have hlt2s : MS ({ s with toks := s.toks.next.next } : PState) <
          MS s := by
        show MT s.toks.next.next < MT s.toks
        have h8 := MT_next_le s.toks.next (wfT_next s.toks)
        omega
      simp [Parser.stat, hm1, hm2, hm3, hm4, hm5, hm6, hmlf]
      refine okE_mono_lt (okE_pbind (okE_name
        (show wfS ({ s with toks := s.toks.next.next } : PState) from
          wfT_next _)) ?_) hlt2s
      intro n s2 he2
      have hok := okD_name
        (show wfS ({ s with toks := s.toks.next.next } : PState) from
          wfT_next _)
      rw [he2] at hok
      have hM2 : MT s2.toks ≤ m - 1 := by
        have h8 : MT s2.toks ≤ MT s.toks.next.next := hok.2.1
        have h9 := MT_next_le s.toks.next (wfT_next s.toks)
        omega
      exact funcbody_term (m - 1) ({ s2 with lastfunction := n }) f hok.2.2
        hM2 (by omega)
    · simp [Parser.stat, hm1, hm2, hm3, hm4, hm5, hm6, hmlf]
      have hk : ∀ s7 : PState, wfS s7 → MS s7 ≤ m - 1 →
          okE s7
            (let (me, tke) := s7.toks.matchT "="
             if me then Parser.explist f { s7 with toks := tke }
             else (s7, Res.ok ())) := by
        intro s7 hw7 hM7
        have hM7m : MT s7.toks ≤ m - 1 := hM7
        rcases matchT_cases s7.toks "=" with ⟨hme, hte⟩ | ⟨hme, hte⟩
        · simp [hme]
          have hle7 : MS ({ s7 with toks := s7.toks.next } : PState) ≤
              MS s7 := MT_next_le s7.toks hw7
          exact okE_mono (explist_term (m - 1)
            ({ s7 with toks := s7.toks.next }) f (wfT_next _) (by
              show MT s7.toks.next ≤ m - 1
              have h9 := MT_next_le s7.toks hw7
              omega) (by omega)) hle7
        · simp [hme]
          exact okE_pure hw7 ()
      have hNL := namelist_term f ({ s with toks := s.toks.next })
        (wfT_next s.toks) (by
          show muT s.toks.next + 1 < f
          have h8 : MT s.toks.next < MT s.toks := hlt1
          have h9 := kwBit_le_one s.toks.next
          have h10 : 2 * muT s.toks.next + kwBit s.toks.next =
              MT s.toks.next := rfl
          omega)
      rcases hnl : Parser.namelist f ({ s with toks := s.toks.next })
        with ⟨s6, r6⟩
      rw [hnl] at hNL
      rcases r6 with ps | ex6 | -
      · simp [hnl]
        refine okE_mono_lt (okE_pbind ?_ ?_) hlt1s
        · exact ⟨⟨by simp, hNL.1.2.1, hNL.1.2.2⟩, fun b hb => nomatch hb⟩
        · intro a s7 he7
          injection he7 with h1 h2
          have hw7 : wfS s7 := by
            rw [← h1]
            exact hNL.1.2.2
          have hM7 : MS s7 ≤ m - 1 := by
            rw [← h1]
            show MT s6.toks ≤ m - 1
            have h8 : MT s6.toks ≤ MT s.toks.next := hNL.1.2.1
            omega
          exact hk s7 hw7 hM7
      · rcases ex6 with ⟨msg6, ln6, ps6⟩ | b6 | - | - | -
        · simp [hnl]
          refine okE_mono_lt (okE_pbind ?_ ?_) hlt1s
          · exact okE_mono (okE_e hNL.1.2.2 "" msg6) hNL.1.2.1
          · intro a s7 he7
            have hok7 := okD_e hNL.1.2.2 "" msg6
            rw [he7] at hok7
            refine hk s7 hok7.2.2 ?_
            show MT s7.toks ≤ m - 1
            have h8 : MT s7.toks ≤ MT s6.toks := hok7.2.1
            have h9 : MT s6.toks ≤ MT s.toks.next := hNL.1.2.1
            omega
        · simp [hnl]
          refine okE_mono_lt (okE_pbind (⟨⟨by simp, hNL.1.2.1, hNL.1.2.2⟩,
            ?_⟩ : okE _ ((s6, Res.exc (PExc.endOfScopeE b6)) :
              PState × Res Unit)) ?_) hlt1s
          · intro b hb
            have hb2 : Res.exc (α := Unit) (PExc.endOfScopeE b6) =
                Res.exc (PExc.endOfScopeE b) := hb
            injection hb2 with h3
            injection h3 with h4
            subst h4
            exact hNL.2 b6 rfl
          · intro a s7 he7
            injection he7 with h1 h2
            exact nomatch h2
        · simp [hnl]
          refine okE_mono_lt (okE_pbind (⟨⟨by simp, hNL.1.2.1, hNL.1.2.2⟩,
            ?_⟩ : okE _ ((s6, Res.exc PExc.stopIteration) :
              PState × Res Unit)) ?_) hlt1s
          · intro b hb
            have hb2 : Res.exc (α := Unit) PExc.stopIteration =
                Res.exc (PExc.endOfScopeE b) := hb
            injection hb2 with h3
            exact nomatch h3
          · intro a s7 he7
            injection he7 with h1 h2
            exact nomatch h2
        · simp [hnl]
          refine okE_mono_lt (okE_pbind (⟨⟨by simp, hNL.1.2.1, hNL.1.2.2⟩,
            ?_⟩ : okE _ ((s6, Res.exc PExc.typeError) :
              PState × Res Unit)) ?_) hlt1s
          · intro b hb
            have hb2 : Res.exc (α := Unit) PExc.typeError =
                Res.exc (PExc.endOfScopeE b) := hb
            injection hb2 with h3
            exact nomatch h3
          · intro a s7 he7
            injection he7 with h1 h2
            exact nomatch h2
        · simp [hnl]
          refine okE_mono_lt (okE_pbind (⟨⟨by simp, hNL.1.2.1, hNL.1.2.2⟩,
            ?_⟩ : okE _ ((s6, Res.exc PExc.unboundLocal) :
              PState × Res Unit)) ?_) hlt1s
          · intro b hb
            have hb2 : Res.exc (α := Unit) PExc.unboundLocal =
                Res.exc (PExc.endOfScopeE b) := hb
            injection hb2 with h3
            exact nomatch h3
          · intro a s7 he7
            injection he7 with h1 h2
            exact nomatch h2
      · exact absurd rfl hNL.1.1
  rcases matchT_cases s.toks "for" with ⟨hm7, ht7⟩ | ⟨hm7, ht7⟩
  · have hsome : s.toks.t.isSome := by simp [ht7]
    have hlt1 : MT s.toks.next < MT s.toks := MT_next_lt s.toks hsome
    have hlt1s : MS ({ s with toks := s.toks.next } : PState) < MS s := hlt1
    have hm' : 1 ≤ m := by omega
    have hM1 : MS ({ s with toks := s.toks.next } : PState) ≤ m - 1 := by
      show MT s.toks.next ≤ m - 1
      omega
    simp [Parser.stat, hm1, hm2, hm3, hm4, hm5, hm6, hm7]
    have hdo : ∀ s9 : PState, wfS s9 → MS s9 ≤ m - 1 →
        okE s9
          ((fun (x : Unit) (s : PState) =>
            let (md, tkd) := s.toks.matchT "do"
            let sE := { s with toks := tkd }
            Parser.pbind (if md then (sE, Res.ok ())
                else Parser.e "do" "expected in \x27for\x27 loop" sE)
              (fun _ s =>
                Parser.pbind (Parser.chunk f [some "end"] s)
                  (fun _ s => (s, Res.ok ())))) () s9) := by
      intro s9 hw9 hM9
      have hM9m : MT s9.toks ≤ m - 1 := hM9
      rcases matchT_cases s9.toks "do" with ⟨hmd, htd⟩ | ⟨hmd, htd⟩
      · simp [hmd]
        refine okE_pbind (okE_toks_next _ hw9 rfl (by simp [htd]) ()) ?_
        intro a s10 he10
        injection he10 with h1 h2
        have hw10 : wfS s10 := by
          rw [← h1]
          exact wfT_next _
        have hM10 : MS s10 ≤ m - 1 := by
          rw [← h1]
          show MT s9.toks.next ≤ m - 1
          have h8 := MT_next_le s9.toks hw9
          omega
        have hch := chunk_term (m - 1) [some "end"] s10 f hw10 hM10 (by omega)
        refine okE_pbind hch.1 ?_
        intro a4 s11 he11
        have hch2 := hch.1
        rw [he11] at hch2
        exact okE_pure hch2.1.2.2 ()
      · simp [hmd]
        refine okE_pbind (okE_e hw9 "do" "expected in \x27for\x27 loop") ?_
        intro a s10 he10
        have hok10 := okD_e hw9 "do" "expected in \x27for\x27 loop"
        rw [he10] at hok10
        have hch := chunk_term (m - 1) [some "end"] s10 f hok10.2.2
          (le_trans hok10.2.1 hM9) (by omega)
        refine okE_pbind hch.1 ?_
        intro a4 s11 he11
        have hch2 := hch.1
        rw [he11] at hch2
        exact okE_pure hch2.1.2.2 ()
    refine okE_mono_lt (okE_pbind (okE_name
      (show wfS ({ s with toks := s.toks.next } : PState) from
        wfT_next _)) ?_) hlt1s
    intro n s2 he2
    have hok2 := okD_name
      (show wfS ({ s with toks := s.toks.next } : PState) from wfT_next _)
    rw [he2] at hok2
    have hM2 : MT s2.toks ≤ m - 1 := le_trans hok2.2.1 hM1
    rcases matchT_cases s2.toks "=" with ⟨hmeq, hteq⟩ | ⟨hmeq, hteq⟩
    · simp [hmeq]
      rw [pbind_assoc]
      have hleA : MS ({ s2 with toks := s2.toks.next } : PState) ≤ MS s2 :=
        MT_next_le s2.toks hok2.2.2
      have hexp := exp_term (m - 1) ({ s2 with toks := s2.toks.next }) f
        (wfT_next _) (by
          show MT s2.toks.next ≤ m - 1
          have h8 := MT_next_le s2.toks hok2.2.2
          omega) (by omega)
      refine okE_pbind (okE_mono hexp hleA) ?_
      intro a3 s3 he3
      have hexp2 := hexp
      rw [he3] at hexp2
      have hM3 : MT s3.toks ≤ m - 1 := by
        have h8 : MT s3.toks ≤ MT s2.toks.next := hexp2.1.2.1
        have h9 := MT_next_le s2.toks hok2.2.2
        omega
      rcases matchT_cases s3.toks "," with ⟨hmc, htc⟩ | ⟨hmc, htc⟩
      · simp [hmc]
        rw [pbind_assoc]
        refine okE_pbind (okE_toks_next _ hexp2.1.2.2 rfl
          (by simp [htc]) ()) ?_
        intro a4 s4 he4
        injection he4 with h1 h2
        have hw4 : wfS s4 := by
          rw [← h1]
          exact wfT_next _
        have hM4 : MT s4.toks ≤ m - 1 := by
          rw [← h1]
          show MT s3.toks.next ≤ m - 1
          have h8 := MT_next_le s3.toks hexp2.1.2.2
          omega
        have hexp3 := exp_term (m - 1) s4 f hw4 hM4 (by omega)
        rw [pbind_assoc]
        refine okE_pbind hexp3 ?_
        intro a5 s5 he5
        have hexp4 := hexp3
        rw [he5] at hexp4
        have hM5 : MT s5.toks ≤ m - 1 := le_trans hexp4.1.2.1 hM4
        rcases matchT_cases s5.toks "," with ⟨hmc2, htc2⟩ | ⟨hmc2, htc2⟩
        · simp [hmc2]
          have hle5 : MS ({ s5 with toks := s5.toks.next } : PState) ≤
              MS s5 := MT_next_le s5.toks hexp4.1.2.2
          have hexp5 := exp_term (m - 1) ({ s5 with toks := s5.toks.next })
            f (wfT_next _) (by
              show MT s5.toks.next ≤ m - 1
              have h9 := MT_next_le s5.toks hexp4.1.2.2
              omega) (by omega)
          refine okE_pbind (okE_mono hexp5 hle5) ?_
          intro a6 s6 he6
          have hexp6 := hexp5
          rw [he6] at hexp6
          refine hdo s6 hexp6.1.2.2 ?_
          show MT s6.toks ≤ m - 1
          have h9 : MT s6.toks ≤ MT s5.toks.next := hexp6.1.2.1
          have h10 := MT_next_le s5.toks hexp4.1.2.2
          omega
        · simp [hmc2]
          refine okE_pbind (okE_pure hexp4.1.2.2 ()) ?_
          intro a6 s6 he6
          injection he6 with h1 h2
          have hw6 : wfS s6 := by
            rw [← h1]
            exact hexp4.1.2.2
          have hM6 : MS s6 ≤ m - 1 := by
            rw [← h1]
            exact hM5
          exact hdo s6 hw6 hM6
      · simp [hmc]
        rw [pbind_assoc]
        refine okE_pbind (okE_e hexp2.1.2.2 ","
          "expected in \x27for\x27 loop") ?_
        intro a4 s4 he4
        have hok4 := okD_e hexp2.1.2.2 "," "expected in \x27for\x27 loop"
        rw [he4] at hok4
        have hw4 := hok4.2.2
        have hM4 : MT s4.toks ≤ m - 1 := le_trans hok4.2.1 hM3
        have hexp3 := exp_term (m - 1) s4 f hw4 hM4 (by omega)
        rw [pbind_assoc]
        refine okE_pbind hexp3 ?_
        intro a5 s5 he5
        have hexp4 := hexp3
        rw [he5] at hexp4
        have hM5 : MT s5.toks ≤ m - 1 := le_trans hexp4.1.2.1 hM4
        rcases matchT_cases s5.toks "," with ⟨hmc2, htc2⟩ | ⟨hmc2, htc2⟩
        · simp [hmc2]
          have hle5 : MS ({ s5 with toks := s5.toks.next } : PState) ≤
              MS s5 := MT_next_le s5.toks hexp4.1.2.2
          have hexp5 := exp_term (m - 1) ({ s5 with toks := s5.toks.next })
            f (wfT_next _) (by
              show MT s5.toks.next ≤ m - 1
              have h9 := MT_next_le s5.toks hexp4.1.2.2
              omega) (by omega)
          refine okE_pbind (okE_mono hexp5 hle5) ?_
          intro a6 s6 he6
          have hexp6 := hexp5
          rw [he6] at hexp6
          refine hdo s6 hexp6.1.2.2 ?_
          show MT s6.toks ≤ m - 1
          have h9 : MT s6.toks ≤ MT s5.toks.next := hexp6.1.2.1
          have h10 := MT_next_le s5.toks hexp4.1.2.2
          omega
        · simp [hmc2]
          refine okE_pbind (okE_pure hexp4.1.2.2 ()) ?_
          intro a6 s6 he6
          injection he6 with h1 h2
          have hw6 : wfS s6 := by
            rw [← h1]
            exact hexp4.1.2.2
          have hM6 : MS s6 ≤ m - 1 := by
            rw [← h1]
            exact hM5
          exact hdo s6 hw6 hM6
    · simp [hmeq]
      rw [pbind_assoc]
      have hSF := statForNames_term f s2 hok2.2.2 (by
        show muT s2.toks < f
        have h8 : MT s2.toks ≤ m - 1 := hM2
        have h9 : 2 * muT s2.toks + kwBit s2.toks = MT s2.toks := rfl
        omega)
      refine okE_pbind hSF ?_
      intro a3 s3 he3
      have hSF2 := hSF
      rw [he3] at hSF2
      have hM3 : MT s3.toks ≤ m - 1 := le_trans hSF2.1.2.1 hM2
      rcases matchT_cases s3.toks "in" with ⟨hmin, htin⟩ | ⟨hmin, htin⟩
      · simp [hmin]
        rw [pbind_assoc]
        refine okE_pbind (okE_toks_next _ hSF2.1.2.2 rfl
          (by simp [htin]) ()) ?_
        intro a4 s4 he4
        injection he4 with h1 h2
        have hw4 : wfS s4 := by
          rw [← h1]
          exact wfT_next _
        have hM4 : MT s4.toks ≤ m - 1 := by
          rw [← h1]
          show MT s3.toks.next ≤ m - 1
          have h8 := MT_next_le s3.toks hSF2.1.2.2
          omega
        have hexl := explist_term (m - 1) s4 f hw4 hM4 (by omega)
        refine okE_pbind hexl ?_
        intro a5 s5 he5
        have hexl2 := hexl
        rw [he5] at hexl2
        refine hdo s5 hexl2.1.2.2 ?_
        show MT s5.toks ≤ m - 1
        have h8 : MT s5.toks ≤ MT s4.toks := hexl2.1.2.1
        have h9 : MT s4.toks ≤ m - 1 := hM4
        omega
      · simp [hmin]
        rw [pbind_assoc]
        refine okE_pbind (okE_e hSF2.1.2.2 "in"
          "expected in \x27for\x27 loop") ?_
        intro a4 s4 he4
        have hok4 := okD_e hSF2.1.2.2 "in" "expected in \x27for\x27 loop"
        rw [he4] at hok4
        have hw4 := hok4.2.2
        have hM4 : MT s4.toks ≤ m - 1 := le_trans hok4.2.1 hM3
        have hexl := explist_term (m - 1) s4 f hw4 hM4 (by omega)
        refine okE_pbind hexl ?_
        intro a5 s5 he5
        have hexl2 := hexl
        rw [he5] at hexl2
        refine hdo s5 hexl2.1.2.2 ?_
        show MT s5.toks ≤ m - 1
        have h8 : MT s5.toks ≤ MT s4.toks := hexl2.1.2.1
        omega
  · have hkw : kwBit s.toks = 1 := by
      simp [kwBit, ht1, ht2, ht3, ht4, ht5, ht6, ht7]
    have hvv := varorfunctioncall_term m false cond s f hw hM (by omega)
    rcases hsv : Parser.varorfunctioncall f false cond s with ⟨s1, r1⟩
    rw [hsv] at hvv
    rcases r1 with b | ex | -
    · cases b
      · simp [Parser.stat, hm1, hm2, hm3, hm4, hm5, hm6, hm7, hsv]
        refine ⟨⟨⟨by simp, hvv.1.1.2.1, hvv.1.1.2.2⟩,
          fun b2 hb2 => nomatch hb2⟩, ?_⟩
        intro a ha
        rcases hvv.2 false rfl with hstrict | ⟨-, hbit⟩
        · exact hstrict
        · have h8 : muT s1.toks ≤ muT s.toks := muT_le_of_MT_le hvv.1.1.2.1
          have hbit2 : kwBit s1.toks = 0 := hbit
          show MT s1.toks < MT s.toks
          simp only [MT]
          rw [hbit2, hkw]
          omega
      · have hstrict : MS s1 < MS s := by
          rcases hvv.2 true rfl with h | ⟨hfalse, -⟩
          · exact h
          · exact nomatch hfalse
        have h4 : MT s1.toks < MT s.toks := hstrict
        have hm' : 1 ≤ m := by omega
        simp [Parser.stat, hm1, hm2, hm3, hm4, hm5, hm6, hm7, hsv]
        have hsv1 := statVarlist_term (m - 1) s1 f hvv.1.1.2.2
          (by show MT s1.toks ≤ m - 1; omega) (by omega)
        refine okE_mono_lt (okE_pbind hsv1 ?_) hstrict
        intro a s2 he2
        have hsv2 := hsv1
        rw [he2] at hsv2
        have hM2 : MT s2.toks ≤ m - 1 := by
          have h8 : MT s2.toks ≤ MT s1.toks := hsv2.1.2.1
          omega
        rcases matchT_cases s2.toks "=" with ⟨hme, hte⟩ | ⟨hme, hte⟩
        · simp [hme]
          have hle2 : MS ({ s2 with toks := s2.toks.next } : PState) ≤
              MS s2 := MT_next_le s2.toks hsv2.1.2.2
          exact okE_mono (explist_term (m - 1)
            ({ s2 with toks := s2.toks.next }) f (wfT_next _) (by
              show MT s2.toks.next ≤ m - 1
              have h9 := MT_next_le s2.toks hsv2.1.2.2
              omega) (by omega)) hle2
        · simp [hme]
          exact okE_e hsv2.1.2.2 "=" "expected"
    · simp [Parser.stat, hm1, hm2, hm3, hm4, hm5, hm6, hm7, hsv]
      refine ⟨⟨⟨by simp, hvv.1.1.2.1, hvv.1.1.2.2⟩, ?_⟩,
        fun a ha => nomatch ha⟩
      intro b2 hb2
      have hb3 : Res.exc (α := Unit) ex = Res.exc (PExc.endOfScopeE b2) := hb2
      injection hb3 with h3
      subst h3
      exact hvv.1.2 b2 rfl
    · exact absurd rfl hvv.1.1.1
termination_by 32 * m + 20

/-- Termination of the statement loop of `Parser.chunk`: a nonempty
terminator means a token was consumed. -/
theorem chunkGo_term (m : Nat) (cond : List (Option String))
    (broken : Bool) (s : PState) (fuel : Nat)
    (hw : wfS s) (hM : MS s ≤ m) (hf : 32 * m + 21 ≤ fuel) :
    okE s (Parser.chunkGo fuel cond broken s) ∧
    (∀ str, (Parser.chunkGo fuel cond broken s).2 = Res.ok (some str) →
      str ≠ "" → MS (Parser.chunkGo fuel cond broken s).1 < MS s) := by
  cases fuel with
  | zero => exact absurd hf (by omega)
  | succ f =>
  have hMs : MT s.toks ≤ m := hM
  by_cases hcnt : s.toks.t ∈ cond
  · rw [show Parser.chunkGo (f + 1) cond broken s =
        ({ s with toks := s.toks.next }, Res.ok s.toks.t) from by
      simp [Parser.chunkGo, hcnt]]
    constructor
    · exact ⟨⟨by simp, MT_next_le s.toks hw, wfT_next s.toks⟩,
        fun b hb => nomatch hb⟩
    · intro str hstr hne
      have h2 : Res.ok (α := Option String) s.toks.t =
          Res.ok (some str) := hstr
      injection h2 with h3
      exact MT_next_lt s.toks (by simp [h3])
  · by_cases htn : s.toks.t = none
    · have hcnt2 : ¬((none : Option String) ∈ cond) := htn ▸ hcnt
      rw [show Parser.chunkGo (f + 1) cond broken s =
          Parser.pbind (Parser.e "" "Scope not closed" s)
            (fun _ s => (s, Res.ok (some ""))) from by
        simp [Parser.chunkGo, hcnt2, htn]]
      constructor
      · refine okE_pbind (okE_e hw "" _) ?_
        intro a s2 he2
        have hok2 := okD_e hw "" "Scope not closed"
        rw [he2] at hok2
        exact okE_pure hok2.2.2 (some "")
      · intro str hstr hne
        have hv : (Parser.pbind (Parser.e "" "Scope not closed" s)
            (fun _ s => (s, Res.ok (some "")))).2 = Res.ok (some "") := by
          rw [e_empty_eq]
          simp [Parser.pbind]
        rw [hv] at hstr
        injection hstr with h3
        injection h3 with h4
        exact absurd h4.symm hne
    · by_cases hbk : broken = true
      · rw [show Parser.chunkGo (f + 1) cond broken s =
            Parser.e_set cond true
              "Scope not closed after \x27break\x27 or \x27return\x27" s
            from by simp [Parser.chunkGo, hcnt, htn, hbk]]
        constructor
        · exact okE_e_set hw cond true _
        · intro str hstr hne
          have hes := e_set_spec cond true
            "Scope not closed after \x27break\x27 or \x27return\x27" s
          rcases hes.2.2.2 rfl (some str) hstr with ⟨heq, hval⟩ |
            ⟨hnext, hsome⟩
          · injection hval with h3
            exact absurd h3 hne
          · simp only [MS]
            rw [hnext]
            exact MT_next_lt s.toks hsome
      · rcases matchT_cases s.toks "break" with ⟨hmb, htb⟩ | ⟨hmb, htb⟩
        · have hsomeB : s.toks.t.isSome := by simp [htb]
          have hlt1 : MT s.toks.next < MT s.toks := MT_next_lt s.toks hsomeB
          have hm' : 1 ≤ m := by omega
          rcases matchT_cases s.toks.next ";" with ⟨hms, hts⟩ | ⟨hms, hts⟩
          · rw [show Parser.chunkGo (f + 1) cond broken s =
                Parser.chunkGo f cond true
                  ({ s with toks := s.toks.next.next }) from by
              simp [Parser.chunkGo, hcnt, htn, hbk, hmb, hms]]
            have h6 := MT_next_le s.toks.next (wfT_next _)
            have hM1 : MS ({ s with toks := s.toks.next.next } : PState) ≤
                m - 1 := by
              show MT s.toks.next.next ≤ m - 1
              omega
            have hcg := chunkGo_term (m - 1) cond true
              ({ s with toks := s.toks.next.next }) f (wfT_next _) hM1
              (by omega)
            have hltS : MS ({ s with toks := s.toks.next.next } : PState) <
                MS s := by
              show MT s.toks.next.next < MT s.toks
              omega
            constructor
            · exact okE_mono hcg.1 (le_of_lt hltS)
            · intro str hstr hne
              exact lt_of_le_of_lt hcg.1.1.2.1 hltS
          · rw [show Parser.chunkGo (f + 1) cond broken s =
                Parser.chunkGo f cond true
                  ({ s with toks := s.toks.next }) from by
              simp [Parser.chunkGo, hcnt, htn, hbk, hmb, hms]]
            have hM1 : MS ({ s with toks := s.toks.next } : PState) ≤
                m - 1 := by
              show MT s.toks.next ≤ m - 1
              omega
            have hcg := chunkGo_term (m - 1) cond true
              ({ s with toks := s.toks.next }) f (wfT_next _) hM1 (by omega)
            constructor
            · exact okE_mono hcg.1 (le_of_lt hlt1)
            · intro str hstr hne
              exact lt_of_le_of_lt hcg.1.1.2.1 hlt1
        · rcases matchT_cases s.toks "return" with ⟨hmr, htr⟩ | ⟨hmr, htr⟩
          · have hsomeR : s.toks.t.isSome := by simp [htr]
            have hlt1 : MT s.toks.next < MT s.toks := MT_next_lt s.toks hsomeR
            have hm' : 1 ≤ m := by omega
            have hw1 : wfS ({ s with toks := s.toks.next } : PState) :=
              wfT_next s.toks
            have hM1 : MS ({ s with toks := s.toks.next } : PState) ≤
                m - 1 := by
              show MT s.toks.next ≤ m - 1
              omega
            have hcore : okE ({ s with toks := s.toks.next } : PState)
                (Parser.pbind
                  (if ¬cond.contains ({ s with toks := s.toks.next } :
                        PState).toks.t &&
                      !({ s with toks := s.toks.next } :
                        PState).toks.empty then
                    Parser.explist f { s with toks := s.toks.next }
                  else ({ s with toks := s.toks.next }, Res.ok ()))
                  (fun _ s => Parser.chunkGo f cond true
                    { s with toks := (s.toks.matchT ";").2 })) := by
              have hrec : ∀ s2 : PState, wfS s2 → MS s2 ≤ m - 1 →
                  okE s2 (Parser.chunkGo f cond true
                    { s2 with toks := (s2.toks.matchT ";").2 }) := by
                intro s2 hw2 hM2
                rcases matchT_cases s2.toks ";" with ⟨hms, hts⟩ |
                  ⟨hms, hts⟩
                · rw [hms]
                  have h6 := MT_next_le s2.toks hw2
                  have h7 : MT s2.toks ≤ m - 1 := hM2
                  have hcg := chunkGo_term (m - 1) cond true
                    ({ s2 with toks := s2.toks.next }) f (wfT_next _)
                    (by show MT s2.toks.next ≤ m - 1; omega) (by omega)
                  exact okE_mono hcg.1 (MT_next_le s2.toks hw2)
                · rw [hms]
                  have hcg := chunkGo_term (m - 1) cond true
                    ({ s2 with toks := s2.toks }) f hw2 hM2 (by omega)
                  exact okE_mono hcg.1 (le_refl _)
              refine okE_pbind ?_ ?_
              · split
                · exact explist_term (m - 1) ({ s with toks := s.toks.next })
                    f hw1 hM1 (by omega)
                · exact okE_pure hw1 ()
              · intro a s2 he2
                split at he2
                · have hexl := explist_term (m - 1)
                    ({ s with toks := s.toks.next }) f hw1 hM1 (by omega)
                  rw [he2] at hexl
                  exact hrec s2 hexl.1.2.2 (le_trans hexl.1.2.1 hM1)
                · injection he2 with h1 h2
                  subst h1
                  exact hrec _ hw1 hM1
            rw [show Parser.chunkGo (f + 1) cond broken s =
                Parser.pbind
                  (if ¬cond.contains ({ s with toks := s.toks.next } :
                        PState).toks.t &&
                      !({ s with toks := s.toks.next } :
                        PState).toks.empty then
                    Parser.explist f { s with toks := s.toks.next }
                  else ({ s with toks := s.toks.next }, Res.ok ()))
                  (fun _ s => Parser.chunkGo f cond true
                    { s with toks := (s.toks.matchT ";").2 }) from by
              simp [Parser.chunkGo, hcnt, htn, hbk, hmb, hmr]]
            constructor
            · exact okE_mono hcore (le_of_lt hlt1)
            · intro str hstr hne
              exact (okE_mono_lt hcore hlt1).2 (some str) hstr
          · have hst := stat_term m cond s f hw hM (by omega)
            rcases hsv : Parser.stat f cond s with ⟨s1, r1⟩
            rw [hsv] at hst
            rcases r1 with a | ex | -
            · have hlt1 : MS s1 < MS s := hst.2 a rfl
              have h4 : MT s1.toks < MT s.toks := hlt1
              have hm' : 1 ≤ m := by omega
              have hw1 : wfS s1 := hst.1.1.2.2
              rcases matchT_cases s1.toks ";" with ⟨hms, hts⟩ | ⟨hms, hts⟩
              · rw [show Parser.chunkGo (f + 1) cond broken s =
                    Parser.chunkGo f cond broken
                      ({ s1 with toks := s1.toks.next }) from by
                  simp [Parser.chunkGo, hcnt, htn, hbk, hmb, hmr, hsv, hms]]
                have h6 := MT_next_le s1.toks hw1
                have hM1 : MS ({ s1 with toks := s1.toks.next } : PState) ≤
                    m - 1 := by
                  show MT s1.toks.next ≤ m - 1
                  omega
                have hcg := chunkGo_term (m - 1) cond broken
                  ({ s1 with toks := s1.toks.next }) f (wfT_next _) hM1
                  (by omega)
                have hltS : MS ({ s1 with toks := s1.toks.next } : PState) <
                    MS s := by
                  show MT s1.toks.next < MT s.toks
                  omega
                constructor
                · exact okE_mono hcg.1 (le_of_lt hltS)
                · intro str hstr hne
                  exact lt_of_le_of_lt hcg.1.1.2.1 hltS
              · rw [show Parser.chunkGo (f + 1) cond broken s =
                    Parser.chunkGo f cond broken s1 from by
                  simp [Parser.chunkGo, hcnt, htn, hbk, hmb, hmr, hsv, hms]]
                have hM1 : MS s1 ≤ m - 1 := by
                  show MT s1.toks ≤ m - 1
                  omega
                have hcg := chunkGo_term (m - 1) cond broken s1 f hw1 hM1
                  (by omega)
                constructor
                · exact okE_mono hcg.1 (le_of_lt hlt1)
                · intro str hstr hne
                  exact lt_of_le_of_lt hcg.1.1.2.1 hlt1
            · rcases ex with ⟨msg, ln, ps⟩ | b | - | - | -
              · rw [show Parser.chunkGo (f + 1) cond broken s =
                    (s1, Res.exc (PExc.ellipsisE msg ln ps)) from by
                  simp [Parser.chunkGo, hcnt, htn, hbk, hmb, hmr, hsv]]
                refine ⟨⟨⟨by simp, hst.1.1.2.1, hst.1.1.2.2⟩, ?_⟩, ?_⟩
                · intro b hb
                  have hb2 : Res.exc (α := Option String)
                      (PExc.ellipsisE msg ln ps) =
                      Res.exc (PExc.endOfScopeE b) := hb
                  injection hb2 with h2
                  exact nomatch h2
                · intro str hstr hne
                  exact nomatch hstr
              · rw [show Parser.chunkGo (f + 1) cond broken s =
                    (s1, Res.ok (some b)) from by
                  simp [Parser.chunkGo, hcnt, htn, hbk, hmb, hmr, hsv]]
                have heos := hst.1.2 b rfl
                refine ⟨⟨⟨by simp, hst.1.1.2.1, hst.1.1.2.2⟩,
                  fun b2 hb2 => nomatch hb2⟩, ?_⟩
                intro str hstr hne
                exact heos.1
              · rw [show Parser.chunkGo (f + 1) cond broken s =
                    (s1, Res.exc PExc.stopIteration) from by
                  simp [Parser.chunkGo, hcnt, htn, hbk, hmb, hmr, hsv]]
                refine ⟨⟨⟨by simp, hst.1.1.2.1, hst.1.1.2.2⟩, ?_⟩, ?_⟩
                · intro b hb
                  have hb2 : Res.exc (α := Option String)
                      PExc.stopIteration =
                      Res.exc (PExc.endOfScopeE b) := hb
                  injection hb2 with h2
                  exact nomatch h2
                · intro str hstr hne
                  exact nomatch hstr
              · rw [show Parser.chunkGo (f + 1) cond broken s =
                    (s1, Res.exc PExc.typeError) from by
                  simp [Parser.chunkGo, hcnt, htn, hbk, hmb, hmr, hsv]]
                refine ⟨⟨⟨by simp, hst.1.1.2.1, hst.1.1.2.2⟩, ?_⟩, ?_⟩
                · intro b hb
                  have hb2 : Res.exc (α := Option String) PExc.typeError =
                      Res.exc (PExc.endOfScopeE b) := hb
                  injection hb2 with h2
                  exact nomatch h2
                · intro str hstr hne
                  exact nomatch hstr
              · rw [show Parser.chunkGo (f + 1) cond broken s =
                    (s1, Res.exc PExc.unboundLocal) from by
                  simp [Parser.chunkGo, hcnt, htn, hbk, hmb, hmr, hsv]]
                refine ⟨⟨⟨by simp, hst.1.1.2.1, hst.1.1.2.2⟩, ?_⟩, ?_⟩
                · intro b hb
                  have hb2 : Res.exc (α := Option String) PExc.unboundLocal =
                      Res.exc (PExc.endOfScopeE b) := hb
                  injection hb2 with h2
                  exact nomatch h2
                · intro str hstr hne
                  exact nomatch hstr
            · exact absurd rfl hst.1.1.1
termination_by 32 * m + 21

/-- Termination of `Parser.chunk`. -/
theorem chunk_term (m : Nat) (cond : List (Option String)) (s : PState)
    (fuel : Nat) (hw : wfS s) (hM : MS s ≤ m) (hf : 32 * m + 22 ≤ fuel) :
    okE s (Parser.chunk fuel cond s) ∧
    (∀ str, (Parser.chunk fuel cond s).2 = Res.ok (some str) →
      str ≠ "" → MS (Parser.chunk fuel cond s).1 < MS s) := by
  cases fuel with
  | zero => exact absurd hf (by omega)
  | succ f =>
  rw [show Parser.chunk (f + 1) cond s = Parser.chunkGo f cond false s
      from by simp [Parser.chunk]]
  exact chunkGo_term m cond false s f hw hM (by omega)
termination_by 32 * m + 22

/-- Termination of the `elseif` loop of `Parser.stat`. -/
theorem statElseif_term (m : Nat) (temp : Option String) (s : PState)
    (fuel : Nat) (hw : wfS s) (hM : MS s ≤ m) (hf : 32 * m + 24 ≤ fuel) :
    okE s (Parser.statElseif fuel temp s) := by
  cases fuel with
  | zero => exact absurd hf (by omega)
  | succ f =>
  have hMs : MT s.toks ≤ m := hM
  have hafter : ∀ s3 : PState, wfS s3 → MS s3 ≤ m →
      okE s3 (Parser.pbind
        (Parser.chunk f [some "elseif", some "else", some "end"] s3)
        (fun temp s => Parser.statElseif f temp s)) := by
    intro s3 hw3 hM3
    have hch := chunk_term m [some "elseif", some "else", some "end"] s3 f
      hw3 hM3 (by omega)
    refine okE_pbind hch.1 ?_
    intro temp2 s4 he4
    rw [he4] at hch
    have hw4 : wfS s4 := hch.1.1.2.2
    have hM4 : MS s4 ≤ MS s3 := hch.1.1.2.1
    rcases temp2 with - | str
    · obtain ⟨f2, rfl⟩ : ∃ f2, f = f2 + 1 := ⟨f - 1, by omega⟩
      rw [show Parser.statElseif (f2 + 1) none s4 = (s4, Res.ok ()) from by
        simp [Parser.statElseif]]
      exact okE_pure hw4 ()
    · by_cases hstr : str = ""
      · subst hstr
        obtain ⟨f2, rfl⟩ : ∃ f2, f = f2 + 1 := ⟨f - 1, by omega⟩
        rw [show Parser.statElseif (f2 + 1) (some "") s4 = (s4, Res.ok ())
            from by simp [Parser.statElseif]]
        exact okE_pure hw4 ()
      · have hlt4 : MS s4 < MS s3 := hch.2 str rfl hstr
        have h4 : MT s4.toks < MT s3.toks := hlt4
        have h5 : MT s3.toks ≤ m := hM3
        have hm' : 1 ≤ m := by omega
        exact statElseif_term (m - 1) (some str) s4 f hw4
          (by show MT s4.toks ≤ m - 1; omega) (by omega)
  by_cases ht1 : temp = some "elseif"
  · simp [Parser.statElseif, ht1]
    have hexp0 := exp_term m s f hw hM (by omega)
    refine okE_pbind hexp0 ?_
    intro a s2 he2
    have hexp := hexp0
    rw [he2] at hexp
    have hMs2 : MT s2.toks ≤ m := le_trans hexp.1.2.1 hM
    rcases matchT_cases s2.toks "then" with ⟨hmt, htt⟩ | ⟨hmt, htt⟩
    · simp [hmt]
      refine okE_pbind (okE_toks_next _ hexp.1.2.2 rfl (by simp [htt]) ()) ?_
      intro a3 s3 he3
      injection he3 with h1 h2
      subst h1
      refine hafter _ (wfT_next s2.toks) ?_
      show MT s2.toks.next ≤ m
      have h6 := MT_next_le s2.toks hexp.1.2.2
      omega
    · simp [hmt]
      refine okE_pbind (okE_e hexp.1.2.2 "then"
        "not found after \x27else\x27") ?_
      intro a3 s3 he3
      have hok3 := okD_e hexp.1.2.2 "then" "not found after \x27else\x27"
      rw [he3] at hok3
      exact hafter s3 hok3.2.2 (le_trans hok3.2.1 hMs2)
  · by_cases ht2 : temp = some "else"
    · simp [Parser.statElseif, ht1, ht2]
      have hch := chunk_term m [some "end"] s f hw hM (by omega)
      refine okE_pbind hch.1 ?_
      intro a s2 he2
      have hchE := hch.1
      rw [he2] at hchE
      exact okE_pure hchE.1.2.2 ()
    · simp [Parser.statElseif, ht1, ht2]
      exact okE_pure hw ()
termination_by 32 * m + 24

/-- Termination of `Parser.funcbody`. -/
theorem funcbody_term (m : Nat) (s : PState) (fuel : Nat)
    (hw : wfS s) (hM : MS s ≤ m) (hf : 32 * m + 26 ≤ fuel) :
    okE s (Parser.funcbody fuel s) := by
  cases fuel with
  | zero => exact absurd hf (by omega)
  | succ f =>
  have hMs : MT s.toks ≤ m := hM
  have hch0 : ∀ s9 : PState, wfS s9 → MS s9 ≤ m →
      okE s9 (Parser.pbind
        (Parser.chunk f [some "end"] { s9 with lastfunction := "" })
        (fun _ s => (s, Res.ok ()))) := by
    intro s9 hw9 hM9
    have hch := chunk_term m [some "end"] ({ s9 with lastfunction := "" }) f
      hw9 hM9 (by omega)
    refine okE_mono (okE_pbind hch.1 ?_) (le_refl _)
    intro a s10 he10
    have hch2 := hch.1
    rw [he10] at hch2
    exact okE_pure hch2.1.2.2 ()
  have hfin : ∀ s7 : PState, wfS s7 → MS s7 ≤ m →
      okE s7
        (let (mc2, tkc2) := s7.toks.matchT ")"
         let s8 := { s7 with toks := tkc2 }
         Parser.pbind (if mc2 then (s8, Res.ok ())
             else Parser.e ")" ("expected in function \x27" ++
               s8.lastfunction ++ "\x27") s8)
           (fun _ s =>
             Parser.pbind
               (Parser.chunk f [some "end"] { s with lastfunction := "" })
               (fun _ s => (s, Res.ok ())))) := by
    intro s7 hw7 hM7
    have hM7m : MT s7.toks ≤ m := hM7
    rcases matchT_cases s7.toks ")" with ⟨hmc2, htc2⟩ | ⟨hmc2, htc2⟩
    · simp [hmc2]
      refine okE_pbind (okE_toks_next _ hw7 rfl (by simp [htc2]) ()) ?_
      intro a s9 he9
      injection he9 with h1 h2
      have hw9 : wfS s9 := by
        rw [← h1]
        exact wfT_next _
      have hM9 : MS s9 ≤ m := by
        rw [← h1]
        show MT s7.toks.next ≤ m
        have h8 := MT_next_le s7.toks hw7
        omega
      exact hch0 s9 hw9 hM9
    · simp [hmc2]
      refine okE_pbind (okE_e hw7 ")"
        ("expected in function \x27" ++ s7.lastfunction ++ "\x27")) ?_
      intro a s9 he9
      have hok9 := okD_e hw7 ")"
        ("expected in function \x27" ++ s7.lastfunction ++ "\x27")
      rw [he9] at hok9
      exact hch0 s9 hok9.2.2 (le_trans hok9.2.1 hM7)
  have hrest2 : ∀ s1 : PState, wfS s1 → MS s1 ≤ m →
      okE s1
        (let sB := { s1 with
            functions := funcsSet s1.functions s1.lastfunction [] }
         let (mo, tko) := sB.toks.matchT "("
         let sC := { sB with toks := tko }
         Parser.pbind (if mo then (sC, Res.ok ())
             else Parser.e "(" ("expected in function \x27" ++
               sC.lastfunction ++ "\x27") sC)
           (fun _ s =>
            let (mc, tkc) := s.toks.matchT ")"
            let sD := { s with toks := tkc }
            if mc then (sD, Res.ok ())
            else
              let (md, tkd) := sD.toks.matchT "..."
              Parser.pbind (if md then
                  let sE := { sD with toks := tkd }
                  ({ sE with functions := funcsAppend sE.functions sE.lastfunction ["..."] }, Res.ok ())
                else
                  match Parser.namelist f sD with
                  | (s, Res.ok ps) => ({ s with functions := funcsAppend s.functions s.lastfunction ps }, Res.ok ())
                  | (s, Res.exc (PExc.ellipsisE q1 q2 ps)) => ({ s with functions := funcsAppend s.functions s.lastfunction (ps ++ ["..."]) }, Res.ok ())
                  | (s, Res.exc ex) => (s, Res.exc ex)
                  | (s, Res.fuelOut) => (s, Res.fuelOut))
                (fun _ s =>
                 let (mc2, tkc2) := s.toks.matchT ")"
                 let s8 := { s with toks := tkc2 }
                 Parser.pbind (if mc2 then (s8, Res.ok ())
                     else Parser.e ")" ("expected in function \x27" ++
                       s8.lastfunction ++ "\x27") s8)
                   (fun _ s =>
                    Parser.pbind (Parser.chunk f [some "end"]
                        { s with lastfunction := "" })
                      (fun _ s => (s, Res.ok ())))))) := by
    intro s1 hw1 hM1
    rcases matchT_cases s1.toks "(" with ⟨hmo, hto⟩ | ⟨hmo, hto⟩
    · simp [hmo]
      refine okE_pbind ?_ ?_
      · exact ⟨⟨by simp,
          show MT s1.toks.next ≤ MT s1.toks from MT_next_le s1.toks hw1,
          show wfT s1.toks.next from wfT_next _⟩, fun b hb => nomatch hb⟩
      · intro a2 s4 he4
        injection he4 with h1 h2
        have hw4 : wfS s4 := by
          rw [← h1]
          exact wfT_next _
        have hM4 : MS s4 ≤ m := by
          rw [← h1]
          show MT s1.toks.next ≤ m
          have h8 := MT_next_le s1.toks hw1
          have h9 : MT s1.toks ≤ m := hM1
          omega
        rcases matchT_cases s4.toks ")" with ⟨hmc, htc⟩ | ⟨hmc, htc⟩
        · simp [hmc]
          exact okE_toks_next _ hw4 rfl (by simp [htc]) ()
        · simp [hmc]
          rcases matchT_cases s4.toks "..." with ⟨hmd, htd⟩ | ⟨hmd, htd⟩
          · simp [hmd]
            refine okE_pbind ?_ ?_
            · exact ⟨⟨by simp,
                show MT s4.toks.next ≤ MT s4.toks from MT_next_le s4.toks hw4,
                show wfT s4.toks.next from wfT_next _⟩,
                fun b hb => nomatch hb⟩
            · intro a3 s7 he7
              injection he7 with h3 h4
              have hw7 : wfS s7 := by
                rw [← h3]
                exact wfT_next _
              have hM7 : MS s7 ≤ m := by
                rw [← h3]
                show MT s4.toks.next ≤ m
                have h8 := MT_next_le s4.toks hw4
                have h9 : MT s4.toks ≤ m := hM4
                omega
              exact hfin s7 hw7 hM7
          · simp [hmd]
            have hNL := namelist_term f s4 hw4 (by
              have h8 : MT s4.toks ≤ m := hM4
              have h9 := kwBit_le_one s4.toks
              simp only [MT] at h8
              omega)
            rcases hnl : Parser.namelist f s4 with ⟨s6, r6⟩
            rw [hnl] at hNL
            rcases r6 with ps | ex6 | -
            · simp [hnl]
              refine okE_pbind ?_ ?_
              · exact ⟨⟨by simp, show MS s6 ≤ MS s4 from hNL.1.2.1,
                  hNL.1.2.2⟩, fun b hb => nomatch hb⟩
              · intro a3 s7 he7
                injection he7 with h3 h4
                have hw7 : wfS s7 := by
                  rw [← h3]
                  exact hNL.1.2.2
                have hM7 : MS s7 ≤ m := by
                  rw [← h3]
                  show MT s6.toks ≤ m
                  have h8 : MT s6.toks ≤ MT s4.toks := hNL.1.2.1
                  have h9 : MT s4.toks ≤ m := hM4
                  omega
                exact hfin s7 hw7 hM7
            · rcases ex6 with ⟨msg6, ln6, ps6⟩ | b6 | - | - | -
              · simp [hnl]
                refine okE_pbind ?_ ?_
                · exact ⟨⟨by simp, show MS s6 ≤ MS s4 from hNL.1.2.1,
                    hNL.1.2.2⟩, fun b hb => nomatch hb⟩
                · intro a3 s7 he7
                  injection he7 with h3 h4
                  have hw7 : wfS s7 := by
                    rw [← h3]
                    exact hNL.1.2.2
                  have hM7 : MS s7 ≤ m := by
                    rw [← h3]
                    show MT s6.toks ≤ m
                    have h8 : MT s6.toks ≤ MT s4.toks := hNL.1.2.1
                    have h9 : MT s4.toks ≤ m := hM4
                    omega
                  exact hfin s7 hw7 hM7
              · simp [hnl]
                refine okE_pbind ⟨⟨by simp, hNL.1.2.1, hNL.1.2.2⟩, ?_⟩ ?_
                · intro b hb
                  have hb2 : Res.exc (α := Unit) (PExc.endOfScopeE b6) =
                      Res.exc (PExc.endOfScopeE b) := hb
                  injection hb2 with h3
                  injection h3 with h4
                  subst h4
                  exact hNL.2 b6 rfl
                · intro a3 s7 he7
                  injection he7 with h3 h4
                  exact nomatch h4
              · simp [hnl]
                refine okE_pbind ⟨⟨by simp, hNL.1.2.1, hNL.1.2.2⟩, ?_⟩ ?_
                · intro b hb
                  have hb2 : Res.exc (α := Unit) PExc.stopIteration =
                      Res.exc (PExc.endOfScopeE b) := hb
                  injection hb2 with h3
                  exact nomatch h3
                · intro a3 s7 he7
                  injection he7 with h3 h4
                  exact nomatch h4
              · simp [hnl]
                refine okE_pbind ⟨⟨by simp, hNL.1.2.1, hNL.1.2.2⟩, ?_⟩ ?_
                · intro b hb
                  have hb2 : Res.exc (α := Unit) PExc.typeError =
                      Res.exc (PExc.endOfScopeE b) := hb
                  injection hb2 with h3
                  exact nomatch h3
                · intro a3 s7 he7
                  injection he7 with h3 h4
                  exact nomatch h4
              · simp [hnl]
                refine okE_pbind ⟨⟨by simp, hNL.1.2.1, hNL.1.2.2⟩, ?_⟩ ?_
                · intro b hb
                  have hb2 : Res.exc (α := Unit) PExc.unboundLocal =
                      Res.exc (PExc.endOfScopeE b) := hb
                  injection hb2 with h3
                  exact nomatch h3
                · intro a3 s7 he7
                  injection he7 with h3 h4
                  exact nomatch h4
            · exact absurd rfl hNL.1.1
    · simp [hmo]
      refine okE_pbind ?_ ?_
      · exact okE_mono (okE_e (show wfS ({ s1 with functions := funcsSet s1.functions s1.lastfunction [] } : PState) from hw1)
          "(" ("expected in function \x27" ++ s1.lastfunction ++ "\x27"))
          (le_refl _)
      · intro a2 s4 he4
        have hok4 := okD_e (show wfS ({ s1 with functions := funcsSet s1.functions s1.lastfunction [] } : PState) from hw1)
          "(" ("expected in function \x27" ++ s1.lastfunction ++ "\x27")
        rw [he4] at hok4
        have hw4 : wfS s4 := hok4.2.2
        have hM4 : MS s4 ≤ m := by
          have h9 : MT s4.toks ≤ MT s1.toks := hok4.2.1
          have h10 : MT s1.toks ≤ m := hM1
          show MT s4.toks ≤ m
          omega
        rcases matchT_cases s4.toks ")" with ⟨hmc, htc⟩ | ⟨hmc, htc⟩
        · simp [hmc]
          exact okE_toks_next _ hw4 rfl (by simp [htc]) ()
        · simp [hmc]
          rcases matchT_cases s4.toks "..." with ⟨hmd, htd⟩ | ⟨hmd, htd⟩
          · simp [hmd]
            refine okE_pbind ?_ ?_
            · exact ⟨⟨by simp,
                show MT s4.toks.next ≤ MT s4.toks from MT_next_le s4.toks hw4,
                show wfT s4.toks.next from wfT_next _⟩,
                fun b hb => nomatch hb⟩
            · intro a3 s7 he7
              injection he7 with h3 h4
              have hw7 : wfS s7 := by
                rw [← h3]
                exact wfT_next _
              have hM7 : MS s7 ≤ m := by
                rw [← h3]
                show MT s4.toks.next ≤ m
                have h8 := MT_next_le s4.toks hw4
                have h9 : MT s4.toks ≤ m := hM4
                omega
              exact hfin s7 hw7 hM7
          · simp [hmd]
            have hNL := namelist_term f s4 hw4 (by
              have h8 : MT s4.toks ≤ m := hM4
              have h9 := kwBit_le_one s4.toks
              simp only [MT] at h8
              omega)
            rcases hnl : Parser.namelist f s4 with ⟨s6, r6⟩
            rw [hnl] at hNL
            rcases r6 with ps | ex6 | -
            · simp [hnl]
              refine okE_pbind ?_ ?_
              · exact ⟨⟨by simp, show MS s6 ≤ MS s4 from hNL.1.2.1,
                  hNL.1.2.2⟩, fun b hb => nomatch hb⟩
              · intro a3 s7 he7
                injection he7 with h3 h4
                have hw7 : wfS s7 := by
                  rw [← h3]
                  exact hNL.1.2.2
                have hM7 : MS s7 ≤ m := by
                  rw [← h3]
                  show MT s6.toks ≤ m
                  have h8 : MT s6.toks ≤ MT s4.toks := hNL.1.2.1
                  have h9 : MT s4.toks ≤ m := hM4
                  omega
                exact hfin s7 hw7 hM7
            · rcases ex6 with ⟨msg6, ln6, ps6⟩ | b6 | - | - | -
              · simp [hnl]
                refine okE_pbind ?_ ?_
                · exact ⟨⟨by simp, show MS s6 ≤ MS s4 from hNL.1.2.1,
                    hNL.1.2.2⟩, fun b hb => nomatch hb⟩
                · intro a3 s7 he7
                  injection he7 with h3 h4
                  have hw7 : wfS s7 := by
                    rw [← h3]
                    exact hNL.1.2.2
                  have hM7 : MS s7 ≤ m := by
                    rw [← h3]
                    show MT s6.toks ≤ m
                    have h8 : MT s6.toks ≤ MT s4.toks := hNL.1.2.1
                    have h9 : MT s4.toks ≤ m := hM4
                    omega
                  exact hfin s7 hw7 hM7
              · simp [hnl]
                refine okE_pbind ⟨⟨by simp, hNL.1.2.1, hNL.1.2.2⟩, ?_⟩ ?_
                · intro b hb
                  have hb2 : Res.exc (α := Unit) (PExc.endOfScopeE b6) =
                      Res.exc (PExc.endOfScopeE b) := hb
                  injection hb2 with h3
                  injection h3 with h4
                  subst h4
                  exact hNL.2 b6 rfl
                · intro a3 s7 he7
                  injection he7 with h3 h4
                  exact nomatch h4
              · simp [hnl]
                refine okE_pbind ⟨⟨by simp, hNL.1.2.1, hNL.1.2.2⟩, ?_⟩ ?_
                · intro b hb
                  have hb2 : Res.exc (α := Unit) PExc.stopIteration =
                      Res.exc (PExc.endOfScopeE b) := hb
                  injection hb2 with h3
                  exact nomatch h3
                · intro a3 s7 he7
                  injection he7 with h3 h4
                  exact nomatch h4
              · simp [hnl]
                refine okE_pbind ⟨⟨by simp, hNL.1.2.1, hNL.1.2.2⟩, ?_⟩ ?_
                · intro b hb
                  have hb2 : Res.exc (α := Unit) PExc.typeError =
                      Res.exc (PExc.endOfScopeE b) := hb
                  injection hb2 with h3
                  exact nomatch h3
                · intro a3 s7 he7
                  injection he7 with h3 h4
                  exact nomatch h4
              · simp [hnl]
                refine okE_pbind ⟨⟨by simp, hNL.1.2.1, hNL.1.2.2⟩, ?_⟩ ?_
                · intro b hb
                  have hb2 : Res.exc (α := Unit) PExc.unboundLocal =
                      Res.exc (PExc.endOfScopeE b) := hb
                  injection hb2 with h3
                  exact nomatch h3
                · intro a3 s7 he7
                  injection he7 with h3 h4
                  exact nomatch h4
            · exact absurd rfl hNL.1.1
  by_cases hlf : s.lastfunction = ""
  · simp [Parser.funcbody, hlf]
    by_cases hlk : (funcsLookup s.functions ("Unnamed function " ++
        toString s.unnamed_function ++ " on line " ++
        lineStr s.toks.line)).isSome = true
    · simp [hlk]
      refine okE_pbind ?_ ?_
      · exact okE_mono (okE_e (show wfS ({ s with lastfunction := "Unnamed function " ++ toString s.unnamed_function ++ " on line " ++ lineStr s.toks.line, unnamed_function := s.unnamed_function + 1 } : PState) from hw)
          "" ("Function \x27" ++ ("Unnamed function " ++
            toString s.unnamed_function ++ " on line " ++
            lineStr s.toks.line) ++ "\x27 defined multiple times"))
          (le_refl _)
      · intro a s1 he1
        have hok1 := okD_e (show wfS ({ s with lastfunction := "Unnamed function " ++ toString s.unnamed_function ++ " on line " ++ lineStr s.toks.line, unnamed_function := s.unnamed_function + 1 } : PState) from hw)
          "" ("Function \x27" ++ ("Unnamed function " ++
            toString s.unnamed_function ++ " on line " ++
            lineStr s.toks.line) ++ "\x27 defined multiple times")
        rw [he1] at hok1
        exact hrest2 s1 hok1.2.2 (le_trans hok1.2.1 hM)
    · simp [hlk]
      refine okE_pbind ?_ ?_
      · exact ⟨⟨by simp, le_refl _, hw⟩, fun b hb => nomatch hb⟩
      · intro a s1 he1
        injection he1 with h1 h2
        have hw1 : wfS s1 := by
          rw [← h1]
          exact hw
        have hM1 : MS s1 ≤ m := by
          rw [← h1]
          exact hM
        exact hrest2 s1 hw1 hM1
  · simp [Parser.funcbody, hlf]
    by_cases hlk : (funcsLookup s.functions s.lastfunction).isSome = true
    · simp [hlk]
      refine okE_pbind ?_ ?_
      · exact okE_mono (okE_e hw "" ("Function \x27" ++ s.lastfunction ++
          "\x27 defined multiple times")) (le_refl _)
      · intro a s1 he1
        have hok1 := okD_e hw "" ("Function \x27" ++ s.lastfunction ++
          "\x27 defined multiple times")
        rw [he1] at hok1
        exact hrest2 s1 hok1.2.2 (le_trans hok1.2.1 hM)
    · simp [hlk]
      refine okE_pbind ?_ ?_
      · exact ⟨⟨by simp, le_refl _, hw⟩, fun b hb => nomatch hb⟩
      · intro a s1 he1
        injection he1 with h1 h2
        have hw1 : wfS s1 := by
          rw [← h1]
          exact hw
        have hM1 : MS s1 ≤ m := by
          rw [← h1]
          exact hM
        exact hrest2 s1 hw1 hM1
termination_by 32 * m + 26

end

/-- The lexer is fuel-stable: any fuel exceeding the input length yields
the same output (each loop iteration consumes at least one character, and
the abort branch does not recurse). -/
theorem lexer_fuel_stable :
    ∀ (fuel fuel' : Nat) (src : List Char) (line : Nat),
      src.length < fuel → src.length < fuel' →
      Lexer.lexer fuel src line = Lexer.lexer fuel' src line := by
  intro fuel
  induction fuel with
  | zero =>
    intro fuel' src line h h'
    exact absurd h (by omega)
  | succ f ih =>
    intro fuel' src line h h'
    cases fuel' with
    | zero => exact absurd h' (by omega)
    | succ f' =>
    cases src with
    | nil => simp [Lexer.lexer]
    | cons c rest =>
      have hlen : rest.length < f := by
        have : rest.length + 1 < f + 1 := by simpa using h
        omega
      have hlen' : rest.length < f' := by
        have : rest.length + 1 < f' + 1 := by simpa using h'
        omega
      by_cases hsp : isSpaceCh c
      · simp only [Lexer.lexer, if_pos hsp]
        rw [ih f' rest (line + nlCount [c]) hlen hlen']
      · simp only [Lexer.lexer, if_neg hsp]
        rcases hd : Lexer.dispatch c rest with ⟨token, ttype, errs, skipAdj⟩
        simp only [hd]
        split
        · rfl
        · rw [ih f' (rest.drop ((token.length : Int) - 1 + skipAdj).toNat)
            _ (by
              have := List.length_drop
                ((token.length : Int) - 1 + skipAdj).toNat rest
              omega)
            (by
              have := List.length_drop
                ((token.length : Int) - 1 + skipAdj).toNat rest
              omega)]

/-- C7: for every finite input, lexing and parsing terminate.  The lexer,
given any fuel beyond the input length, returns the same completed output
as `lexRun` (so the scanner loop never runs forever on any input,
malformed or not), and the parser pipeline, given the explicitly computed
fuel `32 * MS (stateOf src) + 22` (or any larger fuel), finishes without
exhausting its fuel: its result is never `Res.fuelOut`. -/
theorem C7_lexing_and_parsing_terminate (src : String) :
    (∀ extra : Nat,
      Lexer.lexer (src.data.length + 1 + extra) src.data 1 = lexRun src) ∧
    (∀ extra : Nat,
      (pipeline (32 * MS (stateOf src) + 22 + extra) src).2 ≠
        Res.fuelOut) := by
  constructor
  · intro extra
    exact lexer_fuel_stable _ _ _ _ (by omega) (by omega)
  · intro extra
    have hw : wfS (stateOf src) := wfT_init _
    have hch := chunk_term (MS (stateOf src)) [some "end", none]
      (stateOf src) (32 * MS (stateOf src) + 22 + extra) hw (le_refl _)
      (by omega)
    have hne := hch.1.1.1
    show (Parser.parserRun _ (stateOf src)).2 ≠ Res.fuelOut
    rcases hc : Parser.chunk (32 * MS (stateOf src) + 22 + extra)
      [some "end", none] (stateOf src) with ⟨s1, r1⟩
    rw [hc] at hne
    rcases r1 with a | ex | -
    · simp [Parser.parserRun, hc]
    · rcases ex with ⟨msg, ln, ps⟩ | b | - | - | -
      · simp only [Parser.parserRun, hc]
        exact (e_spec "" msg s1).1
      · simp [Parser.parserRun, hc]
      · simp [Parser.parserRun, hc]
      · simp [Parser.parserRun, hc]
      · simp [Parser.parserRun, hc]
    · exact absurd rfl hne


end LuaParser
